import Mathlib

/-!
Verification of the ADIF streaming codec (crate `adif`): a shallow
embedding of the decoder (`src/parse/mod.rs`), the encoder
(`src/write/mod.rs`) and the record/value model (`src/lib.rs`,
`src/cistring.rs`) over byte lists, together with theorems checking the
specification's claims about round-tripping, incremental decoding,
end-of-stream handling and duplicate-key rejection.

Rust strings and byte buffers are both modelled as `List Nat` of byte
values; lengths are byte counts exactly as in the source.  The external
value libraries used by the crate (`rust_decimal`, `chrono`) are not part
of the repository; their renderings and parsers are modelled from the
spec's canonical formats (decimal text, `YYYYMMDD`, `HHMMSS`).
-/

set_option maxHeartbeats 4000000

namespace Adif

/-- Byte strings: Rust `&[u8]` / `BytesMut` / `String` contents, as a list
of byte values. -/
abbrev ByteStr := List Nat

/-- Bytes of the reserved marker `"eoh"`. -/
def eohBytes : ByteStr := [101, 111, 104]

/-- Bytes of the reserved marker `"eor"`. -/
def eorBytes : ByteStr := [101, 111, 114]

/-- Bytes of the vendor escape marker `"app_lotw_eof"`. -/
def lotwBytes : ByteStr := [97, 112, 112, 95, 108, 111, 116, 119, 95, 101, 111, 102]

/-- Bytes of the message `"partial data at end of stream"`
(`TagDecoder::decode`, parse/mod.rs line 228). -/
def partialMsgBytes : ByteStr :=
  [112, 97, 114, 116, 105, 97, 108, 32, 100, 97, 116, 97, 32, 97, 116, 32,
   101, 110, 100, 32, 111, 102, 32, 115, 116, 114, 101, 97, 109]

/-- Bytes of the message `"DateTime cannot be output directly; split into
date and time fields"` (`TagEncoder::type_indicator`, write/mod.rs lines 95-98). -/
def dtMsgBytes : ByteStr :=
  [68, 97, 116, 101, 84, 105, 109, 101, 32, 99, 97, 110, 110, 111, 116, 32,
   98, 101, 32, 111, 117, 116, 112, 117, 116, 32, 100, 105, 114, 101, 99,
   116, 108, 121, 59, 32, 115, 112, 108, 105, 116, 32, 105, 110, 116, 111,
   32, 100, 97, 116, 101, 32, 97, 110, 100, 32, 116, 105, 109, 101, 32,
   102, 105, 101, 108, 100, 115]

/-- Rust `u8::to_ascii_lowercase`: fold `A`..`Z` (65..90) to `a`..`z`. -/
def toLowerByte (b : Nat) : Nat :=
  if 65 ≤ b ∧ b ≤ 90 then b + 32 else b

/-- Rust `<[u8]>::eq_ignore_ascii_case`: equality after ASCII case folding
(also the equality of `CiString` / `CiStr` in cistring.rs). -/
def ciEq (a b : ByteStr) : Bool :=
  a.map toLowerByte == b.map toLowerByte

/-- Rust `u8::is_ascii_whitespace`: space, tab, newline, form feed,
carriage return. -/
def isWsByte (b : Nat) : Bool :=
  b == 32 || b == 9 || b == 10 || b == 12 || b == 13

/-- Rust `u8::is_ascii_digit`. -/
def isDigitByte (b : Nat) : Bool :=
  48 ≤ b && b ≤ 57

/-- Little-endian base-10 digits of `n`, computed with structural
recursion on a fuel bound so that it evaluates by kernel reduction. -/
def natDigitsAux : Nat → Nat → List Nat
  | _, 0 => []
  | 0, _ + 1 => []
  | fuel + 1, n + 1 => ((n + 1) % 10) :: natDigitsAux fuel ((n + 1) / 10)

/-- Little-endian base-10 digits of `n` (no leading zeros; `[]` for 0). -/
def natDigits10 (n : Nat) : List Nat := natDigitsAux n n

/-- Decimal digit bytes of `n`, most significant first, as produced by
`itoa` / `Display` on unsigned integers. -/
def natRender (n : Nat) : ByteStr :=
  if n = 0 then [48] else ((natDigits10 n).map (· + 48)).reverse

/-- Numeric value of a big-endian list of decimal digit bytes (the
accumulating loop behind integer `FromStr`). -/
def digitsToNat (s : ByteStr) : Nat :=
  s.foldl (fun acc b => acc * 10 + (b - 48)) 0

/-- Rust `usize::from_str`: an optional leading `+`, then one or more
ASCII digits. -/
def parseUsize (s : ByteStr) : Option Nat :=
  let s' := if s.head? = some 43 then s.tail else s
  if s' ≠ [] ∧ s'.all isDigitByte then some (digitsToNat s') else none

/-- Rust `<[u8]>::split(|&b| b == sep)`: split on a separator byte;
`""` gives `[""]`, `"a:"` gives `["a", ""]`. -/
def splitOnByte (sep : Nat) : ByteStr → List ByteStr
  | [] => [[]]
  | b :: rest =>
    if b = sep then [] :: splitOnByte sep rest
    else
      match splitOnByte sep rest with
      | h :: t => (b :: h) :: t
      | [] => [[b]]

/-- Continuation byte of a UTF-8 sequence (`0x80`..`0xBF`). -/
def isUtf8Cont (b : Nat) : Bool :=
  128 ≤ b && b ≤ 191

/-- One step of UTF-8 validation: given a lead byte and the rest of the
input, the input remaining after one well-formed scalar value, or `none`. -/
def utf8Step (b : Nat) (rest : ByteStr) : Option ByteStr :=
  if b < 128 then some rest
  else if 194 ≤ b ∧ b ≤ 223 then
    match rest with
    | c1 :: r => if isUtf8Cont c1 then some r else none
    | [] => none
  else if b = 224 then
    match rest with
    | c1 :: c2 :: r =>
      if (160 ≤ c1 && c1 ≤ 191) && isUtf8Cont c2 then some r else none
    | _ => none
  else if (225 ≤ b ∧ b ≤ 236) ∨ b = 238 ∨ b = 239 then
    match rest with
    | c1 :: c2 :: r => if isUtf8Cont c1 && isUtf8Cont c2 then some r else none
    | _ => none
  else if b = 237 then
    match rest with
    | c1 :: c2 :: r =>
      if (128 ≤ c1 && c1 ≤ 159) && isUtf8Cont c2 then some r else none
    | _ => none
  else if b = 240 then
    match rest with
    | c1 :: c2 :: c3 :: r =>
      if (144 ≤ c1 && c1 ≤ 191) && isUtf8Cont c2 && isUtf8Cont c3 then some r else none
    | _ => none
  else if 241 ≤ b ∧ b ≤ 243 then
    match rest with
    | c1 :: c2 :: c3 :: r =>
      if isUtf8Cont c1 && isUtf8Cont c2 && isUtf8Cont c3 then some r else none
    | _ => none
  else if b = 244 then
    match rest with
    | c1 :: c2 :: c3 :: r =>
      if (128 ≤ c1 && c1 ≤ 143) && isUtf8Cont c2 && isUtf8Cont c3 then some r else none
    | _ => none
  else none

/-- A successful UTF-8 step never lengthens the remaining input. -/
theorem utf8Step_length {b : Nat} {rest r : ByteStr} (h : utf8Step b rest = some r) :
    r.length ≤ rest.length := by
  unfold utf8Step at h
  repeat' split at h
  all_goals first
    | (cases Option.some.inj h; (try simp only [List.length_cons]); omega)
    | exact absurd h (by simp)

/-- The loop of the UTF-8 validation automaton; `fuel` bounds the number
of scalar values and is in practice the input length. -/
def utf8Go : Nat → ByteStr → Bool
  | _, [] => true
  | 0, _ :: _ => false
  | fuel + 1, b :: rest =>
    match utf8Step b rest with
    | some r => utf8Go fuel r
    | none => false

/-- Rust `str::from_utf8(..).is_ok()`: the standard UTF-8 validation
automaton over the byte list. -/
def isValidUtf8 (s : ByteStr) : Bool := utf8Go s.length s

/-- The UTF-8 loop accepts ASCII input whenever the fuel covers it. -/
theorem utf8Go_ascii :
    ∀ (fuel : Nat) (s : ByteStr), s.length ≤ fuel → (∀ b ∈ s, b < 128) →
      utf8Go fuel s = true := by
  intro fuel
  induction fuel with
  | zero =>
    intro s hlen _
    cases s with
    | nil => rfl
    | cons b rest => simp at hlen
  | succ n ih =>
    intro s hlen h
    cases s with
    | nil => rfl
    | cons b rest =>
      have hb : b < 128 := h b (List.mem_cons_self b rest)
      have hstep : utf8Step b rest = some rest := by
        unfold utf8Step
        rw [if_pos hb]
      simp only [utf8Go, hstep]
      exact ih rest (by simp only [List.length_cons] at hlen; omega)
        fun x hx => h x (List.mem_cons_of_mem b hx)

/-- ASCII byte lists are valid UTF-8. -/
theorem isValidUtf8_of_ascii {s : ByteStr} (h : ∀ b ∈ s, b < 128) :
    isValidUtf8 s = true :=
  utf8Go_ascii s.length s le_rfl h

/-! Decimal digit rendering and parsing: the arithmetic facts that make
`Display`/`FromStr` round-trips work. -/

/-- Big-endian digit bytes of `n` without the `n = 0` special case
(`[]` for zero). -/
def natDigitsBE (n : Nat) : ByteStr :=
  ((natDigits10 n).map (· + 48)).reverse

/-- Digit bytes of `n` left-padded with `'0'` to width `k` (the
fixed-width rendering `%02d` / `%04d` and the fraction part of a
decimal). -/
def padRender (k n : Nat) : ByteStr :=
  List.replicate (k - (natDigits10 n).length) 48 ++ natDigitsBE n

theorem natDigitsAux_eq_digits :
    ∀ (fuel n : Nat), n ≤ fuel → natDigitsAux fuel n = Nat.digits 10 n := by
  intro fuel
  induction fuel with
  | zero =>
    intro n h
    rcases Nat.le_zero.mp h with rfl
    simp [natDigitsAux]
  | succ f ih =>
    intro n h
    cases n with
    | zero => simp [natDigitsAux]
    | succ m =>
      rw [natDigitsAux]
      rw [ih ((m + 1) / 10) (by
        have := Nat.div_lt_self (Nat.succ_pos m) (by norm_num : 1 < 10)
        omega)]
      rw [Nat.digits_def' (by norm_num : (1:ℕ) < 10) (Nat.succ_pos m)]

theorem natDigits10_eq (n : Nat) : natDigits10 n = Nat.digits 10 n :=
  natDigitsAux_eq_digits n n le_rfl

theorem natDigitsBE_eq (n : Nat) :
    natDigitsBE n = ((Nat.digits 10 n).map (· + 48)).reverse := by
  rw [natDigitsBE, natDigits10_eq]

theorem padRender_eq (k n : Nat) :
    padRender k n = List.replicate (k - (Nat.digits 10 n).length) 48 ++
      ((Nat.digits 10 n).map (· + 48)).reverse := by
  rw [padRender, natDigitsBE_eq, natDigits10_eq]

theorem digitsToNat_nil : digitsToNat [] = 0 := rfl

theorem digitsToNat_append_singleton (s : ByteStr) (b : Nat) :
    digitsToNat (s ++ [b]) = digitsToNat s * 10 + (b - 48) := by
  simp [digitsToNat, List.foldl_append]

theorem digitsToNat_eq_ofDigits (s : ByteStr) :
    digitsToNat s = Nat.ofDigits 10 ((s.map (· - 48)).reverse) := by
  induction s using List.reverseRecOn with
  | nil => rfl
  | append_singleton xs b ih =>
    rw [digitsToNat_append_singleton, ih]
    simp [List.map_append, List.reverse_append, Nat.ofDigits_cons]
    ring

theorem digitsToNat_append (a b : ByteStr) :
    digitsToNat (a ++ b) = digitsToNat a * 10 ^ b.length + digitsToNat b := by
  rw [digitsToNat_eq_ofDigits, digitsToNat_eq_ofDigits, digitsToNat_eq_ofDigits,
    List.map_append, List.reverse_append, Nat.ofDigits_append]
  simp [Nat.add_comm, Nat.mul_comm]

theorem digitsToNat_natDigitsBE (n : Nat) : digitsToNat (natDigitsBE n) = n := by
  rw [digitsToNat_eq_ofDigits, natDigitsBE_eq]
  rw [List.map_reverse, List.reverse_reverse, List.map_map]
  have hl : ∀ l : List Nat, l.map ((· - 48) ∘ (· + 48)) = l := by
    intro l
    induction l with
    | nil => rfl
    | cons a t ih => simp [Function.comp, ih]
  rw [hl, Nat.ofDigits_digits]

theorem digitsToNat_replicate_zero (m : Nat) :
    digitsToNat (List.replicate m 48) = 0 := by
  induction m with
  | zero => rfl
  | succ k ih =>
    have : List.replicate (k + 1) 48 = List.replicate k 48 ++ [48] := by
      rw [List.replicate_succ' ]
    rw [this, digitsToNat_append_singleton, ih]

theorem natDigitsBE_all_digits (n : Nat) : ∀ b ∈ natDigitsBE n, isDigitByte b = true := by
  intro b hb
  simp only [natDigitsBE_eq, List.mem_reverse, List.mem_map] at hb
  obtain ⟨d, hd, rfl⟩ := hb
  have := Nat.digits_lt_base (by norm_num) hd
  simp [isDigitByte]
  omega

theorem digitsLen_le_of_lt {m k : Nat} (h : m < 10 ^ k) :
    (Nat.digits 10 m).length ≤ k := by
  rcases Nat.eq_zero_or_pos m with rfl | hm
  · simp
  · have h1 := Nat.base_pow_length_digits_le 10 m (by norm_num)
      (Nat.pos_iff_ne_zero.mp hm)
    have h2 : (10 : ℕ) ^ (Nat.digits 10 m).length < 10 ^ (k + 1) := by
      calc (10 : ℕ) ^ (Nat.digits 10 m).length ≤ 10 * m := h1
      _ < 10 * 10 ^ k := by omega
      _ = 10 ^ (k + 1) := by ring
    have h3 : (Nat.digits 10 m).length < k + 1 :=
      (Nat.pow_lt_pow_iff_right (by norm_num : 1 < 10)).mp h2
    omega

theorem padRender_length {k n : Nat} (h : n < 10 ^ k) :
    (padRender k n).length = k := by
  have := digitsLen_le_of_lt h
  rw [padRender_eq]
  simp
  omega

theorem padRender_all_digits (k n : Nat) : ∀ b ∈ padRender k n, isDigitByte b = true := by
  intro b hb
  rcases List.mem_append.mp hb with h | h
  · rcases List.eq_of_mem_replicate h with rfl
    decide
  · exact natDigitsBE_all_digits n b h

theorem digitsToNat_padRender (k n : Nat) : digitsToNat (padRender k n) = n := by
  rw [padRender, digitsToNat_append, digitsToNat_replicate_zero,
    digitsToNat_natDigitsBE]
  ring

theorem natRender_eq (n : Nat) :
    natRender n = if n = 0 then [48] else natDigitsBE n := rfl

theorem digitsToNat_natRender (n : Nat) : digitsToNat (natRender n) = n := by
  rw [natRender_eq]
  split
  · subst n; rfl
  · exact digitsToNat_natDigitsBE n

theorem natRender_all_digits (n : Nat) : ∀ b ∈ natRender n, isDigitByte b = true := by
  rw [natRender_eq]
  split
  · intro b hb
    rcases List.mem_singleton.mp hb with rfl
    decide
  · exact natDigitsBE_all_digits n

theorem natRender_ne_nil (n : Nat) : natRender n ≠ [] := by
  rw [natRender_eq]
  split
  · simp
  · simp only [natDigitsBE_eq, ne_eq, List.reverse_eq_nil_iff, List.map_eq_nil_iff]
    exact Nat.digits_ne_nil_iff_ne_zero.mpr (by assumption)

theorem parseUsize_natRender (n : Nat) : parseUsize (natRender n) = some n := by
  have hall : (natRender n).all isDigitByte = true :=
    List.all_eq_true.mpr (natRender_all_digits n)
  have hne : natRender n ≠ [] := natRender_ne_nil n
  have hhead : ¬((natRender n).head? = some 43) := by
    cases h : natRender n with
    | nil => exact absurd h hne
    | cons b t =>
      have hb : isDigitByte b = true :=
        natRender_all_digits n b (by rw [h]; exact List.mem_cons_self _ _)
      simp only [List.head?_cons, Option.some.injEq]
      intro hb43
      subst hb43
      exact absurd hb (by decide)
  unfold parseUsize
  simp only [if_neg hhead]
  rw [if_pos ⟨hne, hall⟩, digitsToNat_natRender]

/-! Facts about `splitOnByte`. -/

theorem splitOnByte_ne_nil (sep : Nat) (s : ByteStr) : splitOnByte sep s ≠ [] := by
  induction s with
  | nil => simp [splitOnByte]
  | cons b rest ih =>
    rw [splitOnByte]
    split
    · simp
    · cases h : splitOnByte sep rest with
      | nil => exact absurd h ih
      | cons x t => simp

theorem splitOnByte_of_not_mem {sep : Nat} {s : ByteStr} (h : sep ∉ s) :
    splitOnByte sep s = [s] := by
  induction s with
  | nil => rfl
  | cons b rest ih =>
    rw [splitOnByte]
    rw [if_neg (fun hb => h (by rw [hb]; exact List.mem_cons_self sep rest))]
    rw [ih (fun hm => h (List.mem_cons_of_mem b hm))]

theorem splitOnByte_append {sep : Nat} {a b : ByteStr} (h : sep ∉ a) :
    splitOnByte sep (a ++ sep :: b) = a :: splitOnByte sep b := by
  induction a with
  | nil =>
    simp only [List.nil_append]
    rw [splitOnByte, if_pos rfl]
  | cons x t ih =>
    have hx : x ≠ sep := fun hx => h (by rw [hx]; exact List.mem_cons_self sep t)
    have ht : sep ∉ t := fun hm => h (List.mem_cons_of_mem x hm)
    simp only [List.cons_append]
    rw [splitOnByte, if_neg hx, ih ht]

theorem not_mem_of_all_digits {x : Nat} {s : ByteStr}
    (hall : ∀ b ∈ s, isDigitByte b = true) (hx : isDigitByte x = false) : x ∉ s :=
  fun hm => absurd (hall x hm) (by rw [hx]; decide)

/-! Model of `rust_decimal::Decimal` and of the `chrono` date/time values.
These are external libraries, not code of this repository. -/

/-- Modelled from the spec: `rust_decimal::Decimal`, an
arbitrary-precision decimal (sign, 96-bit mantissa, scale up to 28
fractional digits).  `neg` is the sign flag, the numeric value is
`mantissa / 10 ^ scale`. -/
structure Dec where
  neg : Bool
  mantissa : Nat
  scale : Nat
deriving DecidableEq

/-- Representation invariant of `rust_decimal::Decimal`. -/
def Dec.ok (d : Dec) : Bool :=
  d.mantissa < 2 ^ 96 && d.scale ≤ 28

/-- Modelled from the spec: `Decimal`'s `Display` — plain decimal text
without scientific notation, keeping `scale` fractional digits. -/
def decRender (d : Dec) : ByteStr :=
  (if d.neg then [45] else []) ++
    (if d.scale = 0 then natRender d.mantissa
     else natRender (d.mantissa / 10 ^ d.scale) ++
       46 :: padRender d.scale (d.mantissa % 10 ^ d.scale))

/-- Modelled from the spec: `Decimal::from_str` — an optional sign, an
integer part, and an optional `.`-separated fraction part whose length
gives the scale. -/
def decFromString (s : ByteStr) : Option Dec :=
  let neg : Bool := s.head? == some 45
  let s1 := if s.head? = some 45 ∨ s.head? = some 43 then s.tail else s
  match splitOnByte 46 s1 with
  | [ip] =>
    if ip ≠ [] ∧ ip.all isDigitByte ∧ digitsToNat ip < 2 ^ 96 then
      some ⟨neg, digitsToNat ip, 0⟩
    else none
  | [ip, fp] =>
    if ip ≠ [] ∧ fp ≠ [] ∧ ip.all isDigitByte ∧ fp.all isDigitByte ∧
        digitsToNat (ip ++ fp) < 2 ^ 96 ∧ fp.length ≤ 28 then
      some ⟨neg, digitsToNat (ip ++ fp), fp.length⟩
    else none
  | _ => none

theorem decBody_all_digits_or_dot (d : Dec) :
    ∀ b ∈ (if d.scale = 0 then natRender d.mantissa
      else natRender (d.mantissa / 10 ^ d.scale) ++
        46 :: padRender d.scale (d.mantissa % 10 ^ d.scale)),
      isDigitByte b = true ∨ b = 46 := by
  intro b hb
  split at hb
  · exact Or.inl (natRender_all_digits _ b hb)
  · rcases List.mem_append.mp hb with h | h
    · exact Or.inl (natRender_all_digits _ b h)
    · rcases List.mem_cons.mp h with rfl | h
      · exact Or.inr rfl
      · exact Or.inl (padRender_all_digits _ _ b h)

theorem natRender_head_digit (n : Nat) :
    ∃ hd t, natRender n = hd :: t ∧ isDigitByte hd = true := by
  cases hnr : natRender n with
  | nil => exact absurd hnr (natRender_ne_nil _)
  | cons hd t =>
    exact ⟨hd, t, rfl, natRender_all_digits _ hd (by rw [hnr]; exact List.mem_cons_self _ _)⟩

/-- `Display` followed by `from_str` returns the same decimal, for any
well-formed `Decimal`. -/
theorem decFromString_decRender (d : Dec) (h : d.ok = true) :
    decFromString (decRender d) = some d := by
  obtain ⟨neg, m, sc⟩ := d
  have hok : m < 2 ^ 96 ∧ sc ≤ 28 := by
    simpa [Dec.ok, Bool.and_eq_true, decide_eq_true_eq] using h
  obtain ⟨hm, hs⟩ := hok
  by_cases h0 : sc = 0
  · subst h0
    have hrender : decRender ⟨neg, m, 0⟩ =
        (if neg then [45] else []) ++ natRender m := by
      simp [decRender]
    have hsplit : splitOnByte 46 (natRender m) = [natRender m] :=
      splitOnByte_of_not_mem
        (not_mem_of_all_digits (natRender_all_digits _) (by decide))
    obtain ⟨hd, t, hbt, hhd⟩ := natRender_head_digit m
    have hd45 : hd ≠ 45 := by intro hx; rw [hx] at hhd; exact absurd hhd (by decide)
    have hd43 : hd ≠ 43 := by intro hx; rw [hx] at hhd; exact absurd hhd (by decide)
    cases neg with
    | true =>
      rw [hrender]
      simp only [if_pos trivial, List.cons_append, List.nil_append]
      simp only [decFromString, List.head?_cons, List.tail_cons]
      rw [if_pos (Or.inl trivial)]
      rw [hsplit]
      simp only [beq_self_eq_true]
      rw [if_pos ⟨natRender_ne_nil m, List.all_eq_true.mpr (natRender_all_digits m),
        by rw [digitsToNat_natRender]; exact hm⟩]
      rw [digitsToNat_natRender]
    | false =>
      rw [hrender]
      simp only [Bool.false_eq_true, if_false, List.nil_append]
      simp only [decFromString]
      rw [hbt]
      simp only [List.head?_cons]
      rw [if_neg (by
        intro hor
        rcases hor with h1 | h1
        · exact hd45 (Option.some.inj h1)
        · exact hd43 (Option.some.inj h1))]
      rw [← hbt, hsplit]
      have hbeq : (some hd == some 45) = false := by
        simp [hd45]
      simp only [hbeq]
      rw [if_pos ⟨natRender_ne_nil m, List.all_eq_true.mpr (natRender_all_digits m),
        by rw [digitsToNat_natRender]; exact hm⟩]
      rw [digitsToNat_natRender]
  · have hr : m % 10 ^ sc < 10 ^ sc :=
      Nat.mod_lt _ (Nat.pos_pow_of_pos _ (by norm_num))
    have hplen : (padRender sc (m % 10 ^ sc)).length = sc := padRender_length hr
    have hpne : padRender sc (m % 10 ^ sc) ≠ [] := by
      intro hnil
      rw [hnil] at hplen
      exact h0 hplen.symm
    have hrender : decRender ⟨neg, m, sc⟩ =
        (if neg then [45] else []) ++
          (natRender (m / 10 ^ sc) ++ 46 :: padRender sc (m % 10 ^ sc)) := by
      simp [decRender, h0]
    have hsplit : splitOnByte 46
        (natRender (m / 10 ^ sc) ++ 46 :: padRender sc (m % 10 ^ sc)) =
        [natRender (m / 10 ^ sc), padRender sc (m % 10 ^ sc)] := by
      rw [splitOnByte_append
        (not_mem_of_all_digits (natRender_all_digits _) (by decide))]
      rw [splitOnByte_of_not_mem
        (not_mem_of_all_digits (padRender_all_digits _ _) (by decide))]
    have hval : digitsToNat (natRender (m / 10 ^ sc) ++ padRender sc (m % 10 ^ sc)) = m := by
      rw [digitsToNat_append, digitsToNat_natRender, hplen, digitsToNat_padRender,
        Nat.div_add_mod']
    obtain ⟨hd, t, hbt, hhd⟩ := natRender_head_digit (m / 10 ^ sc)
    have hd45 : hd ≠ 45 := by intro hx; rw [hx] at hhd; exact absurd hhd (by decide)
    have hd43 : hd ≠ 43 := by intro hx; rw [hx] at hhd; exact absurd hhd (by decide)
    cases neg with
    | true =>
      rw [hrender]
      simp only [if_pos trivial, List.cons_append, List.nil_append]
      simp only [decFromString, List.head?_cons, List.tail_cons]
      rw [if_pos (Or.inl trivial)]
      rw [hsplit]
      simp only [beq_self_eq_true]
      rw [if_pos ⟨natRender_ne_nil _, hpne,
        List.all_eq_true.mpr (natRender_all_digits _),
        List.all_eq_true.mpr (padRender_all_digits _ _),
        by rw [hval]; exact hm,
        by rw [hplen]; exact hs⟩]
      rw [hval, hplen]
    | false =>
      rw [hrender]
      simp only [Bool.false_eq_true, if_false, List.nil_append]
      simp only [decFromString]
      have hhead : (natRender (m / 10 ^ sc) ++
          46 :: padRender sc (m % 10 ^ sc)).head? = some hd := by
        rw [hbt]
        rfl
      rw [hhead]
      rw [if_neg (by
        intro hor
        rcases hor with h1 | h1
        · exact hd45 (Option.some.inj h1)
        · exact hd43 (Option.some.inj h1))]
      rw [hsplit]
      have hbeq : (some hd == some 45) = false := by
        simp [hd45]
      simp only [hbeq]
      rw [if_pos ⟨natRender_ne_nil _, hpne,
        List.all_eq_true.mpr (natRender_all_digits _),
        List.all_eq_true.mpr (padRender_all_digits _ _),
        by rw [hval]; exact hm,
        by rw [hplen]; exact hs⟩]
      rw [hval, hplen]

/-- Modelled from the spec: chrono `NaiveDate` as used by this crate — a
calendar date rendered with `%Y%m%d` and parsed back from exactly
`YYYYMMDD` (four-digit year). -/
structure DateVal where
  y : Nat
  mo : Nat
  dy : Nat
deriving DecidableEq

/-- Gregorian leap year. -/
def isLeap (y : Nat) : Bool :=
  (y % 4 == 0 && y % 100 != 0) || y % 400 == 0

/-- Days in a month of the Gregorian calendar. -/
def daysInMonth (y m : Nat) : Nat :=
  if m = 2 then (if isLeap y then 29 else 28)
  else if m = 4 ∨ m = 6 ∨ m = 9 ∨ m = 11 then 30
  else 31

/-- A calendar-valid date with a four-digit year. -/
def DateVal.ok (dt : DateVal) : Bool :=
  dt.y ≤ 9999 && 1 ≤ dt.mo && dt.mo ≤ 12 && 1 ≤ dt.dy &&
    dt.dy ≤ daysInMonth dt.y dt.mo

/-- Modelled from the spec: chrono's `%Y%m%d` formatting. -/
def dateRender (dt : DateVal) : ByteStr :=
  padRender 4 dt.y ++ (padRender 2 dt.mo ++ padRender 2 dt.dy)

/-- Modelled from the spec: chrono's `%Y%m%d` parsing (`NaiveDate::parse_from_str`),
requiring exactly eight digits and a calendar-valid date. -/
def dateFromString (s : ByteStr) : Option DateVal :=
  if s.length = 8 ∧ s.all isDigitByte then
    let dt : DateVal := ⟨digitsToNat (s.take 4), digitsToNat ((s.drop 4).take 2),
      digitsToNat (s.drop 6)⟩
    if dt.ok then some dt else none
  else none

/-- Modelled from the spec: chrono `NaiveTime` — a time of day rendered
with `%H%M%S` and parsed back from exactly `HHMMSS`. -/
structure TimeVal where
  hh : Nat
  mm : Nat
  ss : Nat
deriving DecidableEq

/-- A valid time of day. -/
def TimeVal.ok (t : TimeVal) : Bool :=
  t.hh ≤ 23 && t.mm ≤ 59 && t.ss ≤ 59

/-- Modelled from the spec: chrono's `%H%M%S` formatting. -/
def timeRender (t : TimeVal) : ByteStr :=
  padRender 2 t.hh ++ (padRender 2 t.mm ++ padRender 2 t.ss)

/-- Modelled from the spec: chrono's `%H%M%S` parsing (`NaiveTime::parse_from_str`),
requiring exactly six digits and a valid time. -/
def timeFromString (s : ByteStr) : Option TimeVal :=
  if s.length = 6 ∧ s.all isDigitByte then
    let t : TimeVal := ⟨digitsToNat (s.take 2), digitsToNat ((s.drop 2).take 2),
      digitsToNat (s.drop 4)⟩
    if t.ok then some t else none
  else none

/-- Modelled from the spec: chrono `NaiveDateTime`, rendered
`YYYYMMDD HHMMSS`. -/
structure DateTimeVal where
  date : DateVal
  time : TimeVal
deriving DecidableEq

/-- Modelled from the spec: chrono's `%Y%m%d %H%M%S` formatting. -/
def dateTimeRender (dt : DateTimeVal) : ByteStr :=
  dateRender dt.date ++ 32 :: timeRender dt.time

/-- Modelled from the spec: chrono's `%Y%m%d %H%M%S` parsing
(`NaiveDateTime::parse_from_str`). -/
def dateTimeFromString (s : ByteStr) : Option DateTimeVal :=
  if s.length = 15 ∧ (s.drop 8).take 1 = [32] then
    match dateFromString (s.take 8), timeFromString (s.drop 9) with
    | some dv, some tv => some ⟨dv, tv⟩
    | _, _ => none
  else none

theorem take_append_of_length {a b : ByteStr} {n : Nat} (h : a.length = n) :
    (a ++ b).take n = a := by
  subst h
  exact List.take_left a b

theorem drop_append_of_length {a b : ByteStr} {n : Nat} (h : a.length = n) :
    (a ++ b).drop n = b := by
  subst h
  exact List.drop_left a b

/-- `%Y%m%d` rendering followed by parsing returns the same date, for any
calendar-valid date. -/
theorem dateFromString_dateRender (dt : DateVal) (h : dt.ok = true) :
    dateFromString (dateRender dt) = some dt := by
  obtain ⟨y, m, d⟩ := dt
  have hok : y ≤ 9999 ∧ 1 ≤ m ∧ m ≤ 12 ∧ 1 ≤ d ∧ d ≤ daysInMonth y m := by
    simpa [DateVal.ok, Bool.and_eq_true, decide_eq_true_eq, and_assoc] using h
  have hd31 : d ≤ 31 := by
    have := hok.2.2.2.2
    have hmx : daysInMonth y m ≤ 31 := by
      unfold daysInMonth
      split
      · split <;> omega
      · split <;> omega
    omega
  have hylen : (padRender 4 y).length = 4 := padRender_length (by omega)
  have hmlen : (padRender 2 m).length = 2 := padRender_length (by omega)
  have hdlen : (padRender 2 d).length = 2 := padRender_length (by omega)
  have htake4 : (dateRender ⟨y, m, d⟩).take 4 = padRender 4 y :=
    take_append_of_length hylen
  have hdrop4 : (dateRender ⟨y, m, d⟩).drop 4 = padRender 2 m ++ padRender 2 d :=
    drop_append_of_length hylen
  have htakem : ((dateRender ⟨y, m, d⟩).drop 4).take 2 = padRender 2 m := by
    rw [hdrop4]
    exact take_append_of_length hmlen
  have hdrop6 : (dateRender ⟨y, m, d⟩).drop 6 = padRender 2 d := by
    have : (dateRender ⟨y, m, d⟩).drop 6 = ((dateRender ⟨y, m, d⟩).drop 4).drop 2 := by
      rw [List.drop_drop]
    rw [this, hdrop4]
    exact drop_append_of_length hmlen
  have hlen : (dateRender ⟨y, m, d⟩).length = 8 := by
    simp [dateRender, hylen, hmlen, hdlen]
  have hall : (dateRender ⟨y, m, d⟩).all isDigitByte = true := by
    apply List.all_eq_true.mpr
    intro b hb
    rcases List.mem_append.mp hb with h1 | h1
    · exact padRender_all_digits _ _ b h1
    · rcases List.mem_append.mp h1 with h2 | h2
      · exact padRender_all_digits _ _ b h2
      · exact padRender_all_digits _ _ b h2
  unfold dateFromString
  rw [if_pos ⟨hlen, hall⟩]
  simp only [htake4, htakem, hdrop6, digitsToNat_padRender]
  rw [if_pos h]

/-- `%H%M%S` rendering followed by parsing returns the same time, for any
valid time of day. -/
theorem timeFromString_timeRender (t : TimeVal) (h : t.ok = true) :
    timeFromString (timeRender t) = some t := by
  obtain ⟨hh, mm, ss⟩ := t
  have hok : hh ≤ 23 ∧ mm ≤ 59 ∧ ss ≤ 59 := by
    simpa [TimeVal.ok, Bool.and_eq_true, decide_eq_true_eq, and_assoc] using h
  have hhlen : (padRender 2 hh).length = 2 := padRender_length (by omega)
  have hmlen : (padRender 2 mm).length = 2 := padRender_length (by omega)
  have hslen : (padRender 2 ss).length = 2 := padRender_length (by omega)
  have htake2 : (timeRender ⟨hh, mm, ss⟩).take 2 = padRender 2 hh :=
    take_append_of_length hhlen
  have hdrop2 : (timeRender ⟨hh, mm, ss⟩).drop 2 = padRender 2 mm ++ padRender 2 ss :=
    drop_append_of_length hhlen
  have htakem : ((timeRender ⟨hh, mm, ss⟩).drop 2).take 2 = padRender 2 mm := by
    rw [hdrop2]
    exact take_append_of_length hmlen
  have hdrop4 : (timeRender ⟨hh, mm, ss⟩).drop 4 = padRender 2 ss := by
    have : (timeRender ⟨hh, mm, ss⟩).drop 4 = ((timeRender ⟨hh, mm, ss⟩).drop 2).drop 2 := by
      rw [List.drop_drop]
    rw [this, hdrop2]
    exact drop_append_of_length hmlen
  have hlen : (timeRender ⟨hh, mm, ss⟩).length = 6 := by
    simp [timeRender, hhlen, hmlen, hslen]
  have hall : (timeRender ⟨hh, mm, ss⟩).all isDigitByte = true := by
    apply List.all_eq_true.mpr
    intro b hb
    rcases List.mem_append.mp hb with h1 | h1
    · exact padRender_all_digits _ _ b h1
    · rcases List.mem_append.mp h1 with h2 | h2
      · exact padRender_all_digits _ _ b h2
      · exact padRender_all_digits _ _ b h2
  unfold timeFromString
  rw [if_pos ⟨hlen, hall⟩]
  simp only [htake2, htakem, hdrop4, digitsToNat_padRender]
  rw [if_pos h]

/-! The crate's data model (src/lib.rs). -/

/-- `Datum` (lib.rs lines 128-142): the typed value of a field.  The
`string` payload is the UTF-8 byte content of the Rust `String`. -/
inductive Datum where
  | boolean (b : Bool)
  | number (n : Dec)
  | date (d : DateVal)
  | time (t : TimeVal)
  | datetime (dt : DateTimeVal)
  | string (s : ByteStr)
deriving DecidableEq

/-- Whether a datum is the write-only `DateTime` variant. -/
def Datum.isDateTime : Datum → Bool
  | .datetime _ => true
  | _ => false

/-- `Datum::as_str` (lib.rs 210-221): total canonical rendering. -/
def Datum.as_str : Datum → ByteStr
  | .string s => s
  | .boolean true => [89]
  | .boolean false => [78]
  | .number n => decRender n
  | .date d => dateRender d
  | .time t => timeRender t
  | .datetime dt => dateTimeRender dt

/-- `Datum::as_bool` (lib.rs 148-158). -/
def Datum.as_bool : Datum → Option Bool
  | .boolean b => some b
  | .string s =>
    if s = [89] ∨ s = [121] then some true
    else if s = [78] ∨ s = [110] then some false
    else none
  | _ => none

/-- `Datum::as_number` (lib.rs 163-169). -/
def Datum.as_number : Datum → Option Dec
  | .number n => some n
  | .string s => decFromString s
  | _ => none

/-- `Datum::as_date` (lib.rs 174-180). -/
def Datum.as_date : Datum → Option DateVal
  | .date d => some d
  | .string s => dateFromString s
  | _ => none

/-- `Datum::as_time` (lib.rs 185-191). -/
def Datum.as_time : Datum → Option TimeVal
  | .time t => some t
  | .string s => timeFromString s
  | _ => none

/-- `Datum::as_datetime` (lib.rs 196-204). -/
def Datum.as_datetime : Datum → Option DateTimeVal
  | .datetime dt => some dt
  | .string s => dateTimeFromString s
  | _ => none

/-- `Position` (lib.rs 33-41): line, column, byte offset. -/
structure Position where
  line : Nat
  column : Nat
  byte : Nat
deriving DecidableEq

/-- `Record` (lib.rs 329-333): a header flag plus the insertion-ordered
fields of an `IndexMap<CiString, Datum>`, as a list of (original-case key,
value) pairs. -/
structure Record where
  header : Bool
  fields : List (ByteStr × Datum)
deriving DecidableEq

/-- `Record::new` / `Default` (lib.rs 345-347). -/
def Record.new : Record := ⟨false, []⟩

/-- `Record::new_header` (lib.rs 358-363). -/
def Record.new_header : Record := ⟨true, []⟩

/-- `Record::get` (lib.rs 401-403): case-insensitive lookup, returning the
first (and by the duplicate-rejection invariant only) match. -/
def Record.get (r : Record) (name : ByteStr) : Option Datum :=
  (r.fields.find? (fun p => ciEq p.1 name)).map Prod.snd

/-- `Error` (lib.rs 51-82).  `invalidFormatLegacy` mirrors the
tuple-shaped `Error::InvalidFormat(message)` expression that
write/mod.rs lines 95-98 constructs: that shape has no counterpart in the
`Error` enum declared in lib.rs (its `InvalidFormat` is a struct variant
with a message and a position), so it is kept as its own constructor.
Error messages are carried as their byte strings;
`String::from_utf8_lossy` in `invalid_tag` is modelled as the identity on
the raw tag bytes (the two agree on valid UTF-8). -/
inductive Err where
  | io
  | invalidFormat (message : ByteStr) (position : Position)
  | duplicateKey (key : ByteStr) (record : Record)
  | cannotOutput (typ : ByteStr) (reason : ByteStr)
  | invalidFormatLegacy (message : ByteStr)
deriving DecidableEq

deriving instance DecidableEq for Except

/-- `Record::insert` (lib.rs 429-445): occupied case-insensitive keys are
rejected with `DuplicateKey` carrying the stored key (`e.key()`) and a
clone of the record; vacant keys append the field. -/
def Record.insert (r : Record) (name : ByteStr) (value : Datum) : Except Err Record :=
  match r.fields.find? (fun p => ciEq p.1 name) with
  | some p => .error (.duplicateKey p.1 r)
  | none => .ok ⟨r.header, r.fields ++ [(name, value)]⟩

/-- The record invariant: field names pairwise distinct up to ASCII case. -/
def ciDistinct (fields : List (ByteStr × Datum)) : Prop :=
  List.Pairwise (fun p q => ciEq p.1 q.1 = false) fields

/-- Claim C6: inserting a field whose name matches an existing field's
name up to ASCII case fails with a duplicate-key error carrying the
stored key name (case-insensitively equal to the offending name) and the
record itself — unmodified and still holding the originally inserted
field; insertion succeeds only when no case-insensitive match exists (so
an existing value is never overwritten), appending the new field; hence
records built by `insert` never hold two fields with case-insensitively
equal names. -/
theorem c6_insert_duplicate_rejected :
    (∀ (r : Record) (name : ByteStr) (v : Datum),
      (∃ p ∈ r.fields, ciEq p.1 name = true) →
      ∃ k v₀, (k, v₀) ∈ r.fields ∧ ciEq k name = true ∧
        r.insert name v = .error (.duplicateKey k r)) ∧
    (∀ (r : Record) (name : ByteStr) (v : Datum) (r' : Record),
      r.insert name v = .ok r' →
      r' = ⟨r.header, r.fields ++ [(name, v)]⟩ ∧
        ∀ p ∈ r.fields, ciEq p.1 name = false) ∧
    (∀ (r : Record) (name : ByteStr) (v : Datum) (r' : Record),
      ciDistinct r.fields → r.insert name v = .ok r' → ciDistinct r'.fields) := by
  refine ⟨?_, ?_, ?_⟩
  · intro r name v hex
    have hsome : (r.fields.find? (fun p => ciEq p.1 name)).isSome := by
      rw [List.find?_isSome]
      obtain ⟨p, hp, hci⟩ := hex
      exact ⟨p, hp, hci⟩
    obtain ⟨p, hfind⟩ := Option.isSome_iff_exists.mp hsome
    refine ⟨p.1, p.2, List.mem_of_find?_eq_some hfind, ?_, ?_⟩
    · have h1 := List.find?_some hfind
      simpa using h1
    · rw [Record.insert, hfind]
  · intro r name v r' hok
    rw [Record.insert] at hok
    cases hfind : r.fields.find? (fun p => ciEq p.1 name) with
    | some p => rw [hfind] at hok; exact absurd hok (by simp)
    | none =>
      rw [hfind] at hok
      refine ⟨(Except.ok.inj hok).symm, ?_⟩
      intro p hp
      have := List.find?_eq_none.mp hfind p hp
      exact Bool.not_eq_true _ ▸ Bool.of_not_eq_true this
  · intro r name v r' hdist hok
    rw [Record.insert] at hok
    cases hfind : r.fields.find? (fun p => ciEq p.1 name) with
    | some p => rw [hfind] at hok; exact absurd hok (by simp)
    | none =>
      rw [hfind] at hok
      cases Except.ok.inj hok
      rw [ciDistinct, List.pairwise_append]
      refine ⟨hdist, List.pairwise_singleton _ _, ?_⟩
      intro p hp q hq
      rcases List.mem_singleton.mp hq with rfl
      have := List.find?_eq_none.mp hfind p hp
      exact Bool.not_eq_true _ ▸ Bool.of_not_eq_true this

/-- A concrete record with one field named `"Call"`. -/
def sampleRecord : Record :=
  ⟨false, [([67, 97, 108, 108], Datum.string [87, 49, 65, 87])]⟩

/-- Witness for C6: inserting `"CALL"` into a record holding `"Call"`
fails with the stored key and the unmodified record. -/
theorem c6_insert_duplicate_rejected_witness :
    ∃ k v₀, (k, v₀) ∈ sampleRecord.fields ∧ ciEq k [67, 65, 76, 76] = true ∧
      sampleRecord.insert [67, 65, 76, 76] (Datum.string [65, 66]) =
        .error (.duplicateKey k sampleRecord) :=
  c6_insert_duplicate_rejected.1 sampleRecord [67, 65, 76, 76] (Datum.string [65, 66])
    ⟨([67, 97, 108, 108], Datum.string [87, 49, 65, 87]), by decide, by decide⟩

/-! The encoder (src/write/mod.rs). -/

/-- `OutputTypes` (write/mod.rs 17-25). -/
inductive OutputTypes where
  | always
  | onlyNonString
  | never
deriving DecidableEq

/-- `TagEncoder::type_indicator` (write/mod.rs 90-108).  For `DateTime`
the source constructs `Error::InvalidFormat(Cow::Borrowed("DateTime
cannot be output directly; split into date and time fields"))` — the
tuple shape modelled by `Err.invalidFormatLegacy`. -/
def type_indicator (types : OutputTypes) (datum : Datum) : Except Err (Option ByteStr) :=
  match types, datum with
  | _, .datetime _ => .error (.invalidFormatLegacy dtMsgBytes)
  | .never, _ => .ok none
  | _, .boolean _ => .ok (some [98])
  | _, .number _ => .ok (some [110])
  | _, .date _ => .ok (some [100])
  | _, .time _ => .ok (some [116])
  | .always, .string _ => .ok (some [115])
  | _, .string _ => .ok none

/-- `TagEncoder::encode_eoh` (write/mod.rs 110-112): `<eoh>\n`. -/
def encode_eoh : ByteStr := 60 :: eohBytes ++ [62, 10]

/-- `TagEncoder::encode_eor` (write/mod.rs 114-116): `<eor>\n`. -/
def encode_eor : ByteStr := 60 :: eorBytes ++ [62, 10]

/-- `TagEncoder::encode_field` (write/mod.rs 118-135): the bytes
`<name:len[:typ]>value` appended for one field, `len` being the byte
length of the rendered value. -/
def encode_field (types : OutputTypes) (name : ByteStr) (value : Datum) :
    Except Err ByteStr :=
  match type_indicator types value with
  | .error e => .error e
  | .ok ind =>
    let s := value.as_str
    .ok (60 :: name ++ 58 :: natRender s.length ++
      (match ind with | some t => 58 :: t | none => []) ++ 62 :: s)

/-- The field bytes `encode_field` produces on success, with the type
indicator it emits for a non-DateTime datum. -/
def indOpt (types : OutputTypes) (v : Datum) : Option ByteStr :=
  match types, v with
  | .never, _ => none
  | _, .boolean _ => some [98]
  | _, .number _ => some [110]
  | _, .date _ => some [100]
  | _, .time _ => some [116]
  | .always, .string _ => some [115]
  | _, .string _ => none
  | _, .datetime _ => none

/-- Field bytes of a successfully encoded field. -/
def fieldBytes (types : OutputTypes) (name : ByteStr) (v : Datum) : ByteStr :=
  60 :: name ++ 58 :: natRender v.as_str.length ++
    (match indOpt types v with | some t => 58 :: t | none => []) ++ 62 :: v.as_str

theorem type_indicator_ok (types : OutputTypes) (v : Datum) (h : v.isDateTime = false) :
    type_indicator types v = .ok (indOpt types v) := by
  cases v <;> cases types <;> first
    | rfl
    | exact absurd h (by rw [Datum.isDateTime]; simp)

theorem encode_field_ok (types : OutputTypes) (name : ByteStr) (v : Datum)
    (h : v.isDateTime = false) :
    encode_field types name v = .ok (fieldBytes types name v) := by
  rw [encode_field, type_indicator_ok types v h]
  rfl

/-- `RecordSink::start_send` field loop (write/mod.rs 267-270): encode the
fields in iteration order, stopping at the first error. -/
def encodeFields (types : OutputTypes) : List (ByteStr × Datum) → Except Err ByteStr
  | [] => .ok []
  | (n, v) :: rest =>
    match encode_field types n v with
    | .error e => .error e
    | .ok bs =>
      match encodeFields types rest with
      | .error e => .error e
      | .ok bs2 => .ok (bs ++ bs2)

/-- `RecordSink::start_send` (write/mod.rs 259-273): all fields in order,
then `<eoh>\n` for a header record and `<eor>\n` otherwise. -/
def encodeRecord (types : OutputTypes) (r : Record) : Except Err ByteStr :=
  match encodeFields types r.fields with
  | .error e => .error e
  | .ok bs => .ok (bs ++ (if r.header then encode_eoh else encode_eor))

theorem encodeFields_ok (types : OutputTypes) (fields : List (ByteStr × Datum))
    (h : ∀ p ∈ fields, p.2.isDateTime = false) :
    encodeFields types fields =
      .ok ((fields.map (fun p => fieldBytes types p.1 p.2)).flatten) := by
  induction fields with
  | nil => rfl
  | cons p rest ih =>
    obtain ⟨n, v⟩ := p
    rw [encodeFields]
    rw [encode_field_ok types n v (h (n, v) (List.mem_cons_self _ _))]
    rw [ih fun q hq => h q (List.mem_cons_of_mem _ hq)]
    simp [List.flatten]

/-- Claim C9: writing a record emits each field in insertion order and
then exactly `<eoh>\n` (header) or `<eor>\n` (normal); in particular a
header holding only `adifver = "3.1.4"` encodes under the `Never` policy
to exactly `<adifver:5>3.1.4<eoh>\n`. -/
theorem c9_record_write_layout :
    (∀ (types : OutputTypes) (r : Record),
      (∀ p ∈ r.fields, p.2.isDateTime = false) →
      encodeRecord types r =
        .ok ((r.fields.map (fun p => fieldBytes types p.1 p.2)).flatten ++
          (if r.header then 60 :: eohBytes ++ [62, 10] else 60 :: eorBytes ++ [62, 10]))) ∧
    encodeRecord .never ⟨true, [([97, 100, 105, 102, 118, 101, 114],
        Datum.string [51, 46, 49, 46, 52])]⟩ =
      .ok [60, 97, 100, 105, 102, 118, 101, 114, 58, 53, 62,
        51, 46, 49, 46, 52, 60, 101, 111, 104, 62, 10] := by
  constructor
  · intro types r h
    rw [encodeRecord, encodeFields_ok types r.fields h]
    rfl
  · rfl

/-- Witness for C9: the general layout applied to the concrete
single-field header record. -/
theorem c9_record_write_layout_witness :
    encodeRecord .never ⟨true, [([97, 100, 105, 102, 118, 101, 114],
        Datum.string [51, 46, 49, 46, 52])]⟩ =
      .ok (([([97, 100, 105, 102, 118, 101, 114], Datum.string [51, 46, 49, 46, 52])].map
          (fun p => fieldBytes .never p.1 p.2)).flatten ++
        (if true then 60 :: eohBytes ++ [62, 10] else 60 :: eorBytes ++ [62, 10])) :=
  c9_record_write_layout.1 .never
    ⟨true, [([97, 100, 105, 102, 118, 101, 114], Datum.string [51, 46, 49, 46, 52])]⟩
    (by decide)

/-- Claim C7 (code bug): encoding any DateTime-valued field fails the
write, but the error the source constructs is the tuple-shaped
`Error::InvalidFormat("DateTime cannot be output directly; split into
date and time fields")`, not the `CannotOutput` error the `Error` enum
declares for this case and the writer tests expect; the `CannotOutput`
shape is never produced by `type_indicator`. -/
theorem c7_datetime_write_error (types : OutputTypes) (dt : DateTimeVal) (name : ByteStr) :
    type_indicator types (.datetime dt) = .error (.invalidFormatLegacy dtMsgBytes) ∧
    encode_field types name (.datetime dt) = .error (.invalidFormatLegacy dtMsgBytes) ∧
    (∀ t r, (Err.invalidFormatLegacy dtMsgBytes) ≠ Err.cannotOutput t r) := by
  refine ⟨?_, ?_, ?_⟩
  · cases types <;> rfl
  · rw [encode_field]
    cases types <;> rfl
  · intro t r h
    exact Err.noConfusion h

/-! The decoder (src/parse/mod.rs). -/

/-- `Iterator::position(|&b| b == target)` over a byte slice. -/
def bytePos (target : Nat) : ByteStr → Option Nat
  | [] => none
  | b :: rest => if b = target then some 0 else (bytePos target rest).map (· + 1)

theorem bytePos_eq_none_iff (t : Nat) (s : ByteStr) : bytePos t s = none ↔ t ∉ s := by
  induction s with
  | nil => simp [bytePos]
  | cons b rest ih =>
    rw [bytePos]
    by_cases hb : b = t
    · subst hb
      simp
    · rw [if_neg hb]
      simp only [Option.map_eq_none', ih, List.mem_cons, not_or]
      constructor
      · exact fun h => ⟨fun h1 => hb h1.symm, h⟩
      · exact fun h => h.2

theorem bytePos_decomp {t : Nat} {s : ByteStr} {i : Nat} (h : bytePos t s = some i) :
    ∃ pre suf, s = pre ++ t :: suf ∧ pre.length = i ∧ t ∉ pre := by
  induction s generalizing i with
  | nil => exact absurd h (by simp [bytePos])
  | cons b rest ih =>
    rw [bytePos] at h
    by_cases hb : b = t
    · rw [if_pos hb] at h
      cases Option.some.inj h
      exact ⟨[], rest, by rw [hb]; rfl, rfl, by simp⟩
    · rw [if_neg hb] at h
      rcases Option.map_eq_some'.mp h with ⟨j, hj, rfl⟩
      obtain ⟨pre, suf, hseq, hlen, hnm⟩ := ih hj
      refine ⟨b :: pre, suf, by rw [hseq]; rfl, by simp [hlen], ?_⟩
      intro hm
      rcases List.mem_cons.mp hm with h1 | h1
      · exact hb h1.symm
      · exact hnm h1

theorem bytePos_append_cons {t : Nat} {pre suf : ByteStr} (h : t ∉ pre) :
    bytePos t (pre ++ t :: suf) = some pre.length := by
  induction pre with
  | nil => simp [bytePos]
  | cons b rest ih =>
    have hb : b ≠ t := fun hb => h (by rw [hb]; exact List.mem_cons_self t rest)
    rw [List.cons_append, bytePos, if_neg hb,
      ih (fun hm => h (List.mem_cons_of_mem b hm))]
    rfl

/-- `ParserTag` (parse/mod.rs 18-24); a `Field` is its (name, value) pair. -/
inductive ParserTag where
  | field (name : ByteStr) (value : Datum)
  | eoh
  | eor
  | eofT
deriving DecidableEq

/-- `Tag` (lib.rs 297-306). -/
inductive Tag where
  | field (name : ByteStr) (value : Datum)
  | eoh
  | eor
deriving DecidableEq

/-- `TagDecoder` (parse/mod.rs 30-36): the end-of-stream policy flag and
the position counters carried across calls. -/
structure TagDecoder where
  ignore_partial : Bool
  consumed : Nat
  line : Nat
  column : Nat
deriving DecidableEq

/-- The derived `Default::default()` of `TagDecoder`: every field
zero-initialized (`false`, 0, 0, 0). -/
def TagDecoder.defaultD : TagDecoder := ⟨false, 0, 0, 0⟩

/-- The decoder `TagDecoder::new_stream` (parse/mod.rs 59-70) hands to
`FramedRead`: counters start at line 1, column 1, byte 0. -/
def TagDecoder.new_stream (ip : Bool) : TagDecoder := ⟨ip, 0, 1, 1⟩

/-- `TagDecoder::position` (parse/mod.rs 72-78). -/
def TagDecoder.position (st : TagDecoder) : Position :=
  ⟨st.line, st.column, st.consumed⟩

/-- `TagDecoder::invalid_tag` (parse/mod.rs 80-85); `from_utf8_lossy` is
modelled as the identity on the tag bytes. -/
def TagDecoder.invalid_tag (st : TagDecoder) (tag : ByteStr) : Err :=
  .invalidFormat tag st.position

/-- `TagDecoder::advance_slice` (parse/mod.rs 87-97): `\n` moves to the
next line at column 1, any other byte advances the column; `consumed`
grows by the slice length. -/
def advance_slice (st : TagDecoder) : ByteStr → TagDecoder
  | [] => st
  | b :: rest =>
    advance_slice
      (if b = 10 then { st with line := st.line + 1, column := 1, consumed := st.consumed + 1 }
       else { st with column := st.column + 1, consumed := st.consumed + 1 })
      rest

/-- `TagDecoder::advance` (parse/mod.rs 99-115): consume `n` bytes of the
buffer, then, when `skipWs` is set, also consume the following run of
ASCII whitespace. -/
def advance (st : TagDecoder) (src : ByteStr) (n : Nat) (skipWs : Bool) :
    TagDecoder × ByteStr :=
  let st1 := advance_slice st (src.take n)
  let src1 := src.drop n
  if skipWs then
    (advance_slice st1 (src1.takeWhile isWsByte), src1.dropWhile isWsByte)
  else (st1, src1)

/-- `TagDecoder::as_str` (parse/mod.rs 148-150): UTF-8 validation keeping
the byte content. -/
def asStrCheck (st : TagDecoder) (data tag : ByteStr) : Except Err ByteStr :=
  if isValidUtf8 data then .ok data else .error (st.invalid_tag tag)

/-- The value interpretation of `TagDecoder::parse_typed_value`
(parse/mod.rs 117-146), which does not depend on the decoder state:
`none` stands for the `invalid_tag` error the method raises. -/
def parse_typed_value_pure (v : ByteStr) (typ : Option ByteStr) : Option Datum :=
  if typ = some [110] ∨ typ = some [78] then
    match decFromString v with
    | some num => some (.number num)
    | none => none
  else if typ = some [98] ∨ typ = some [66] then
    if v = [89] ∨ v = [121] then some (.boolean true)
    else if v = [78] ∨ v = [110] then some (.boolean false)
    else none
  else if typ = some [100] ∨ typ = some [68] then
    match dateFromString v with
    | some d => some (.date d)
    | none => none
  else if typ = some [116] ∨ typ = some [84] then
    match timeFromString v with
    | some t => some (.time t)
    | none => none
  else some (.string v)

/-- `TagDecoder::parse_typed_value` (parse/mod.rs 117-146): every error
it raises is `self.invalid_tag(tag)`. -/
def parse_typed_value (st : TagDecoder) (tag : ByteStr) (v : ByteStr)
    (typ : Option ByteStr) : Except Err Datum :=
  match parse_typed_value_pure v typ with
  | some d => .ok d
  | none => .error (st.invalid_tag tag)

/-- Continuation of `TagDecoder::parse_value` after the tag body has been
split into its 2 or 3 `:`-separated parts; the `isValidUtf8` tests are
the `as_str` calls of the source, `none` stands for the `invalid_tag`
error (the error closure `err` of the source), `some none` for "value
bytes not yet buffered". -/
def parse_value_go_pure (src : ByteStr) (offset : Nat) (name0 len0 : ByteStr)
    (typ0 : Option ByteStr) : Option (Option (ByteStr × Datum × Nat)) :=
  if isValidUtf8 name0 then
    if isValidUtf8 len0 then
      match parseUsize len0 with
      | none => none
      | some len =>
        match (match typ0 with
          | none => some (none : Option ByteStr)
          | some t => if isValidUtf8 t then some (some t) else none) with
        | none => none
        | some typ =>
          if offset + 1 + len > src.length then some none
          else
            if isValidUtf8 ((src.drop (offset + 1)).take len) then
              match parse_typed_value_pure ((src.drop (offset + 1)).take len) typ with
              | some value => some (some (name0, value, offset + 1 + len))
              | none => none
            else none
    else none
  else none

/-- The state-independent part of `TagDecoder::parse_value`
(parse/mod.rs 152-179): split the tag body on `:` into name, length and
optional type, then read `length` value bytes starting after the `>` at
`offset`.  `none` stands for the `invalid_tag` error, `some none` for
"need more data". -/
def parse_value_pure (src : ByteStr) (offset : Nat) (tag : ByteStr) :
    Option (Option (ByteStr × Datum × Nat)) :=
  match splitOnByte 58 tag with
  | [name0, len0] => parse_value_go_pure src offset name0 len0 none
  | [name0, len0, typ0] => parse_value_go_pure src offset name0 len0 (some typ0)
  | _ => none

/-- `TagDecoder::parse_value` (parse/mod.rs 152-179).  Every error path
of the source raises `self.invalid_tag(tag)` (the `err` closure and the
`as_str` checks alike), so the state enters only through that error. -/
def parse_value (st : TagDecoder) (src : ByteStr) (offset : Nat) (tag : ByteStr) :
    Except Err (Option (ByteStr × Datum × Nat)) :=
  match parse_value_pure src offset tag with
  | some r => .ok r
  | none => .error (st.invalid_tag tag)

/-- The tag body `&src[1..end]` of `decode_inner`: the bytes between the
`<` at index 0 and the `>` at `endIdx`. -/
def tagBodyOf (src1 : ByteStr) (endIdx : Nat) : ByteStr :=
  (src1.drop 1).take (endIdx - 1)

/-- The part of `TagDecoder::decode_inner` (parse/mod.rs 191-214) after
the closing `>` of a tag has been found at `endIdx` of `src1` (the buffer
advanced to its first `<`): dispatch on the tag body. -/
def decodeTag (st1 : TagDecoder) (src1 : ByteStr) (endIdx : Nat) :
    Except Err (Option ParserTag) × TagDecoder × ByteStr :=
  if ciEq (tagBodyOf src1 endIdx) eohBytes then
    (.ok (some .eoh), (advance st1 src1 (endIdx + 1) true).1,
      (advance st1 src1 (endIdx + 1) true).2)
  else if ciEq (tagBodyOf src1 endIdx) eorBytes then
    (.ok (some .eor), (advance st1 src1 (endIdx + 1) true).1,
      (advance st1 src1 (endIdx + 1) true).2)
  else if ciEq (tagBodyOf src1 endIdx) lotwBytes then
    (.ok (some .eofT), (advance st1 src1 src1.length true).1,
      (advance st1 src1 src1.length true).2)
  else
    match parse_value st1 src1 endIdx (tagBodyOf src1 endIdx) with
    | .error e => (.error e, st1, src1)
    | .ok none => (.ok none, st1, src1)
    | .ok (some (name, value, endv)) =>
      (.ok (some (.field name value)), (advance st1 src1 endv true).1,
        (advance st1 src1 endv true).2)

/-- The part of `TagDecoder::decode_inner` (parse/mod.rs 188-214) after
the buffer has been advanced to its first `<`: scan for the matching `>`. -/
def decodeAt (st1 : TagDecoder) (src1 : ByteStr) :
    Except Err (Option ParserTag) × TagDecoder × ByteStr :=
  match bytePos 62 src1 with
  | none => (.ok none, st1, src1)
  | some endIdx => decodeTag st1 src1 endIdx

/-- `TagDecoder::decode_inner` (parse/mod.rs 181-215), with the `&mut`
state and buffer made explicit: the result, the decoder afterwards, and
the undrained remainder of the buffer. -/
def decode_inner (st : TagDecoder) (src : ByteStr) :
    Except Err (Option ParserTag) × TagDecoder × ByteStr :=
  match bytePos 60 src with
  | none => (.ok none, st, src)
  | some beginIdx =>
    decodeAt (advance st src beginIdx false).1 (advance st src beginIdx false).2

/-- `TagDecoder::decode` (parse/mod.rs 217-241): wrap `decode_inner`,
translating `Eof` to end-of-stream and raising the partial-data error
when `eof` handling is requested on a nonempty remainder. -/
def TagDecoder.decode (st : TagDecoder) (src : ByteStr) (eof : Bool) :
    Except Err (Option Tag) × TagDecoder × ByteStr :=
  match decode_inner st src with
  | (.error e, st', src') => (.error e, st', src')
  | (.ok (some t), st', src') =>
    (.ok (match t with
      | .field n v => some (.field n v)
      | .eoh => some .eoh
      | .eor => some .eor
      | .eofT => none), st', src')
  | (.ok none, st', src') =>
    if eof then
      if src'.isEmpty then (.ok none, st', src')
      else (.error (.invalidFormat partialMsgBytes st'.position), st', src')
    else (.ok none, st', src')

/-- `Decoder::decode_eof` for `TagDecoder` (parse/mod.rs 253-258). -/
def TagDecoder.decode_eof (st : TagDecoder) (src : ByteStr) :
    Except Err (Option Tag) × TagDecoder × ByteStr :=
  st.decode src (!st.ignore_partial)

theorem advance_snd_length (st : TagDecoder) (src : ByteStr) (n : Nat) (ws : Bool) :
    ((advance st src n ws).2).length ≤ src.length - n := by
  rw [advance]
  split
  · calc ((src.drop n).dropWhile isWsByte).length ≤ (src.drop n).length :=
      List.IsSuffix.length_le (List.dropWhile_suffix isWsByte)
    _ = src.length - n := List.length_drop n src
  · exact le_of_eq (List.length_drop n src)

theorem parse_value_go_pure_some_le {src : ByteStr} {offset : Nat}
    {name0 len0 : ByteStr} {typ0 : Option ByteStr} {n : ByteStr} {v : Datum} {e : Nat}
    (h : parse_value_go_pure src offset name0 len0 typ0 = some (some (n, v, e))) :
    offset + 1 ≤ e ∧ e ≤ src.length := by
  unfold parse_value_go_pure at h
  repeat' split at h
  all_goals first
    | (cases Option.some.inj (Option.some.inj h); omega)
    | (cases h)

theorem parse_value_some_le {st : TagDecoder} {src : ByteStr} {offset : Nat}
    {tag : ByteStr} {n : ByteStr} {v : Datum} {e : Nat}
    (h : parse_value st src offset tag = .ok (some (n, v, e))) :
    offset + 1 ≤ e ∧ e ≤ src.length := by
  unfold parse_value at h
  cases hp : parse_value_pure src offset tag with
  | none => rw [hp] at h; exact absurd h (by simp)
  | some r =>
    rw [hp] at h
    cases Except.ok.inj h
    unfold parse_value_pure at hp
    repeat' split at hp
    all_goals first
      | exact parse_value_go_pure_some_le hp
      | (cases hp)

theorem advance_lt {st : TagDecoder} {src : ByteStr} {n : Nat} {ws : Bool}
    (hn : 1 ≤ n) (hs : src ≠ []) : ((advance st src n ws).2).length < src.length := by
  have h1 := advance_snd_length st src n ws
  have h2 : 0 < src.length := List.length_pos.mpr hs
  omega

theorem decodeTag_some_length {st1 : TagDecoder} {src1 : ByteStr} {endIdx : Nat}
    {t : ParserTag} {st' : TagDecoder} {src' : ByteStr} (hs : src1 ≠ [])
    (h : decodeTag st1 src1 endIdx = (.ok (some t), st', src')) :
    src'.length < src1.length := by
  unfold decodeTag at h
  split at h
  · cases h
    exact advance_lt (by omega) hs
  · split at h
    · cases h
      exact advance_lt (by omega) hs
    · split at h
      · cases h
        exact advance_lt (List.length_pos.mpr hs) hs
      · cases hpv : parse_value st1 src1 endIdx (tagBodyOf src1 endIdx) with
        | error e =>
          rw [hpv] at h
          exact absurd (congrArg Prod.fst h) (by simp)
        | ok o =>
          cases o with
          | none =>
            rw [hpv] at h
            exact absurd (congrArg Prod.fst h) (by simp)
          | some triple =>
            obtain ⟨name, value, endv⟩ := triple
            rw [hpv] at h
            have hev := parse_value_some_le hpv
            cases h
            exact advance_lt (by omega) hs

theorem decodeAt_some_length {st1 : TagDecoder} {src1 : ByteStr}
    {t : ParserTag} {st' : TagDecoder} {src' : ByteStr}
    (h : decodeAt st1 src1 = (.ok (some t), st', src')) :
    src'.length < src1.length := by
  unfold decodeAt at h
  cases he : bytePos 62 src1 with
  | none =>
    rw [he] at h
    exact absurd (congrArg Prod.fst h) (by simp)
  | some endIdx =>
    rw [he] at h
    obtain ⟨pre, suf, hdec, -, -⟩ := bytePos_decomp he
    exact decodeTag_some_length (by rw [hdec]; simp) h

theorem decode_inner_some_length {st : TagDecoder} {src : ByteStr} {t : ParserTag}
    {st' : TagDecoder} {src' : ByteStr}
    (h : decode_inner st src = (.ok (some t), st', src')) :
    src'.length < src.length := by
  unfold decode_inner at h
  cases hb : bytePos 60 src with
  | none =>
    rw [hb] at h
    exact absurd (congrArg Prod.fst h) (by simp)
  | some beginIdx =>
    rw [hb] at h
    have h1 := decodeAt_some_length h
    have h2 := advance_snd_length st src beginIdx false
    omega

theorem decode_some_length {st : TagDecoder} {src : ByteStr} {eof : Bool} {t : Tag}
    {st' : TagDecoder} {src' : ByteStr}
    (h : st.decode src eof = (.ok (some t), st', src')) :
    src'.length < src.length := by
  unfold TagDecoder.decode at h
  cases hdi : decode_inner st src with
  | mk res rest =>
    obtain ⟨st1, src1⟩ := rest
    rw [hdi] at h
    cases res with
    | error e => exact absurd (congrArg Prod.fst h) (by simp)
    | ok o =>
      cases o with
      | none =>
        simp only [] at h
        repeat' split at h
        all_goals exact absurd (congrArg Prod.fst h) (by simp)
      | some pt =>
        have : src' = src1 := by
          have := congrArg (fun x => x.2.2) h
          simpa using this.symm
        subst this
        exact decode_inner_some_length hdi

/-! The driving loop: what `FramedRead` does with the decoder — call
`decode` until it reports "need more data", append the next chunk, and at
end of input call `decode_eof`.  `fuel` only bounds the loop; every
emitted tag consumes at least one byte, so `src.length + 1` is always
enough. -/

/-- Drain one buffer: repeatedly decode, collecting emitted tags, until
"need more data" (`ok none`) or an error. -/
def drainAux : Nat → TagDecoder → ByteStr → Bool →
    List Tag × Option Err × TagDecoder × ByteStr
  | 0, st, src, _ => ([], none, st, src)
  | fuel + 1, st, src, eof =>
    match st.decode src eof with
    | (.error e, st', src') => ([], some e, st', src')
    | (.ok none, st', src') => ([], none, st', src')
    | (.ok (some t), st', src') =>
      let r := drainAux fuel st' src' eof
      (t :: r.1, r.2.1, r.2.2.1, r.2.2.2)

/-- `drainAux` with always-sufficient fuel. -/
def drainF (st : TagDecoder) (src : ByteStr) (eof : Bool) :
    List Tag × Option Err × TagDecoder × ByteStr :=
  drainAux (src.length + 1) st src eof

theorem drainAux_congr :
    ∀ (f g : Nat) (st : TagDecoder) (src : ByteStr) (eof : Bool),
      src.length < f → src.length < g →
      drainAux f st src eof = drainAux g st src eof := by
  intro f
  induction f using Nat.strong_induction_on with
  | _ f ih =>
    intro g st src eof hf hg
    match f, hf with
    | f' + 1, hf =>
      match g, hg with
      | g' + 1, hg =>
        rw [drainAux, drainAux]
        cases hdec : st.decode src eof with
        | mk res rest =>
          obtain ⟨st', src'⟩ := rest
          cases res with
          | error e => rfl
          | ok o =>
            cases o with
            | none => rfl
            | some t =>
              have hlt := decode_some_length hdec
              simp only []
              rw [ih f' (Nat.lt_succ_self f') g' st' src' eof (by omega) (by omega)]

theorem drainF_eq (st : TagDecoder) (src : ByteStr) (eof : Bool) :
    drainF st src eof =
      match st.decode src eof with
      | (.error e, st', src') => ([], some e, st', src')
      | (.ok none, st', src') => ([], none, st', src')
      | (.ok (some t), st', src') =>
        let r := drainF st' src' eof
        (t :: r.1, r.2.1, r.2.2.1, r.2.2.2) := by
  rw [drainF, drainAux]
  cases hdec : st.decode src eof with
  | mk res rest =>
    obtain ⟨st', src'⟩ := rest
    cases res with
    | error e => rfl
    | ok o =>
      cases o with
      | none => rfl
      | some t =>
        have hlt := decode_some_length hdec
        simp only []
        rw [drainAux_congr src.length (src'.length + 1) st' src' eof (by omega) (by omega)]
        rfl

/-- The chunk phase of an incremental run: feed each chunk, draining the
buffer (`decode` with `eof = false`) after each append, stopping at the
first error. -/
def chunkPhase : TagDecoder → ByteStr → List ByteStr →
    List Tag × Option Err × TagDecoder × ByteStr
  | st, buf, [] => ([], none, st, buf)
  | st, buf, c :: cs =>
    let r := drainF st (buf ++ c) false
    match r.2.1 with
    | some e => (r.1, some e, r.2.2.1, r.2.2.2)
    | none =>
      let r2 := chunkPhase r.2.2.1 r.2.2.2 cs
      (r.1 ++ r2.1, r2.2.1, r2.2.2.1, r2.2.2.2)

/-- A full incremental run from a given decoder state: the chunk phase,
then (when no error stopped it) the `decode_eof` phase, whose `eof`
argument is `!ignore_partial` exactly as in `Decoder::decode_eof`. -/
def runFrom (st : TagDecoder) (chunks : List ByteStr) : List Tag × Option Err :=
  let r := chunkPhase st [] chunks
  match r.2.1 with
  | some e => (r.1, some e)
  | none =>
    let stE := r.2.2.1
    let r2 := drainF stE r.2.2.2 (!stE.ignore_partial)
    (r.1 ++ r2.1, r2.2.1)

/-- A full incremental run over a chunked stream with the decoder
`new_stream` creates. -/
def runChunks (ip : Bool) (chunks : List ByteStr) : List Tag × Option Err :=
  runFrom (TagDecoder.new_stream ip) chunks

/-- Decoding the whole stream in one shot (a single chunk). -/
def runOneshot (ip : Bool) (s : ByteStr) : List Tag × Option Err :=
  runChunks ip [s]

example :
    runOneshot true [60, 102, 111, 111, 58, 51, 62, 49, 50, 51] =
      ([Tag.field [102, 111, 111] (Datum.string [49, 50, 51])], none) := by decide


/-! Helper equations for the decoder. -/

theorem advance_slice_consumed (st : TagDecoder) :
    ∀ bs : ByteStr, (advance_slice st bs).consumed = st.consumed + bs.length := by
  intro bs
  induction bs generalizing st with
  | nil => simp [advance_slice]
  | cons b rest ih =>
    rw [advance_slice]
    split
    · rw [ih]
      simp only [List.length_cons]
      omega
    · rw [ih]
      simp only [List.length_cons]
      omega

theorem advance_false (st : TagDecoder) (src : ByteStr) (n : Nat) :
    advance st src n false = (advance_slice st (src.take n), src.drop n) := by
  rw [advance]
  simp

theorem advance_full (st : TagDecoder) (src : ByteStr) (ws : Bool) :
    advance st src src.length ws = (advance_slice st src, []) := by
  rw [advance]
  cases ws
  · simp [List.take_length, List.drop_length]
  · simp [List.take_length, List.drop_length]
    rfl

theorem ciEq_length {a b : ByteStr} (h : ciEq a b = true) : a.length = b.length := by
  rw [ciEq, beq_iff_eq] at h
  have := congrArg List.length h
  simpa using this

theorem decodeAt_eq_none (st1 : TagDecoder) {src1 : ByteStr}
    (he : bytePos 62 src1 = none) : decodeAt st1 src1 = (.ok none, st1, src1) := by
  unfold decodeAt
  rw [he]

theorem decodeAt_eq_found (st1 : TagDecoder) {src1 : ByteStr} {endIdx : Nat}
    (he : bytePos 62 src1 = some endIdx) :
    decodeAt st1 src1 = decodeTag st1 src1 endIdx := by
  unfold decodeAt
  rw [he]

theorem decode_inner_no_lt {st : TagDecoder} {src : ByteStr} (h : 60 ∉ src) :
    decode_inner st src = (.ok none, st, src) := by
  unfold decode_inner
  rw [(bytePos_eq_none_iff 60 src).mpr h]

theorem decode_inner_found (st : TagDecoder) {p : ByteStr} (rest : ByteStr) (h : 60 ∉ p) :
    decode_inner st (p ++ 60 :: rest) = decodeAt (advance_slice st p) (60 :: rest) := by
  unfold decode_inner
  rw [bytePos_append_cons h]
  show decodeAt (advance st (p ++ 60 :: rest) p.length false).1
      (advance st (p ++ 60 :: rest) p.length false).2 =
    decodeAt (advance_slice st p) (60 :: rest)
  rw [advance_false, take_append_of_length rfl, drop_append_of_length rfl]

theorem decodeAt_none {st1 : TagDecoder} {src1 : ByteStr} {st' : TagDecoder} {src' : ByteStr}
    (h : decodeAt st1 src1 = (.ok none, st', src')) : st' = st1 ∧ src' = src1 := by
  cases he : bytePos 62 src1 with
  | none =>
    have h2 := (decodeAt_eq_none st1 he).symm.trans h
    exact ⟨(congrArg (fun x => x.2.1) h2).symm, (congrArg (fun x => x.2.2) h2).symm⟩
  | some endIdx =>
    rw [decodeAt_eq_found st1 he] at h
    unfold decodeTag at h
    split at h
    · exact absurd (congrArg Prod.fst h) (by simp)
    · split at h
      · exact absurd (congrArg Prod.fst h) (by simp)
      · split at h
        · exact absurd (congrArg Prod.fst h) (by simp)
        · cases hpv : parse_value st1 src1 endIdx (tagBodyOf src1 endIdx) with
          | error e =>
            rw [hpv] at h
            exact absurd (congrArg Prod.fst h) (by simp)
          | ok o =>
            cases o with
            | none =>
              rw [hpv] at h
              exact ⟨(congrArg (fun x => x.2.1) h).symm, (congrArg (fun x => x.2.2) h).symm⟩
            | some triple =>
              obtain ⟨name, value, endv⟩ := triple
              rw [hpv] at h
              exact absurd (congrArg Prod.fst h) (by simp)

theorem decode_of_inner_none {st : TagDecoder} {src : ByteStr} {st' : TagDecoder}
    {src' : ByteStr} (h : decode_inner st src = (.ok none, st', src')) (eof : Bool) :
    st.decode src eof =
      (if eof then
        (if src'.isEmpty then ((.ok none : Except Err (Option Tag)), st', src')
         else (.error (.invalidFormat partialMsgBytes st'.position), st', src'))
       else (.ok none, st', src')) := by
  unfold TagDecoder.decode
  rw [h]

/-- Claim C8 (counterexample): on a buffer holding only non-`<` bytes the
decoder reports "need more data" but, contrary to the claim, leaves the
position tracker untouched — advancing over the scanned prefix `"abc"`
would have moved `consumed` to 3, yet it stays 0 (parse/mod.rs 184-186
returns before any `advance`). -/
theorem c8_scan_counterexample :
    decode_inner (TagDecoder.new_stream true) [97, 98, 99] =
      (.ok none, TagDecoder.new_stream true, [97, 98, 99]) ∧
    (advance_slice (TagDecoder.new_stream true) [97, 98, 99]).consumed = 3 ∧
    (TagDecoder.new_stream true).consumed = 0 := by decide

/-- Claim C8 (amended): when the buffered bytes contain no `<` the
decoder reports "need more data" leaving both the buffer and the position
tracker untouched; the scanned prefix is consumed — and the tracker
advanced over exactly that prefix — only on the attempt that finds a `<`,
so non-tag leading text is still skipped without ever causing an error
during decoding. -/
theorem c8_leading_scan (st : TagDecoder) (src p rest : ByteStr)
    (h1 : 60 ∉ src) (h2 : 60 ∉ p) :
    decode_inner st src = (.ok none, st, src) ∧
    decode_inner st (p ++ 60 :: rest) = decodeAt (advance_slice st p) (60 :: rest) :=
  ⟨decode_inner_no_lt h1, decode_inner_found st rest h2⟩

/-- Witness for C8 at the banner `"ab"` and the tag `"<eoh>"`. -/
theorem c8_leading_scan_witness :
    decode_inner (TagDecoder.new_stream true) [97, 98] =
      (.ok none, TagDecoder.new_stream true, [97, 98]) ∧
    decode_inner (TagDecoder.new_stream true) ([97, 98] ++ 60 :: [101, 111, 104, 62]) =
      decodeAt (advance_slice (TagDecoder.new_stream true) [97, 98])
        (60 :: [101, 111, 104, 62]) :=
  c8_leading_scan (TagDecoder.new_stream true) [97, 98] [97, 98] [101, 111, 104, 62]
    (by decide) (by decide)

/-- Claim C4: at end of stream, when the buffered remainder cannot be
decoded (`decode_inner` reports "need more data", leaving remainder
`src'`): with `ignore_partial = true` `decode_eof` ends the stream
cleanly (the remainder is simply dropped by the caller); an empty
remainder ends cleanly under either policy (so a fully-consumed buffer
never errors); with `ignore_partial = false` a nonempty remainder yields
the single format error `"partial data at end of stream"` positioned at
the start of that remainder — `src'` is a suffix of the buffer and the
position is the tracker advanced over exactly the consumed prefix. -/
theorem c4_eof_handling (st : TagDecoder) (src : ByteStr) (st' : TagDecoder)
    (src' : ByteStr) (h : decode_inner st src = (.ok none, st', src')) :
    (st.ignore_partial = true → st.decode_eof src = (.ok none, st', src')) ∧
    (src' = [] → st.decode_eof src = (.ok none, st', src')) ∧
    (st.ignore_partial = false → src' ≠ [] →
      st.decode_eof src =
        (.error (.invalidFormat partialMsgBytes st'.position), st', src')) ∧
    (∃ pre, src = pre ++ src' ∧ st' = advance_slice st pre ∧
      st'.consumed = st.consumed + pre.length) := by
  refine ⟨?_, ?_, ?_, ?_⟩
  · intro hip
    rw [TagDecoder.decode_eof, hip]
    show st.decode src false = _
    rw [decode_of_inner_none h false]
    rfl
  · intro hsrc
    subst hsrc
    rw [TagDecoder.decode_eof, decode_of_inner_none h]
    cases hip : st.ignore_partial <;> rfl
  · intro hip hne
    rw [TagDecoder.decode_eof, hip]
    show st.decode src true = _
    rw [decode_of_inner_none h true]
    rw [if_pos rfl, if_neg (by simpa [List.isEmpty_iff] using hne)]
  · cases hb : bytePos 60 src with
    | none =>
      have hnm := (bytePos_eq_none_iff 60 src).mp hb
      have h2 := (@decode_inner_no_lt st src hnm).symm.trans h
      have hst : st = st' := congrArg (fun x => x.2.1) h2
      have hsrc : src = src' := congrArg (fun x => x.2.2) h2
      refine ⟨[], by simp [hsrc], by rw [← hst]; rfl, by rw [← hst]; simp [advance_slice]⟩
    | some beginIdx =>
      obtain ⟨pre, suf, hdec, hlen, hnm⟩ := bytePos_decomp hb
      subst hdec
      rw [decode_inner_found st suf hnm] at h
      obtain ⟨hst, hsrc⟩ := decodeAt_none h
      exact ⟨pre, by rw [hsrc], hst, by rw [hst, advance_slice_consumed]⟩

/-- Witness for C4 at the truncated tag `"<fo"` with the strict policy:
the single partial-data error at line 1, column 1, byte 0. -/
theorem c4_eof_handling_witness :
    (TagDecoder.new_stream false).decode_eof [60, 102, 111] =
      (.error (.invalidFormat partialMsgBytes (TagDecoder.new_stream false).position),
        TagDecoder.new_stream false, [60, 102, 111]) :=
  (c4_eof_handling (TagDecoder.new_stream false) [60, 102, 111]
      (TagDecoder.new_stream false) [60, 102, 111] (by decide)).2.2.1 rfl (by decide)

/-- Claim C3 (counterexample): decoding
`"<app_lotw_eof><a:1>x"` in one shot emits nothing, but feeding the same
bytes as the two chunks `"<app_lotw_eof>"` then `"<a:1>x"` emits the
field `a = "x"` after the marker — the decoder keeps no end-of-file flag,
so data arriving in later chunks is decoded normally. -/
theorem c3_lotw_counterexample :
    runOneshot true (([60] ++ lotwBytes ++ [62]) ++ [60, 97, 58, 49, 62, 120]) =
      ([], none) ∧
    runChunks true [[60] ++ lotwBytes ++ [62], [60, 97, 58, 49, 62, 120]] =
      ([Tag.field [97] (Datum.string [120])], none) := by decide

/-- Claim C3 (amended): within one buffer, once the decoder recognizes an
`app_lotw_eof` tag (case-insensitively) it consumes and discards
everything remaining in that buffer and reports end-of-stream (`Ok none`
with an empty remainder), for any end-of-stream flag and under both
partial-data policies; a subsequent `decode_eof` on the emptied buffer
ends cleanly under both policies.  (Tags that arrive in *later* chunks
are still decoded, per the counterexample.) -/
theorem c3_lotw_discards (st : TagDecoder) (p body rest : ByteStr) (eof : Bool)
    (hp : 60 ∉ p) (hb : 62 ∉ body) (hci : ciEq body lotwBytes = true) :
    (∃ st', st.decode (p ++ 60 :: (body ++ 62 :: rest)) eof = (.ok none, st', [])) ∧
    (∀ st2 : TagDecoder, st2.decode_eof [] = (.ok none, st2, [])) := by
  constructor
  · have hlen : body.length = 12 := by
      have := ciEq_length hci
      simpa using this
    have hinner : decode_inner st (p ++ 60 :: (body ++ 62 :: rest)) =
        decodeAt (advance_slice st p) (60 :: (body ++ 62 :: rest)) :=
      decode_inner_found st _ hp
    have hpos62 : bytePos 62 (60 :: (body ++ 62 :: rest)) = some (60 :: body).length := by
      have : (60 : Nat) :: (body ++ 62 :: rest) = (60 :: body) ++ 62 :: rest := by simp
      rw [this]
      exact bytePos_append_cons (by
        intro hm
        rcases List.mem_cons.mp hm with h1 | h1
        · exact absurd h1.symm (by decide)
        · exact hb h1)
    have htag : tagBodyOf (60 :: (body ++ 62 :: rest)) (60 :: body).length = body := by
      rw [tagBodyOf]
      simp only [List.drop_succ_cons, List.drop_zero, List.length_cons]
      rw [Nat.add_sub_cancel]
      exact take_append_of_length rfl
    have hne : ¬ ciEq body eohBytes = true := by
      intro hx
      have := ciEq_length hx
      rw [hlen] at this
      simp [eohBytes] at this
    have hne2 : ¬ ciEq body eorBytes = true := by
      intro hx
      have := ciEq_length hx
      rw [hlen] at this
      simp [eorBytes] at this
    have hdt : decodeTag (advance_slice st p) (60 :: (body ++ 62 :: rest))
        (60 :: body).length =
        (.ok (some .eofT),
          advance_slice (advance_slice st p) (60 :: (body ++ 62 :: rest)), []) := by
      rw [decodeTag, htag]
      rw [if_neg hne, if_neg hne2, if_pos hci]
      rw [advance_full]
    have hAt : decodeAt (advance_slice st p) (60 :: (body ++ 62 :: rest)) =
        (.ok (some .eofT),
          advance_slice (advance_slice st p) (60 :: (body ++ 62 :: rest)), []) := by
      rw [decodeAt]
      rw [hpos62]
      exact hdt
    refine ⟨advance_slice (advance_slice st p) (60 :: (body ++ 62 :: rest)), ?_⟩
    unfold TagDecoder.decode
    rw [hinner, hAt]
  · intro st2
    have hinner : decode_inner st2 [] = (.ok none, st2, []) := decode_inner_no_lt (by simp)
    rw [TagDecoder.decode_eof, decode_of_inner_none hinner]
    cases st2.ignore_partial <;> rfl

/-- Witness for C3 at the bare marker followed by `"<a:1>x"`. -/
theorem c3_lotw_discards_witness :
    (∃ st', (TagDecoder.new_stream true).decode
      ([] ++ 60 :: (lotwBytes ++ 62 :: [60, 97, 58, 49, 62, 120])) false =
        (.ok none, st', [])) ∧
    (∀ st2 : TagDecoder, st2.decode_eof [] = (.ok none, st2, [])) :=
  c3_lotw_discards (TagDecoder.new_stream true) [] lotwBytes [60, 97, 58, 49, 62, 120]
    false (by decide) (by decide) (by decide)

/-! The state-offset simulation for claim C10.  `Default::default()`
zero-initializes every counter of `TagDecoder` while `new_stream` starts
the documented 1-based line and column; the decoding logic itself never
reads the counters (they only enter reported error positions), so the two
runs emit the same tags and differ only by the initial offset in the
error position — except that `advance_slice` resets the column to 1 at a
newline in both decoders, after which the columns coincide. -/

/-- The position offset between a `Default`-constructed run (`p0`) and a
`new_stream` run (`p1`): same byte offset, line exactly one more, and
column one more (before any consumed newline) or equal (after one, both
runs having reset the column to 1). -/
def posRel (p0 p1 : Position) : Prop :=
  p1.byte = p0.byte ∧ p1.line = p0.line + 1 ∧
    (p1.column = p0.column + 1 ∨ p1.column = p0.column)

/-- The decoder-state counterpart of `posRel`: same policy flag and
consumed count, line and column offset as in `posRel`. -/
def stRel (st0 st1 : TagDecoder) : Prop :=
  st1.ignore_partial = st0.ignore_partial ∧ st1.consumed = st0.consumed ∧
    st1.line = st0.line + 1 ∧ (st1.column = st0.column + 1 ∨ st1.column = st0.column)

/-- `posRel` lifted to the errors the tag decoder raises. -/
def errRel : Err → Err → Prop
  | .invalidFormat m0 p0, .invalidFormat m1 p1 => m1 = m0 ∧ posRel p0 p1
  | _, _ => False

/-- `errRel` on optional errors: both absent, or both present and related. -/
def oerrRel : Option Err → Option Err → Prop
  | none, none => True
  | some e0, some e1 => errRel e0 e1
  | _, _ => False

/-- `errRel` on decode results: equal payloads or related errors. -/
def exRel {α : Type} : Except Err α → Except Err α → Prop
  | .ok a, .ok b => b = a
  | .error e0, .error e1 => errRel e0 e1
  | _, _ => False

/-- Relation on the (result, state, buffer) triples of the decoding
steps: related results, related states, equal buffers. -/
def tripRel {α : Type} (r0 r1 : Except Err α × TagDecoder × ByteStr) : Prop :=
  exRel r0.1 r1.1 ∧ stRel r0.2.1 r1.2.1 ∧ r1.2.2 = r0.2.2

/-- Relation on the (tags, error?, state, buffer) quadruples of the drain
loop: equal tags and buffers, related errors and states. -/
def quadRel (r0 r1 : List Tag × Option Err × TagDecoder × ByteStr) : Prop :=
  r1.1 = r0.1 ∧ oerrRel r0.2.1 r1.2.1 ∧ stRel r0.2.2.1 r1.2.2.1 ∧ r1.2.2.2 = r0.2.2.2

theorem stRel_position {st0 st1 : TagDecoder} (h : stRel st0 st1) :
    posRel st0.position st1.position :=
  ⟨h.2.1, h.2.2.1, h.2.2.2⟩

theorem errRel_invalid {st0 st1 : TagDecoder} (h : stRel st0 st1) (m : ByteStr) :
    errRel (.invalidFormat m st0.position) (.invalidFormat m st1.position) :=
  ⟨rfl, stRel_position h⟩

theorem stRel_advance_slice :
    ∀ (bs : ByteStr) {st0 st1 : TagDecoder}, stRel st0 st1 →
      stRel (advance_slice st0 bs) (advance_slice st1 bs) := by
  intro bs
  induction bs with
  | nil =>
    intro st0 st1 h
    exact h
  | cons b rest ih =>
    intro st0 st1 h
    rw [advance_slice, advance_slice]
    by_cases hb : b = 10
    · rw [if_pos hb, if_pos hb]
      refine ih ⟨h.1, ?_, ?_, Or.inr rfl⟩
      · show st1.consumed + 1 = st0.consumed + 1
        rw [h.2.1]
      · show st1.line + 1 = st0.line + 1 + 1
        rw [h.2.2.1]
    · rw [if_neg hb, if_neg hb]
      refine ih ⟨h.1, ?_, h.2.2.1, ?_⟩
      · show st1.consumed + 1 = st0.consumed + 1
        rw [h.2.1]
      · rcases h.2.2.2 with h1 | h1
        · refine Or.inl ?_
          show st1.column + 1 = st0.column + 1 + 1
          rw [h1]
        · refine Or.inr ?_
          show st1.column + 1 = st0.column + 1
          rw [h1]

theorem advance_true (st : TagDecoder) (src : ByteStr) (n : Nat) :
    advance st src n true =
      (advance_slice (advance_slice st (src.take n)) ((src.drop n).takeWhile isWsByte),
        (src.drop n).dropWhile isWsByte) := by
  rw [advance]
  simp

theorem advance_snd_state_indep (st0 st1 : TagDecoder) (src : ByteStr) (n : Nat)
    (ws : Bool) : (advance st1 src n ws).2 = (advance st0 src n ws).2 := by
  cases ws
  · rw [advance_false, advance_false]
  · rw [advance_true, advance_true]

theorem stRel_advance {st0 st1 : TagDecoder} (h : stRel st0 st1) (src : ByteStr)
    (n : Nat) (ws : Bool) :
    stRel (advance st0 src n ws).1 (advance st1 src n ws).1 := by
  cases ws
  · rw [advance_false, advance_false]
    exact stRel_advance_slice _ h
  · rw [advance_true, advance_true]
    exact stRel_advance_slice _ (stRel_advance_slice _ h)

theorem tripRel_decodeTag {st0 st1 : TagDecoder} (h : stRel st0 st1)
    (src1 : ByteStr) (endIdx : Nat) :
    tripRel (decodeTag st0 src1 endIdx) (decodeTag st1 src1 endIdx) := by
  unfold decodeTag
  by_cases h1 : ciEq (tagBodyOf src1 endIdx) eohBytes = true
  · rw [if_pos h1, if_pos h1]
    exact ⟨rfl, stRel_advance h src1 (endIdx + 1) true,
      advance_snd_state_indep st0 st1 src1 (endIdx + 1) true⟩
  · rw [if_neg h1, if_neg h1]
    by_cases h2 : ciEq (tagBodyOf src1 endIdx) eorBytes = true
    · rw [if_pos h2, if_pos h2]
      exact ⟨rfl, stRel_advance h src1 (endIdx + 1) true,
        advance_snd_state_indep st0 st1 src1 (endIdx + 1) true⟩
    · rw [if_neg h2, if_neg h2]
      by_cases h3 : ciEq (tagBodyOf src1 endIdx) lotwBytes = true
      · rw [if_pos h3, if_pos h3]
        exact ⟨rfl, stRel_advance h src1 src1.length true,
          advance_snd_state_indep st0 st1 src1 src1.length true⟩
      · rw [if_neg h3, if_neg h3]
        rw [parse_value, parse_value]
        cases hp : parse_value_pure src1 endIdx (tagBodyOf src1 endIdx) with
        | none =>
          exact ⟨errRel_invalid h _, h, rfl⟩
        | some o =>
          cases o with
          | none => exact ⟨rfl, h, rfl⟩
          | some triple =>
            obtain ⟨name, value, endv⟩ := triple
            exact ⟨rfl, stRel_advance h src1 endv true,
              advance_snd_state_indep st0 st1 src1 endv true⟩

theorem tripRel_decodeAt {st0 st1 : TagDecoder} (h : stRel st0 st1) (src1 : ByteStr) :
    tripRel (decodeAt st0 src1) (decodeAt st1 src1) := by
  cases he : bytePos 62 src1 with
  | none =>
    rw [decodeAt_eq_none st0 he, decodeAt_eq_none st1 he]
    exact ⟨rfl, h, rfl⟩
  | some endIdx =>
    rw [decodeAt_eq_found st0 he, decodeAt_eq_found st1 he]
    exact tripRel_decodeTag h src1 endIdx

theorem tripRel_decode_inner {st0 st1 : TagDecoder} (h : stRel st0 st1)
    (src : ByteStr) : tripRel (decode_inner st0 src) (decode_inner st1 src) := by
  cases hb : bytePos 60 src with
  | none =>
    have h60 := (bytePos_eq_none_iff 60 src).mp hb
    rw [decode_inner_no_lt h60, decode_inner_no_lt h60]
    exact ⟨rfl, h, rfl⟩
  | some beginIdx =>
    obtain ⟨pre, suf, hdec, hlen, hnm⟩ := bytePos_decomp hb
    subst hdec
    rw [decode_inner_found st0 suf hnm, decode_inner_found st1 suf hnm]
    exact tripRel_decodeAt (stRel_advance_slice pre h) (60 :: suf)

theorem decode_of_inner_error {st : TagDecoder} {src : ByteStr} {e : Err}
    {st' : TagDecoder} {src' : ByteStr}
    (h : decode_inner st src = (.error e, st', src')) (eof : Bool) :
    st.decode src eof = (.error e, st', src') := by
  unfold TagDecoder.decode
  rw [h]

/-- The `ParserTag → Option Tag` mapping of `decode`'s success branch
(`Eof` ends the stream, the rest pass through). -/
def mapPT : ParserTag → Option Tag
  | .field n v => some (.field n v)
  | .eoh => some .eoh
  | .eor => some .eor
  | .eofT => none

theorem decode_of_inner_some {st : TagDecoder} {src : ByteStr} {t : ParserTag}
    {st' : TagDecoder} {src' : ByteStr}
    (h : decode_inner st src = (.ok (some t), st', src')) (eof : Bool) :
    st.decode src eof = (.ok (mapPT t), st', src') := by
  unfold TagDecoder.decode
  rw [h]
  cases t <;> rfl

theorem tripRel_decode {st0 st1 : TagDecoder} (h : stRel st0 st1) (src : ByteStr)
    (eof : Bool) : tripRel (st0.decode src eof) (st1.decode src eof) := by
  have hi := tripRel_decode_inner h src
  rcases h0 : decode_inner st0 src with ⟨res0, st0', b0⟩
  rcases h1 : decode_inner st1 src with ⟨res1, st1', b1⟩
  rw [h0, h1] at hi
  obtain ⟨hr, hs, hbuf⟩ := hi
  cases res0 with
  | error e0 =>
    cases res1 with
    | error e1 =>
      rw [decode_of_inner_error h0 eof, decode_of_inner_error h1 eof]
      exact ⟨hr, hs, hbuf⟩
    | ok o1 => exact False.elim hr
  | ok o0 =>
    cases res1 with
    | error e1 => exact False.elim hr
    | ok o1 =>
      have ho : o1 = o0 := hr
      subst ho
      cases o1 with
      | some t =>
        rw [decode_of_inner_some h0 eof, decode_of_inner_some h1 eof]
        exact ⟨rfl, hs, hbuf⟩
      | none =>
        subst hbuf
        rw [decode_of_inner_none h0 eof, decode_of_inner_none h1 eof]
        cases eof with
        | false =>
          rw [if_neg (by simp), if_neg (by simp)]
          exact ⟨rfl, hs, rfl⟩
        | true =>
          rw [if_pos rfl, if_pos rfl]
          by_cases hbe : b1.isEmpty = true
          · rw [if_pos hbe, if_pos hbe]
            exact ⟨rfl, hs, rfl⟩
          · rw [if_neg hbe, if_neg hbe]
            exact ⟨errRel_invalid hs partialMsgBytes, hs, rfl⟩

theorem quadRel_drainF :
    ∀ (n : Nat) (src : ByteStr), src.length ≤ n → ∀ {st0 st1 : TagDecoder} (eof : Bool),
      stRel st0 st1 → quadRel (drainF st0 src eof) (drainF st1 src eof) := by
  intro n
  induction n using Nat.strong_induction_on with
  | _ n ih =>
    intro src hlen st0 st1 eof h
    rw [drainF_eq st0 src eof, drainF_eq st1 src eof]
    have hd := tripRel_decode h src eof
    rcases h0 : st0.decode src eof with ⟨res0, st0', b0⟩
    rcases h1 : st1.decode src eof with ⟨res1, st1', b1⟩
    rw [h0, h1] at hd
    obtain ⟨hr, hs, hbuf⟩ := hd
    cases res0 with
    | error e0 =>
      cases res1 with
      | error e1 => exact ⟨rfl, hr, hs, hbuf⟩
      | ok o1 => exact False.elim hr
    | ok o0 =>
      cases res1 with
      | error e1 => exact False.elim hr
      | ok o1 =>
        have ho : o1 = o0 := hr
        subst ho
        cases o1 with
        | none => exact ⟨rfl, trivial, hs, hbuf⟩
        | some t =>
          subst hbuf
          have hlt : b1.length < src.length := decode_some_length h0
          have ihr := ih b1.length (by omega) b1 le_rfl eof hs
          exact ⟨congrArg (fun l => t :: l) ihr.1, ihr.2.1, ihr.2.2.1, ihr.2.2.2⟩

theorem quadRel_chunkPhase :
    ∀ (cs : List ByteStr) (buf : ByteStr) {st0 st1 : TagDecoder},
      stRel st0 st1 → quadRel (chunkPhase st0 buf cs) (chunkPhase st1 buf cs) := by
  intro cs
  induction cs with
  | nil =>
    intro buf st0 st1 h
    exact ⟨rfl, trivial, h, rfl⟩
  | cons c cs ih =>
    intro buf st0 st1 h
    rw [chunkPhase, chunkPhase]
    have hd := quadRel_drainF (buf ++ c).length (buf ++ c) le_rfl false h
    rcases h0 : drainF st0 (buf ++ c) false with ⟨tags0, me0, st0', b0⟩
    rcases h1 : drainF st1 (buf ++ c) false with ⟨tags1, me1, st1', b1⟩
    rw [h0, h1] at hd
    obtain ⟨htags, herr, hst, hbuf⟩ := hd
    cases me0 with
    | some e0 =>
      cases me1 with
      | some e1 => exact ⟨htags, herr, hst, hbuf⟩
      | none => exact False.elim herr
    | none =>
      cases me1 with
      | some e1 => exact False.elim herr
      | none =>
        subst hbuf
        subst htags
        have ihr := ih b1 hst
        exact ⟨congrArg (fun l => tags1 ++ l) ihr.1, ihr.2.1, ihr.2.2.1, ihr.2.2.2⟩

theorem runFrom_rel {st0 st1 : TagDecoder} (h : stRel st0 st1) (chunks : List ByteStr) :
    (runFrom st1 chunks).1 = (runFrom st0 chunks).1 ∧
      oerrRel (runFrom st0 chunks).2 (runFrom st1 chunks).2 := by
  unfold runFrom
  have hc := quadRel_chunkPhase chunks [] h
  rcases h0 : chunkPhase st0 [] chunks with ⟨tags0, me0, st0', b0⟩
  rcases h1 : chunkPhase st1 [] chunks with ⟨tags1, me1, st1', b1⟩
  rw [h0, h1] at hc
  obtain ⟨htags, herr, hst, hbuf⟩ := hc
  cases me0 with
  | some e0 =>
    cases me1 with
    | some e1 => exact ⟨htags, herr⟩
    | none => exact False.elim herr
  | none =>
    cases me1 with
    | some e1 => exact False.elim herr
    | none =>
      subst hbuf
      subst htags
      have hflag : (!st1'.ignore_partial) = (!st0'.ignore_partial) := by rw [hst.1]
      have hdr := quadRel_drainF b1.length b1 le_rfl (!st0'.ignore_partial) hst
      refine ⟨?_, ?_⟩
      · show tags1 ++ (drainF st1' b1 (!st1'.ignore_partial)).1 =
          tags1 ++ (drainF st0' b1 (!st0'.ignore_partial)).1
        rw [hflag, hdr.1]
      · show oerrRel (drainF st0' b1 (!st0'.ignore_partial)).2.1
          (drainF st1' b1 (!st1'.ignore_partial)).2.1
        rw [hflag]
        exact hdr.2.1

/-- Claim C10 (counterexample): on the input `"\n<x>"` (a newline, then a
tag the parser rejects) the strict `Default`-constructed run reports its
error at line 1 column 1, and the `new_stream` run at line 2 column 1 —
byte offsets agree and the line is one less, but the column is *not* one
less as claimed: both decoders reset the column to 1 at the newline. -/
theorem c10_column_counterexample :
    (runFrom TagDecoder.defaultD [[10, 60, 120, 62]]).2 =
      some (.invalidFormat [120] ⟨1, 1, 1⟩) ∧
    (runFrom (TagDecoder.new_stream false) [[10, 60, 120, 62]]).2 =
      some (.invalidFormat [120] ⟨2, 1, 1⟩) ∧
    ¬ ((Position.mk 1 1 1).column + 1 = (Position.mk 2 1 1).column) := by
  decide

/-- Claim C10 (amended): `Default::default()` zero-initializes the
`TagDecoder` counters (`line = 0`, `column = 0`, strict policy) while
`new_stream` starts them at the documented `line = 1`, `column = 1`; on
any chunked input the two runs emit the identical tag sequence, and when
they fail the two errors carry the same message and the same byte offset,
with the `Default` line exactly one less and the `Default` column one
less *or equal* — equal once a newline has been consumed, both decoders
resetting the column to 1. -/
theorem c10_default_decoder_offset (chunks : List ByteStr) :
    TagDecoder.defaultD = ⟨false, 0, 0, 0⟩ ∧
    (∀ ip : Bool, TagDecoder.new_stream ip = ⟨ip, 0, 1, 1⟩) ∧
    (runFrom (TagDecoder.new_stream false) chunks).1 =
      (runFrom TagDecoder.defaultD chunks).1 ∧
    oerrRel (runFrom TagDecoder.defaultD chunks).2
      (runFrom (TagDecoder.new_stream false) chunks).2 := by
  have h : stRel TagDecoder.defaultD (TagDecoder.new_stream false) :=
    ⟨rfl, rfl, rfl, Or.inl rfl⟩
  have hr := runFrom_rel h chunks
  exact ⟨rfl, fun ip => rfl, hr.1, hr.2⟩

/-! Infrastructure for claims C1 and C5: well-formed field names and
values, and what the decoder makes of one encoded field. -/

/-- A field name the tag syntax can carry faithfully: valid UTF-8, no `:`
(which would shift the length part of the tag) and no `>` (which would
end the tag early).  The encoder never checks this. -/
def validName (name : ByteStr) : Bool :=
  isValidUtf8 name && decide (58 ∉ name) && decide (62 ∉ name)

/-- A datum the decoder can read back: valid UTF-8 string content, a
well-formed decimal, a calendar-valid date, a valid time of day — and
not the write-only `DateTime`. -/
def wfDatum : Datum → Bool
  | .string s => isValidUtf8 s
  | .number d => d.ok
  | .date d => d.ok
  | .time t => t.ok
  | .boolean _ => true
  | .datetime _ => false

/-- The datum a round trip hands back: the original when a type
indicator was written, its canonical string otherwise. -/
def decodedDatum (types : OutputTypes) (v : Datum) : Datum :=
  match indOpt types v with
  | some _ => v
  | none => .string v.as_str

/-- Reading a parsed field back through the coercion accessor matching
the original datum's type recovers the original value. -/
def coerceBack (orig parsed : Datum) : Prop :=
  match orig with
  | .string s => parsed.as_str = s
  | .boolean b => parsed.as_bool = some b
  | .number d => parsed.as_number = some d
  | .date d => parsed.as_date = some d
  | .time t => parsed.as_time = some t
  | .datetime _ => False

theorem validName_spec {name : ByteStr} (h : validName name = true) :
    isValidUtf8 name = true ∧ 58 ∉ name ∧ 62 ∉ name := by
  rw [validName, Bool.and_eq_true, Bool.and_eq_true] at h
  exact ⟨h.1.1, of_decide_eq_true h.1.2, of_decide_eq_true h.2⟩

theorem isDigitByte_lt {b : Nat} (h : isDigitByte b = true) : b < 128 := by
  rw [isDigitByte, Bool.and_eq_true] at h
  have := of_decide_eq_true h.2
  omega

theorem natRender_utf8 (n : Nat) : isValidUtf8 (natRender n) = true :=
  isValidUtf8_of_ascii fun b hb => isDigitByte_lt (natRender_all_digits n b hb)

theorem decRender_ascii (d : Dec) : ∀ b ∈ decRender d, b < 128 := by
  intro b hb
  rw [decRender] at hb
  rcases List.mem_append.mp hb with h | h
  · split at h
    · rcases List.mem_singleton.mp h with rfl
      omega
    · exact absurd h (List.not_mem_nil b)
  · rcases decBody_all_digits_or_dot d b h with h1 | h1
    · exact isDigitByte_lt h1
    · omega

theorem dateRender_ascii (dt : DateVal) : ∀ b ∈ dateRender dt, b < 128 := by
  intro b hb
  rw [dateRender] at hb
  rcases List.mem_append.mp hb with h | h
  · exact isDigitByte_lt (padRender_all_digits 4 dt.y b h)
  · rcases List.mem_append.mp h with h | h
    · exact isDigitByte_lt (padRender_all_digits 2 dt.mo b h)
    · exact isDigitByte_lt (padRender_all_digits 2 dt.dy b h)

theorem timeRender_ascii (t : TimeVal) : ∀ b ∈ timeRender t, b < 128 := by
  intro b hb
  rw [timeRender] at hb
  rcases List.mem_append.mp hb with h | h
  · exact isDigitByte_lt (padRender_all_digits 2 t.hh b h)
  · rcases List.mem_append.mp h with h | h
    · exact isDigitByte_lt (padRender_all_digits 2 t.mm b h)
    · exact isDigitByte_lt (padRender_all_digits 2 t.ss b h)

theorem wf_asStr_utf8 {v : Datum} (hv : wfDatum v = true) :
    isValidUtf8 v.as_str = true := by
  cases v with
  | string s => exact hv
  | boolean b => cases b <;> rfl
  | number d => exact isValidUtf8_of_ascii (decRender_ascii d)
  | date d => exact isValidUtf8_of_ascii (dateRender_ascii d)
  | time t => exact isValidUtf8_of_ascii (timeRender_ascii t)
  | datetime dt => exact absurd hv (by rw [wfDatum]; simp)

theorem indOpt_shape (types : OutputTypes) (v : Datum) :
    indOpt types v = none ∨
      ∃ c, indOpt types v = some [c] ∧
        (c = 98 ∨ c = 110 ∨ c = 100 ∨ c = 116 ∨ c = 115) := by
  cases types <;> cases v <;> simp [indOpt]

theorem parse_typed_roundtrip (types : OutputTypes) {v : Datum}
    (hv : wfDatum v = true) :
    parse_typed_value_pure v.as_str (indOpt types v) =
      some (decodedDatum types v) := by
  cases v with
  | datetime dt => exact absurd hv (by rw [wfDatum]; simp)
  | boolean b => cases types <;> cases b <;> rfl
  | string s => cases types <;> rfl
  | number d =>
    have hd := decFromString_decRender d hv
    cases types
    · show (match decFromString (decRender d) with
        | some num => some (Datum.number num)
        | none => none) = some (Datum.number d)
      rw [hd]
    · show (match decFromString (decRender d) with
        | some num => some (Datum.number num)
        | none => none) = some (Datum.number d)
      rw [hd]
    · rfl
  | date d =>
    have hd := dateFromString_dateRender d hv
    cases types
    · show (match dateFromString (dateRender d) with
        | some x => some (Datum.date x)
        | none => none) = some (Datum.date d)
      rw [hd]
    · show (match dateFromString (dateRender d) with
        | some x => some (Datum.date x)
        | none => none) = some (Datum.date d)
      rw [hd]
    · rfl
  | time t =>
    have ht := timeFromString_timeRender t hv
    cases types
    · show (match timeFromString (timeRender t) with
        | some x => some (Datum.time x)
        | none => none) = some (Datum.time t)
      rw [ht]
    · show (match timeFromString (timeRender t) with
        | some x => some (Datum.time x)
        | none => none) = some (Datum.time t)
      rw [ht]
    · rfl

theorem coerceBack_decoded (types : OutputTypes) {v : Datum}
    (hv : wfDatum v = true) : coerceBack v (decodedDatum types v) := by
  cases v with
  | datetime dt => exact absurd hv (by rw [wfDatum]; simp)
  | string s =>
    show (decodedDatum types (.string s)).as_str = s
    cases types <;> rfl
  | boolean b =>
    show (decodedDatum types (.boolean b)).as_bool = some b
    cases types <;> cases b <;> rfl
  | number d =>
    show (decodedDatum types (.number d)).as_number = some d
    have hd := decFromString_decRender d hv
    cases types
    · rfl
    · rfl
    · exact hd
  | date d =>
    show (decodedDatum types (.date d)).as_date = some d
    have hd := dateFromString_dateRender d hv
    cases types
    · rfl
    · rfl
    · exact hd
  | time t =>
    show (decodedDatum types (.time t)).as_time = some t
    have ht := timeFromString_timeRender t hv
    cases types
    · rfl
    · rfl
    · exact ht

theorem decodedDatum_eq_of_typed {types : OutputTypes} {v : Datum}
    (hv : wfDatum v = true) (ht : types = .always ∨ types = .onlyNonString) :
    decodedDatum types v = v := by
  rcases ht with rfl | rfl <;> cases v <;>
    first
      | rfl
      | exact absurd hv (by rw [wfDatum]; simp)

theorem toLowerByte_eq_58 {x : Nat} (h : toLowerByte x = 58) : x = 58 := by
  rw [toLowerByte] at h
  split at h
  · omega
  · exact h

theorem ciEq_58_mem {a b : ByteStr} (h : ciEq a b = true) (ha : 58 ∈ a) : 58 ∈ b := by
  rw [ciEq, beq_iff_eq] at h
  have h1 : toLowerByte 58 ∈ a.map toLowerByte := List.mem_map_of_mem toLowerByte ha
  rw [h] at h1
  rcases List.mem_map.mp h1 with ⟨x, hx, hlx⟩
  have : x = 58 := toLowerByte_eq_58 hlx
  exact this ▸ hx

theorem not_ciEq_of_58 {a b : ByteStr} (ha : 58 ∈ a) (hb : 58 ∉ b) :
    ¬ ciEq a b = true :=
  fun h => hb (ciEq_58_mem h ha)

theorem dropWhile_of_takeWhile_nil {p : Nat → Bool} {l : ByteStr}
    (h : l.takeWhile p = []) : l.dropWhile p = l := by
  cases l with
  | nil => rfl
  | cons a t =>
    rw [List.takeWhile_cons] at h
    rw [List.dropWhile_cons]
    split at h
    · exact absurd h (by simp)
    · rw [if_neg (by assumption)]

theorem advance_slice_append (st : TagDecoder) (a b : ByteStr) :
    advance_slice st (a ++ b) = advance_slice (advance_slice st a) b := by
  induction a generalizing st with
  | nil => rfl
  | cons x t ih =>
    rw [List.cons_append, advance_slice, advance_slice]
    exact ih _

theorem parse_value_go_pure_eval {src : ByteStr} {offset : Nat} {name : ByteStr}
    {typ : Option ByteStr} {s rest : ByteStr} {d : Datum}
    (hn : isValidUtf8 name = true)
    (ht : typ = none ∨ ∃ c, typ = some [c] ∧ isValidUtf8 [c] = true)
    (hdrop : src.drop (offset + 1) = s ++ rest)
    (hlen : src.length = offset + 1 + s.length + rest.length)
    (hs : isValidUtf8 s = true)
    (hpt : parse_typed_value_pure s typ = some d) :
    parse_value_go_pure src offset name (natRender s.length) typ =
      some (some (name, d, offset + 1 + s.length)) := by
  have hval : (src.drop (offset + 1)).take s.length = s := by
    rw [hdrop, take_append_of_length rfl]
  unfold parse_value_go_pure
  rw [if_pos hn, if_pos (natRender_utf8 s.length)]
  rw [parseUsize_natRender]
  rcases ht with rfl | ⟨c, rfl, hc⟩
  · show (if offset + 1 + s.length > src.length then some none
      else if isValidUtf8 ((src.drop (offset + 1)).take s.length) then
        match parse_typed_value_pure ((src.drop (offset + 1)).take s.length) none with
        | some value => some (some (name, value, offset + 1 + s.length))
        | none => none
      else none) = some (some (name, d, offset + 1 + s.length))
    rw [if_neg (by omega), hval, if_pos hs, hpt]
  · show (match (if isValidUtf8 [c] then some (some [c]) else none :
        Option (Option ByteStr)) with
      | none => none
      | some typ2 =>
        if offset + 1 + s.length > src.length then some none
        else if isValidUtf8 ((src.drop (offset + 1)).take s.length) then
          match parse_typed_value_pure ((src.drop (offset + 1)).take s.length) typ2 with
          | some value => some (some (name, value, offset + 1 + s.length))
          | none => none
        else none) = some (some (name, d, offset + 1 + s.length))
    rw [if_pos hc]
    show (if offset + 1 + s.length > src.length then some none
      else if isValidUtf8 ((src.drop (offset + 1)).take s.length) then
        match parse_typed_value_pure ((src.drop (offset + 1)).take s.length) (some [c]) with
        | some value => some (some (name, value, offset + 1 + s.length))
        | none => none
      else none) = some (some (name, d, offset + 1 + s.length))
    rw [if_neg (by omega), hval, if_pos hs, hpt]

/-- Decoding one well-formed encoded field at the head of the buffer:
`decode_inner` emits the field tag, advances over exactly the field's
bytes (no whitespace follows, by `hws`), and leaves `rest`. -/
theorem decode_unit_core (st : TagDecoder) (name lenb ibody s rest B : ByteStr)
    (typ : Option ByteStr) (d : Datum)
    (hB : B = name ++ 58 :: (lenb ++ ibody))
    (hnu : isValidUtf8 name = true)
    (hn58 : 58 ∉ name)
    (h62 : 62 ∉ 60 :: B)
    (hlenb : lenb = natRender s.length)
    (hsp : splitOnByte 58 (lenb ++ ibody) = [lenb] ∧ typ = none ∨
      ∃ c, splitOnByte 58 (lenb ++ ibody) = [lenb, [c]] ∧ typ = some [c] ∧
        isValidUtf8 [c] = true)
    (hs : isValidUtf8 s = true)
    (hpt : parse_typed_value_pure s typ = some d)
    (hws : rest.takeWhile isWsByte = []) :
    decode_inner st ((60 :: B) ++ 62 :: (s ++ rest)) =
      (.ok (some (.field name d)), advance_slice st ((60 :: B) ++ 62 :: s), rest) := by
  have h1 : decode_inner st (60 :: (B ++ 62 :: (s ++ rest))) =
      decodeAt st (60 :: (B ++ 62 :: (s ++ rest))) :=
    @decode_inner_found st [] (B ++ 62 :: (s ++ rest)) (by simp)
  rw [List.cons_append, h1]
  have hbp : bytePos 62 (60 :: (B ++ 62 :: (s ++ rest))) =
      some (60 :: B : ByteStr).length := by
    rw [← List.cons_append]
    exact bytePos_append_cons h62
  rw [decodeAt_eq_found st hbp]
  have htb : tagBodyOf (60 :: (B ++ 62 :: (s ++ rest))) (60 :: B : ByteStr).length = B := by
    rw [tagBodyOf]
    simp only [List.drop_succ_cons, List.drop_zero, List.length_cons]
    rw [Nat.add_sub_cancel]
    exact take_append_of_length rfl
  have h58 : 58 ∈ B := by
    rw [hB]
    exact List.mem_append.mpr (Or.inr (List.mem_cons_self _ _))
  have hsp1 : splitOnByte 58 B = name :: splitOnByte 58 (lenb ++ ibody) := by
    rw [hB]
    exact splitOnByte_append hn58
  have hlen1 : (60 :: (B ++ 62 :: (s ++ rest)) : ByteStr).length =
      (60 :: B : ByteStr).length + 1 + s.length + rest.length := by
    simp [List.length_append]
    omega
  have hdrop1 : (60 :: (B ++ 62 :: (s ++ rest)) : ByteStr).drop
      ((60 :: B : ByteStr).length + 1) = s ++ rest := by
    have he : (60 :: (B ++ 62 :: (s ++ rest)) : ByteStr) =
        (60 :: (B ++ [62])) ++ (s ++ rest) := by simp
    rw [he]
    exact drop_append_of_length (by simp)
  have hpv : parse_value_pure (60 :: (B ++ 62 :: (s ++ rest)))
      (60 :: B : ByteStr).length B =
      some (some (name, d, (60 :: B : ByteStr).length + 1 + s.length)) := by
    rcases hsp with ⟨hsp2, rfl⟩ | ⟨c, hsp2, rfl, hc⟩
    · unfold parse_value_pure
      rw [hsp1, hsp2]
      show parse_value_go_pure (60 :: (B ++ 62 :: (s ++ rest)))
        (60 :: B : ByteStr).length name lenb none = _
      subst hlenb
      exact parse_value_go_pure_eval hnu (Or.inl rfl) hdrop1 hlen1 hs hpt
    · unfold parse_value_pure
      rw [hsp1, hsp2]
      show parse_value_go_pure (60 :: (B ++ 62 :: (s ++ rest)))
        (60 :: B : ByteStr).length name lenb (some [c]) = _
      subst hlenb
      exact parse_value_go_pure_eval hnu (Or.inr ⟨c, rfl, hc⟩) hdrop1 hlen1 hs hpt
  rw [decodeTag, htb]
  rw [if_neg (not_ciEq_of_58 h58 (by decide)), if_neg (not_ciEq_of_58 h58 (by decide)),
    if_neg (not_ciEq_of_58 h58 (by decide))]
  have hpv2 : parse_value st (60 :: (B ++ 62 :: (s ++ rest)))
      (60 :: B : ByteStr).length B =
      .ok (some (name, d, (60 :: B : ByteStr).length + 1 + s.length)) := by
    unfold parse_value
    rw [hpv]
  rw [hpv2]
  show ((.ok (some (ParserTag.field name d)) : Except Err (Option ParserTag)),
      (advance st (60 :: (B ++ 62 :: (s ++ rest)))
        ((60 :: B : ByteStr).length + 1 + s.length) true).1,
      (advance st (60 :: (B ++ 62 :: (s ++ rest)))
        ((60 :: B : ByteStr).length + 1 + s.length) true).2) =
    (.ok (some (.field name d)), advance_slice st ((60 :: B) ++ 62 :: s), rest)
  rw [advance_true]
  have hsplit2 : (60 :: (B ++ 62 :: (s ++ rest)) : ByteStr) =
      ((60 :: B) ++ 62 :: s) ++ rest := by simp
  have htake : (60 :: (B ++ 62 :: (s ++ rest)) : ByteStr).take
      ((60 :: B : ByteStr).length + 1 + s.length) = (60 :: B) ++ 62 :: s := by
    rw [hsplit2]
    exact take_append_of_length (by simp; omega)
  have hdrop2 : (60 :: (B ++ 62 :: (s ++ rest)) : ByteStr).drop
      ((60 :: B : ByteStr).length + 1 + s.length) = rest := by
    rw [hsplit2]
    exact drop_append_of_length (by simp; omega)
  rw [htake, hdrop2, hws, dropWhile_of_takeWhile_nil hws]
  rfl

/-- `decode_inner` on one encoded field (name and value well-formed)
followed by non-whitespace data. -/
theorem decode_field_inner (types : OutputTypes) (st : TagDecoder) (name : ByteStr)
    (v : Datum) (rest : ByteStr) (hn : validName name = true) (hv : wfDatum v = true)
    (hws : rest.takeWhile isWsByte = []) :
    decode_inner st (fieldBytes types name v ++ rest) =
      (.ok (some (.field name (decodedDatum types v))),
        advance_slice st (fieldBytes types name v), rest) := by
  obtain ⟨hnu, hn58, hn62⟩ := validName_spec hn
  have hs := wf_asStr_utf8 hv
  have hpt := parse_typed_roundtrip types hv
  have hlen58 : 58 ∉ natRender v.as_str.length :=
    not_mem_of_all_digits (natRender_all_digits _) (by decide)
  have hlen62 : 62 ∉ natRender v.as_str.length :=
    not_mem_of_all_digits (natRender_all_digits _) (by decide)
  rcases indOpt_shape types v with hio | ⟨c, hio, hc5⟩
  · rw [hio] at hpt
    have hfb : fieldBytes types name v =
        (60 :: (name ++ 58 :: (natRender v.as_str.length ++ []))) ++ 62 :: v.as_str := by
      rw [fieldBytes, hio]
      simp
    have hsrc : fieldBytes types name v ++ rest =
        (60 :: (name ++ 58 :: (natRender v.as_str.length ++ []))) ++
          62 :: (v.as_str ++ rest) := by
      rw [hfb]
      simp
    rw [hsrc, hfb]
    refine decode_unit_core st name (natRender v.as_str.length) [] v.as_str rest _
      none (decodedDatum types v) rfl hnu hn58 ?_ rfl ?_ hs hpt hws
    · intro hm
      rcases List.mem_cons.mp hm with h' | h'
      · exact absurd h' (by decide)
      · rcases List.mem_append.mp h' with h'' | h''
        · exact hn62 h''
        · rcases List.mem_cons.mp h'' with h3 | h3
          · exact absurd h3 (by decide)
          · rcases List.mem_append.mp h3 with h4 | h4
            · exact hlen62 h4
            · exact absurd h4 (List.not_mem_nil 62)
    · refine Or.inl ⟨?_, rfl⟩
      rw [List.append_nil]
      exact splitOnByte_of_not_mem hlen58
  · have hc58 : (58 : Nat) ∉ [c] := by
      intro hm
      rcases List.mem_singleton.mp hm with rfl
      rcases hc5 with h | h | h | h | h <;> omega
    have hcu : isValidUtf8 [c] = true := by
      rcases hc5 with rfl | rfl | rfl | rfl | rfl <;> rfl
    rw [hio] at hpt
    have hfb : fieldBytes types name v =
        (60 :: (name ++ 58 :: (natRender v.as_str.length ++ 58 :: [c]))) ++
          62 :: v.as_str := by
      rw [fieldBytes, hio]
      simp
    have hsrc : fieldBytes types name v ++ rest =
        (60 :: (name ++ 58 :: (natRender v.as_str.length ++ 58 :: [c]))) ++
          62 :: (v.as_str ++ rest) := by
      rw [hfb]
      simp
    rw [hsrc, hfb]
    refine decode_unit_core st name (natRender v.as_str.length) (58 :: [c]) v.as_str
      rest _ (some [c]) (decodedDatum types v) rfl hnu hn58 ?_ rfl ?_ hs hpt hws
    · intro hm
      rcases List.mem_cons.mp hm with h' | h'
      · exact absurd h' (by decide)
      · rcases List.mem_append.mp h' with h'' | h''
        · exact hn62 h''
        · rcases List.mem_cons.mp h'' with h3 | h3
          · exact absurd h3 (by decide)
          · rcases List.mem_append.mp h3 with h4 | h4
            · exact hlen62 h4
            · rcases List.mem_cons.mp h4 with h5 | h5
              · exact absurd h5 (by decide)
              · rcases List.mem_singleton.mp h5 with rfl
                rcases hc5 with h | h | h | h | h <;> omega
    · refine Or.inr ⟨c, ?_, rfl, hcu⟩
      rw [splitOnByte_append hlen58, splitOnByte_of_not_mem hc58]

/-- `decode_inner` on `<eoh>\n` followed by non-whitespace data. -/
theorem decode_eoh_inner (st : TagDecoder) (rest : ByteStr)
    (hws : rest.takeWhile isWsByte = []) :
    decode_inner st (encode_eoh ++ rest) =
      (.ok (some .eoh), advance_slice st encode_eoh, rest) := by
  have h1 : decode_inner st (60 :: (101 :: 111 :: 104 :: 62 :: 10 :: rest)) =
      decodeAt st (60 :: 101 :: 111 :: 104 :: 62 :: 10 :: rest) :=
    @decode_inner_found st [] (101 :: 111 :: 104 :: 62 :: 10 :: rest) (by simp)
  show decode_inner st (60 :: 101 :: 111 :: 104 :: 62 :: 10 :: rest) = _
  rw [h1]
  have hbp : bytePos 62 (60 :: 101 :: 111 :: 104 :: 62 :: 10 :: rest) = some 4 := by
    have he : (60 :: 101 :: 111 :: 104 :: 62 :: 10 :: rest : ByteStr) =
        [60, 101, 111, 104] ++ 62 :: (10 :: rest) := rfl
    rw [he]
    exact bytePos_append_cons (by decide)
  rw [decodeAt_eq_found st hbp]
  rw [decodeTag]
  have htb : tagBodyOf (60 :: 101 :: 111 :: 104 :: 62 :: 10 :: rest) 4 =
      [101, 111, 104] := rfl
  rw [htb]
  rw [if_pos (by decide : ciEq [101, 111, 104] eohBytes = true)]
  show ((.ok (some ParserTag.eoh) : Except Err (Option ParserTag)),
      (advance st (60 :: 101 :: 111 :: 104 :: 62 :: 10 :: rest) 5 true).1,
      (advance st (60 :: 101 :: 111 :: 104 :: 62 :: 10 :: rest) 5 true).2) = _
  rw [advance_true]
  show (Except.ok (some ParserTag.eoh),
      advance_slice (advance_slice st [60, 101, 111, 104, 62])
        ((10 :: rest).takeWhile isWsByte),
      (10 :: rest).dropWhile isWsByte) = _
  rw [List.takeWhile_cons, if_pos (by decide : isWsByte 10 = true), hws]
  rw [List.dropWhile_cons, if_pos (by decide : isWsByte 10 = true),
    dropWhile_of_takeWhile_nil hws]
  rfl

/-- `decode_inner` on `<eor>\n` followed by non-whitespace data. -/
theorem decode_eor_inner (st : TagDecoder) (rest : ByteStr)
    (hws : rest.takeWhile isWsByte = []) :
    decode_inner st (encode_eor ++ rest) =
      (.ok (some .eor), advance_slice st encode_eor, rest) := by
  have h1 : decode_inner st (60 :: (101 :: 111 :: 114 :: 62 :: 10 :: rest)) =
      decodeAt st (60 :: 101 :: 111 :: 114 :: 62 :: 10 :: rest) :=
    @decode_inner_found st [] (101 :: 111 :: 114 :: 62 :: 10 :: rest) (by simp)
  show decode_inner st (60 :: 101 :: 111 :: 114 :: 62 :: 10 :: rest) = _
  rw [h1]
  have hbp : bytePos 62 (60 :: 101 :: 111 :: 114 :: 62 :: 10 :: rest) = some 4 := by
    have he : (60 :: 101 :: 111 :: 114 :: 62 :: 10 :: rest : ByteStr) =
        [60, 101, 111, 114] ++ 62 :: (10 :: rest) := rfl
    rw [he]
    exact bytePos_append_cons (by decide)
  rw [decodeAt_eq_found st hbp]
  rw [decodeTag]
  have htb : tagBodyOf (60 :: 101 :: 111 :: 114 :: 62 :: 10 :: rest) 4 =
      [101, 111, 114] := rfl
  rw [htb]
  rw [if_neg (by decide : ¬ ciEq [101, 111, 114] eohBytes = true)]
  rw [if_pos (by decide : ciEq [101, 111, 114] eorBytes = true)]
  show ((.ok (some ParserTag.eor) : Except Err (Option ParserTag)),
      (advance st (60 :: 101 :: 111 :: 114 :: 62 :: 10 :: rest) 5 true).1,
      (advance st (60 :: 101 :: 111 :: 114 :: 62 :: 10 :: rest) 5 true).2) = _
  rw [advance_true]
  show (Except.ok (some ParserTag.eor),
      advance_slice (advance_slice st [60, 101, 111, 114, 62])
        ((10 :: rest).takeWhile isWsByte),
      (10 :: rest).dropWhile isWsByte) = _
  rw [List.takeWhile_cons, if_pos (by decide : isWsByte 10 = true), hws]
  rw [List.dropWhile_cons, if_pos (by decide : isWsByte 10 = true),
    dropWhile_of_takeWhile_nil hws]
  rfl

/-- The concatenated bytes of a record's encoded fields. -/
def fieldsBytes (types : OutputTypes) (fields : List (ByteStr × Datum)) : ByteStr :=
  (fields.map (fun p => fieldBytes types p.1 p.2)).flatten

theorem takeWhile_ws_60 {l : ByteStr} (h : ∃ tl, l = 60 :: tl) :
    l.takeWhile isWsByte = [] := by
  obtain ⟨tl, rfl⟩ := h
  rw [List.takeWhile_cons, if_neg (by decide)]

theorem exists_head60 (types : OutputTypes) (fields : List (ByteStr × Datum))
    {m : ByteStr} (t : ByteStr) (hm : m = 60 :: t) :
    ∃ tl, fieldsBytes types fields ++ m = 60 :: tl := by
  cases fields with
  | nil =>
    refine ⟨t, ?_⟩
    show m = 60 :: t
    exact hm
  | cons p ps =>
    obtain ⟨n, v⟩ := p
    have hstep : fieldsBytes types ((n, v) :: ps) ++ m =
        fieldBytes types n v ++ (fieldsBytes types ps ++ m) := by
      show (fieldBytes types n v ++ fieldsBytes types ps) ++ m = _
      rw [List.append_assoc]
    rw [hstep, fieldBytes]
    exact ⟨_, rfl⟩

/-- Draining one encoded record: all field tags in order, then the
marker tag, ending cleanly with an empty buffer. -/
theorem drain_units (types : OutputTypes) (fields : List (ByteStr × Datum))
    (m : ByteStr) (pt : ParserTag) (tm : Tag) :
    ∀ st : TagDecoder,
      (∀ p ∈ fields, validName p.1 = true ∧ wfDatum p.2 = true) →
      (∃ t, m = 60 :: t) →
      (∀ st' : TagDecoder, decode_inner st' m =
        (.ok (some pt), advance_slice st' m, [])) →
      mapPT pt = some tm →
      drainF st (fieldsBytes types fields ++ m) false =
        (fields.map (fun p => Tag.field p.1 (decodedDatum types p.2)) ++ [tm],
          none, advance_slice st (fieldsBytes types fields ++ m), []) := by
  induction fields with
  | nil =>
    intro st hwf hm hmdec hmap
    show drainF st m false = ([tm], none, advance_slice st m, [])
    rw [drainF_eq]
    have hdec := decode_of_inner_some (hmdec st) false
    rw [hmap] at hdec
    rw [hdec]
    have hrec : drainF (advance_slice st m) [] false =
        ([], none, advance_slice st m, []) := by
      rw [drainF_eq]
      have hin : decode_inner (advance_slice st m) [] =
          (.ok none, advance_slice st m, []) := decode_inner_no_lt (by simp)
      rw [decode_of_inner_none hin false, if_neg (by simp)]
    show (tm :: (drainF (advance_slice st m) [] false).1,
        (drainF (advance_slice st m) [] false).2.1,
        (drainF (advance_slice st m) [] false).2.2.1,
        (drainF (advance_slice st m) [] false).2.2.2) =
      ([tm], none, advance_slice st m, [])
    rw [hrec]
  | cons p ps ih =>
    intro st hwf hm hmdec hmap
    obtain ⟨n, v⟩ := p
    obtain ⟨t, hmt⟩ := hm
    have hws : (fieldsBytes types ps ++ m).takeWhile isWsByte = [] :=
      takeWhile_ws_60 (exists_head60 types ps t hmt)
    have hinner := decode_field_inner types st n v (fieldsBytes types ps ++ m)
      (hwf (n, v) (List.mem_cons_self _ _)).1 (hwf (n, v) (List.mem_cons_self _ _)).2 hws
    have hsrc : fieldsBytes types ((n, v) :: ps) ++ m =
        fieldBytes types n v ++ (fieldsBytes types ps ++ m) := by
      show (fieldBytes types n v ++ fieldsBytes types ps) ++ m = _
      rw [List.append_assoc]
    rw [hsrc, drainF_eq]
    have hdec := decode_of_inner_some hinner false
    rw [hdec]
    have ihr := ih (advance_slice st (fieldBytes types n v))
      (fun q hq => hwf q (List.mem_cons_of_mem _ hq)) ⟨t, hmt⟩ hmdec hmap
    show (Tag.field n (decodedDatum types v) ::
        (drainF (advance_slice st (fieldBytes types n v))
          (fieldsBytes types ps ++ m) false).1,
        (drainF (advance_slice st (fieldBytes types n v))
          (fieldsBytes types ps ++ m) false).2.1,
        (drainF (advance_slice st (fieldBytes types n v))
          (fieldsBytes types ps ++ m) false).2.2.1,
        (drainF (advance_slice st (fieldBytes types n v))
          (fieldsBytes types ps ++ m) false).2.2.2) =
      (((n, v) :: ps).map (fun p => Tag.field p.1 (decodedDatum types p.2)) ++ [tm],
        none, advance_slice st (fieldBytes types n v ++ (fieldsBytes types ps ++ m)), [])
    rw [ihr, advance_slice_append st (fieldBytes types n v) (fieldsBytes types ps ++ m)]
    rfl

/-- The record aggregation of `RecordStream::poll_next`
(parse/mod.rs 318-343): fields are inserted into the pending record;
`Eoh`/`Eor` emit it (with the header flag) and start a fresh one; a
trailing run of fields without a marker is dropped when the tag stream
ends; `insert` failures (and upstream errors) end the stream with that
error. -/
def recordsOfTags : Record → List Tag → Except Err (List Record)
  | _, [] => .ok []
  | acc, .eoh :: ts =>
    (match recordsOfTags Record.new ts with
      | .ok rs => .ok (⟨true, acc.fields⟩ :: rs)
      | .error e => .error e)
  | acc, .eor :: ts =>
    (match recordsOfTags Record.new ts with
      | .ok rs => .ok (⟨false, acc.fields⟩ :: rs)
      | .error e => .error e)
  | acc, .field n v :: ts =>
    (match acc.insert n v with
      | .ok acc2 => recordsOfTags acc2 ts
      | .error e => .error e)

theorem recordsOfTags_run :
    ∀ (fields : List (ByteStr × Datum)) (acc : Record) (mk : Bool),
      (∀ q ∈ fields, ∀ p ∈ acc.fields, ciEq p.1 q.1 = false) →
      ciDistinct fields →
      recordsOfTags acc (fields.map (fun p => Tag.field p.1 p.2) ++
          [if mk then Tag.eoh else Tag.eor]) =
        .ok [⟨mk, acc.fields ++ fields⟩] := by
  intro fields
  induction fields with
  | nil =>
    intro acc mk _ _
    cases mk
    · simp [recordsOfTags]
    · simp [recordsOfTags]
  | cons q qs ih =>
    intro acc mk hnew hdist
    obtain ⟨n, v⟩ := q
    have hfind : acc.fields.find? (fun p => ciEq p.1 n) = none :=
      List.find?_eq_none.mpr (fun p hp => by
        rw [hnew (n, v) (List.mem_cons_self _ _) p hp]
        simp)
    have hins : acc.insert n v = .ok ⟨acc.header, acc.fields ++ [(n, v)]⟩ := by
      unfold Record.insert
      rw [hfind]
    show recordsOfTags acc (Tag.field n v ::
        (qs.map (fun p => Tag.field p.1 p.2) ++ [if mk then Tag.eoh else Tag.eor])) = _
    rw [recordsOfTags, hins]
    have hnew2 : ∀ q' ∈ qs, ∀ p ∈ acc.fields ++ [(n, v)], ciEq p.1 q'.1 = false := by
      intro q' hq' p hp
      rcases List.mem_append.mp hp with h | h
      · exact hnew q' (List.mem_cons_of_mem _ hq') p h
      · rcases List.mem_singleton.mp h with rfl
        exact (List.pairwise_cons.mp hdist).1 q' hq'
    have ihr := ih ⟨acc.header, acc.fields ++ [(n, v)]⟩ mk hnew2
      (List.pairwise_cons.mp hdist).2
    show recordsOfTags ⟨acc.header, acc.fields ++ [(n, v)]⟩
        (qs.map (fun p => Tag.field p.1 p.2) ++ [if mk then Tag.eoh else Tag.eor]) = _
    rw [ihr]
    simp

theorem drainF_nil (st : TagDecoder) (eof : Bool) :
    drainF st [] eof = ([], none, st, []) := by
  rw [drainF_eq]
  have hin : decode_inner st [] = (.ok none, st, []) := decode_inner_no_lt (by simp)
  rw [decode_of_inner_none hin eof]
  cases eof
  · rw [if_neg (by simp)]
  · rw [if_pos rfl, if_pos (show ([] : ByteStr).isEmpty = true from rfl)]

/-- A one-shot run whose drain consumes the whole buffer cleanly. -/
theorem runOneshot_clean {ip : Bool} {bytes : ByteStr} {tags : List Tag}
    {stE : TagDecoder}
    (h : drainF (TagDecoder.new_stream ip) bytes false = (tags, none, stE, [])) :
    runOneshot ip bytes = (tags, none) := by
  have hcp : chunkPhase (TagDecoder.new_stream ip) [] [bytes] =
      (tags ++ [], none, stE, []) := by
    rw [chunkPhase, List.nil_append, h]
    rfl
  unfold runOneshot runChunks runFrom
  rw [hcp]
  show ((tags ++ []) ++ (drainF stE [] (!stE.ignore_partial)).1,
      (drainF stE [] (!stE.ignore_partial)).2.1) = (tags, none)
  rw [drainF_nil]
  simp

theorem wfDatum_not_datetime {v : Datum} (h : wfDatum v = true) :
    v.isDateTime = false := by
  cases v <;> first | rfl | exact absurd h (by rw [wfDatum]; simp)

theorem ciDistinct_map_decoded (types : OutputTypes)
    {fields : List (ByteStr × Datum)} (h : ciDistinct fields) :
    ciDistinct (fields.map (fun p => (p.1, decodedDatum types p.2))) := by
  unfold ciDistinct at h ⊢
  exact List.Pairwise.map _ (fun a b hh => hh) h

/-- Claim C1 (amended): for a record of well-formed fields (names valid
UTF-8 without `:` or `>`, values well-formed and non-DateTime, names
pairwise case-insensitively distinct), encoding under any type-indicator
policy succeeds, a one-shot decode of the produced bytes emits exactly
the record's field tags in order plus its end marker with no error, the
tag aggregation yields exactly one record with the same header flag and
the same field names in order, every decoded value reads back equal to
the original through the coercion accessor matching the original field's
type, and under the `Always` or `OnlyNonString` policies the decoded
record's fields are literally the original fields. -/
theorem c1_roundtrip (types : OutputTypes) (r : Record) (ip : Bool)
    (hwf : ∀ p ∈ r.fields, validName p.1 = true ∧ wfDatum p.2 = true)
    (hci : ciDistinct r.fields) :
    ∃ bytes : ByteStr,
      encodeRecord types r = .ok bytes ∧
      runOneshot ip bytes =
        (r.fields.map (fun p => Tag.field p.1 (decodedDatum types p.2)) ++
          [if r.header then Tag.eoh else Tag.eor], none) ∧
      recordsOfTags Record.new
          (r.fields.map (fun p => Tag.field p.1 (decodedDatum types p.2)) ++
            [if r.header then Tag.eoh else Tag.eor]) =
        .ok [⟨r.header, r.fields.map (fun p => (p.1, decodedDatum types p.2))⟩] ∧
      (∀ p ∈ r.fields, coerceBack p.2 (decodedDatum types p.2)) ∧
      (types = .always ∨ types = .onlyNonString →
        r.fields.map (fun p => (p.1, decodedDatum types p.2)) = r.fields) := by
  have henc : encodeRecord types r =
      .ok (fieldsBytes types r.fields ++ (if r.header then encode_eoh else encode_eor)) := by
    rw [encodeRecord, encodeFields_ok types r.fields
      (fun p hp => wfDatum_not_datetime (hwf p hp).2)]
    rfl
  refine ⟨fieldsBytes types r.fields ++ (if r.header then encode_eoh else encode_eor),
    henc, ?_, ?_, fun p hp => coerceBack_decoded types (hwf p hp).2, ?_⟩
  · cases hh : r.header
    · show runOneshot ip (fieldsBytes types r.fields ++ encode_eor) =
        (r.fields.map (fun p => Tag.field p.1 (decodedDatum types p.2)) ++ [Tag.eor], none)
      exact runOneshot_clean (drain_units types r.fields encode_eor .eor .eor _ hwf
        ⟨_, rfl⟩
        (fun st' => by
          have h2 := decode_eor_inner st' [] rfl
          rwa [List.append_nil] at h2) rfl)
    · show runOneshot ip (fieldsBytes types r.fields ++ encode_eoh) =
        (r.fields.map (fun p => Tag.field p.1 (decodedDatum types p.2)) ++ [Tag.eoh], none)
      exact runOneshot_clean (drain_units types r.fields encode_eoh .eoh .eoh _ hwf
        ⟨_, rfl⟩
        (fun st' => by
          have h2 := decode_eoh_inner st' [] rfl
          rwa [List.append_nil] at h2) rfl)
  · have hagg := recordsOfTags_run (r.fields.map (fun p => (p.1, decodedDatum types p.2)))
      Record.new r.header
      (fun q _ p hp => absurd hp (List.not_mem_nil p))
      (ciDistinct_map_decoded types hci)
    have hmm : r.fields.map (fun p => Tag.field p.1 (decodedDatum types p.2)) =
        (r.fields.map (fun p => (p.1, decodedDatum types p.2))).map
          (fun p => Tag.field p.1 p.2) := by
      rw [List.map_map]
      rfl
    rw [hmm]
    simpa using hagg
  · intro ht
    have hstep : r.fields.map (fun p => (p.1, decodedDatum types p.2)) =
        r.fields.map (fun p => p) :=
      List.map_congr_left (fun p hp => by
        rw [decodedDatum_eq_of_typed (hwf p hp).2 ht])
    rw [hstep, List.map_id']

/-- Witness for C1: the single-field record `call = "W1AW"` under the
`Never` policy round-trips through encode, decode and aggregation. -/
theorem c1_roundtrip_witness :
    ∃ bytes : ByteStr,
      encodeRecord .never ⟨false, [([99, 97, 108, 108], Datum.string [87, 49, 65, 87])]⟩ =
        .ok bytes ∧
      runOneshot true bytes =
        ([Tag.field [99, 97, 108, 108] (Datum.string [87, 49, 65, 87]), Tag.eor], none) ∧
      recordsOfTags Record.new
          [Tag.field [99, 97, 108, 108] (Datum.string [87, 49, 65, 87]), Tag.eor] =
        .ok [⟨false, [([99, 97, 108, 108], Datum.string [87, 49, 65, 87])]⟩] ∧
      (∀ p ∈ ([([99, 97, 108, 108], Datum.string [87, 49, 65, 87])] :
          List (ByteStr × Datum)), coerceBack p.2 (decodedDatum .never p.2)) ∧
      (OutputTypes.never = .always ∨ OutputTypes.never = .onlyNonString →
        ([([99, 97, 108, 108], Datum.string [87, 49, 65, 87])] :
            List (ByteStr × Datum)).map (fun p => (p.1, decodedDatum .never p.2)) =
          [([99, 97, 108, 108], Datum.string [87, 49, 65, 87])]) :=
  c1_roundtrip .never ⟨false, [([99, 97, 108, 108], Datum.string [87, 49, 65, 87])]⟩
    true (by decide)
    (List.Pairwise.cons (fun q hq => absurd hq (List.not_mem_nil q)) List.Pairwise.nil)

/-- Claim C1 (counterexample): the encoder does not validate field names,
so the record with the single field `a:b = "x"` (a `:` inside the name)
encodes successfully to `<a:b:1>x<eor>\n`, but decoding those bytes fails
with an invalid-tag error (`b` is not a length) and yields no record at
all — the claim's unqualified "for every record" is false. -/
theorem c1_colon_name_counterexample :
    encodeRecord .never ⟨false, [([97, 58, 98], Datum.string [120])]⟩ =
      .ok [60, 97, 58, 98, 58, 49, 62, 120, 60, 101, 111, 114, 62, 10] ∧
    runOneshot true [60, 97, 58, 98, 58, 49, 62, 120, 60, 101, 111, 114, 62, 10] =
      ([], some (.invalidFormat [97, 58, 98, 58, 49] ⟨1, 1, 0⟩)) := by
  decide

/-! Claim C5 infrastructure: what the decoder does with a truncated
encoded stream.  A truncated unit either has no `>` yet (the scan
reports need-more-data leaving everything untouched) or has its header
but not all of its value bytes (`parse_value` reports need-more-data,
also leaving everything untouched). -/

theorem decode_inner_needMore_no62 (st : TagDecoder) (t : ByteStr) (h : 62 ∉ t) :
    decode_inner st (60 :: t) = (.ok none, st, 60 :: t) := by
  have h1 : decode_inner st (60 :: t) = decodeAt st (60 :: t) :=
    @decode_inner_found st [] t (by simp)
  rw [h1]
  refine decodeAt_eq_none st ((bytePos_eq_none_iff 62 (60 :: t)).mpr ?_)
  intro hm
  rcases List.mem_cons.mp hm with h' | h'
  · exact absurd h' (by decide)
  · exact h h'

theorem parse_value_go_pure_needMore {src : ByteStr} {offset : Nat} {name : ByteStr}
    {typ : Option ByteStr} {slen : Nat}
    (hn : isValidUtf8 name = true)
    (ht : typ = none ∨ ∃ c, typ = some [c] ∧ isValidUtf8 [c] = true)
    (hshort : src.length < offset + 1 + slen) :
    parse_value_go_pure src offset name (natRender slen) typ = some none := by
  unfold parse_value_go_pure
  rw [if_pos hn, if_pos (natRender_utf8 slen)]
  rw [parseUsize_natRender]
  rcases ht with rfl | ⟨c, rfl, hc⟩
  · show (if offset + 1 + slen > src.length then some none
      else if isValidUtf8 ((src.drop (offset + 1)).take slen) then
        match parse_typed_value_pure ((src.drop (offset + 1)).take slen) none with
        | some value => some (some (name, value, offset + 1 + slen))
        | none => none
      else none) = some none
    rw [if_pos (by omega)]
  · show (match (if isValidUtf8 [c] then some (some [c]) else none :
        Option (Option ByteStr)) with
      | none => none
      | some typ2 =>
        if offset + 1 + slen > src.length then some none
        else if isValidUtf8 ((src.drop (offset + 1)).take slen) then
          match parse_typed_value_pure ((src.drop (offset + 1)).take slen) typ2 with
          | some value => some (some (name, value, offset + 1 + slen))
          | none => none
        else none) = some none
    rw [if_pos hc]
    show (if offset + 1 + slen > src.length then some none
      else if isValidUtf8 ((src.drop (offset + 1)).take slen) then
        match parse_typed_value_pure ((src.drop (offset + 1)).take slen) (some [c]) with
        | some value => some (some (name, value, offset + 1 + slen))
        | none => none
      else none) = some none
    rw [if_pos (by omega)]

/-- A truncated field whose header is complete but whose value bytes are
short: the decoder reports need-more-data and leaves the state and the
buffer untouched. -/
theorem decode_unit_core_partial (st : TagDecoder) (name lenb ibody sp B : ByteStr)
    (typ : Option ByteStr) (slen : Nat)
    (hB : B = name ++ 58 :: (lenb ++ ibody))
    (hnu : isValidUtf8 name = true)
    (hn58 : 58 ∉ name)
    (h62 : 62 ∉ 60 :: B)
    (hlenb : lenb = natRender slen)
    (hsp : splitOnByte 58 (lenb ++ ibody) = [lenb] ∧ typ = none ∨
      ∃ c, splitOnByte 58 (lenb ++ ibody) = [lenb, [c]] ∧ typ = some [c] ∧
        isValidUtf8 [c] = true)
    (hshort : sp.length < slen) :
    decode_inner st ((60 :: B) ++ 62 :: sp) =
      (.ok none, st, (60 :: B) ++ 62 :: sp) := by
  have h1 : decode_inner st (60 :: (B ++ 62 :: sp)) =
      decodeAt st (60 :: (B ++ 62 :: sp)) :=
    @decode_inner_found st [] (B ++ 62 :: sp) (by simp)
  rw [List.cons_append, h1]
  have hbp : bytePos 62 (60 :: (B ++ 62 :: sp)) = some (60 :: B : ByteStr).length := by
    rw [← List.cons_append]
    exact bytePos_append_cons h62
  rw [decodeAt_eq_found st hbp]
  have htb : tagBodyOf (60 :: (B ++ 62 :: sp)) (60 :: B : ByteStr).length = B := by
    rw [tagBodyOf]
    simp only [List.drop_succ_cons, List.drop_zero, List.length_cons]
    rw [Nat.add_sub_cancel]
    exact take_append_of_length rfl
  have h58 : 58 ∈ B := by
    rw [hB]
    exact List.mem_append.mpr (Or.inr (List.mem_cons_self _ _))
  have hsp1 : splitOnByte 58 B = name :: splitOnByte 58 (lenb ++ ibody) := by
    rw [hB]
    exact splitOnByte_append hn58
  have hlen1 : (60 :: (B ++ 62 :: sp) : ByteStr).length <
      (60 :: B : ByteStr).length + 1 + slen := by
    simp [List.length_append]
    omega
  have hpv : parse_value_pure (60 :: (B ++ 62 :: sp)) (60 :: B : ByteStr).length B =
      some none := by
    rcases hsp with ⟨hsp2, rfl⟩ | ⟨c, hsp2, rfl, hc⟩
    · unfold parse_value_pure
      rw [hsp1, hsp2]
      show parse_value_go_pure (60 :: (B ++ 62 :: sp))
        (60 :: B : ByteStr).length name lenb none = _
      subst hlenb
      exact parse_value_go_pure_needMore hnu (Or.inl rfl) hlen1
    · unfold parse_value_pure
      rw [hsp1, hsp2]
      show parse_value_go_pure (60 :: (B ++ 62 :: sp))
        (60 :: B : ByteStr).length name lenb (some [c]) = _
      subst hlenb
      exact parse_value_go_pure_needMore hnu (Or.inr ⟨c, rfl, hc⟩) hlen1
  rw [decodeTag, htb]
  rw [if_neg (not_ciEq_of_58 h58 (by decide)), if_neg (not_ciEq_of_58 h58 (by decide)),
    if_neg (not_ciEq_of_58 h58 (by decide))]
  have hpv2 : parse_value st (60 :: (B ++ 62 :: sp))
      (60 :: B : ByteStr).length B = .ok none := by
    unfold parse_value
    rw [hpv]
  rw [hpv2]

/-- The shape of a successfully encoded field: header before the `>`,
value after, with the `:`-split of the tag body determined by the
emitted indicator. -/
theorem fieldBytes_shape (types : OutputTypes) (name : ByteStr) (v : Datum)
    (_hn58 : 58 ∉ name) (hn62 : 62 ∉ name) :
    ∃ ibody typ B,
      fieldBytes types name v = (60 :: B) ++ 62 :: v.as_str ∧
      B = name ++ 58 :: (natRender v.as_str.length ++ ibody) ∧
      62 ∉ 60 :: B ∧
      (splitOnByte 58 (natRender v.as_str.length ++ ibody) =
          [natRender v.as_str.length] ∧ typ = none ∨
        ∃ c, splitOnByte 58 (natRender v.as_str.length ++ ibody) =
            [natRender v.as_str.length, [c]] ∧ typ = some [c] ∧
          isValidUtf8 [c] = true) := by
  have hlen58 : 58 ∉ natRender v.as_str.length :=
    not_mem_of_all_digits (natRender_all_digits _) (by decide)
  have hlen62 : 62 ∉ natRender v.as_str.length :=
    not_mem_of_all_digits (natRender_all_digits _) (by decide)
  rcases indOpt_shape types v with hio | ⟨c, hio, hc5⟩
  · refine ⟨[], none, name ++ 58 :: (natRender v.as_str.length ++ []), ?_, rfl, ?_, ?_⟩
    · rw [fieldBytes, hio]
      simp
    · intro hm
      rcases List.mem_cons.mp hm with h' | h'
      · exact absurd h' (by decide)
      · rcases List.mem_append.mp h' with h'' | h''
        · exact hn62 h''
        · rcases List.mem_cons.mp h'' with h3 | h3
          · exact absurd h3 (by decide)
          · rcases List.mem_append.mp h3 with h4 | h4
            · exact hlen62 h4
            · exact absurd h4 (List.not_mem_nil 62)
    · refine Or.inl ⟨?_, rfl⟩
      rw [List.append_nil]
      exact splitOnByte_of_not_mem hlen58
  · have hcu : isValidUtf8 [c] = true := by
      rcases hc5 with rfl | rfl | rfl | rfl | rfl <;> rfl
    have hc58 : (58 : Nat) ∉ [c] := by
      intro hm
      rcases List.mem_singleton.mp hm with rfl
      rcases hc5 with h | h | h | h | h <;> omega
    refine ⟨58 :: [c], some [c],
      name ++ 58 :: (natRender v.as_str.length ++ 58 :: [c]), ?_, rfl, ?_, ?_⟩
    · rw [fieldBytes, hio]
      simp
    · intro hm
      rcases List.mem_cons.mp hm with h' | h'
      · exact absurd h' (by decide)
      · rcases List.mem_append.mp h' with h'' | h''
        · exact hn62 h''
        · rcases List.mem_cons.mp h'' with h3 | h3
          · exact absurd h3 (by decide)
          · rcases List.mem_append.mp h3 with h4 | h4
            · exact hlen62 h4
            · rcases List.mem_cons.mp h4 with h5 | h5
              · exact absurd h5 (by decide)
              · rcases List.mem_singleton.mp h5 with rfl
                rcases hc5 with h | h | h | h | h <;> omega
    · refine Or.inr ⟨c, ?_, rfl, hcu⟩
      rw [splitOnByte_append hlen58, splitOnByte_of_not_mem hc58]

/-- A truncation of one encoded unit (strictly inside it): once there is
a `<`, the decoder reports need-more-data and leaves everything
untouched. -/
theorem decode_core_frag (st : TagDecoder) (name lenb ibody s B : ByteStr)
    (typ : Option ByteStr) (k : Nat)
    (hB : B = name ++ 58 :: (lenb ++ ibody))
    (hnu : isValidUtf8 name = true)
    (hn58 : 58 ∉ name)
    (h62 : 62 ∉ 60 :: B)
    (hlenb : lenb = natRender s.length)
    (hsp : splitOnByte 58 (lenb ++ ibody) = [lenb] ∧ typ = none ∨
      ∃ c, splitOnByte 58 (lenb ++ ibody) = [lenb, [c]] ∧ typ = some [c] ∧
        isValidUtf8 [c] = true)
    (h0 : 0 < k) (hk : k < ((60 :: B) ++ 62 :: s : ByteStr).length) :
    decode_inner st (((60 :: B) ++ 62 :: s).take k) =
      (.ok none, st, ((60 :: B) ++ 62 :: s).take k) := by
  have hlentot : ((60 :: B) ++ 62 :: s : ByteStr).length =
      (60 :: B : ByteStr).length + 1 + s.length := by
    simp [List.length_append]
    try omega
  rw [hlentot] at hk
  by_cases hcase : k ≤ (60 :: B : ByteStr).length
  · have hfrag : ((60 :: B) ++ 62 :: s).take k = (60 :: B : ByteStr).take k := by
      rw [List.take_append_eq_append_take]
      rw [show k - (60 :: B : ByteStr).length = 0 from by omega]
      simp
    rw [hfrag]
    obtain ⟨j, rfl⟩ : ∃ j, k = j + 1 := ⟨k - 1, by omega⟩
    rw [List.take_succ_cons]
    refine decode_inner_needMore_no62 st _ ?_
    intro hm
    exact h62 (List.mem_cons_of_mem _ (List.take_subset j B hm))
  · push_neg at hcase
    have hfrag : ((60 :: B) ++ 62 :: s).take k =
        (60 :: B) ++ 62 :: s.take (k - (60 :: B : ByteStr).length - 1) := by
      rw [List.take_append_eq_append_take]
      rw [List.take_of_length_le (by omega)]
      congr 1
      obtain ⟨j, hj⟩ : ∃ j, k - (60 :: B : ByteStr).length = j + 1 :=
        ⟨k - (60 :: B : ByteStr).length - 1, by omega⟩
      rw [hj, List.take_succ_cons]
      simp
    rw [hfrag]
    refine decode_unit_core_partial st name lenb ibody _ B typ s.length hB hnu hn58
      h62 hlenb hsp ?_
    calc (s.take (k - (60 :: B : ByteStr).length - 1)).length
        ≤ k - (60 :: B : ByteStr).length - 1 := by
          rw [List.length_take]
          exact Nat.min_le_left _ _
      _ < s.length := by omega

/-- A truncation strictly inside one encoded field. -/
theorem decode_field_frag (types : OutputTypes) (st : TagDecoder) (name : ByteStr)
    (v : Datum) (k : Nat) (hn : validName name = true)
    (h0 : 0 < k) (hk : k < (fieldBytes types name v).length) :
    decode_inner st ((fieldBytes types name v).take k) =
      (.ok none, st, (fieldBytes types name v).take k) := by
  obtain ⟨hnu, hn58, hn62⟩ := validName_spec hn
  obtain ⟨ibody, typ, B, hfb, hB, h62, hsp⟩ := fieldBytes_shape types name v hn58 hn62
  rw [hfb] at hk ⊢
  exact decode_core_frag st name (natRender v.as_str.length) ibody v.as_str B typ
    k hB hnu hn58 h62 rfl hsp h0 hk

/-- `decode_inner` on a bare `<eoh>` (its trailing newline truncated):
the marker still decodes completely. -/
theorem decode_eoh_whole (st : TagDecoder) :
    decode_inner st [60, 101, 111, 104, 62] =
      (.ok (some .eoh), advance_slice st [60, 101, 111, 104, 62], []) := by
  have h1 : decode_inner st (60 :: [101, 111, 104, 62]) =
      decodeAt st (60 :: [101, 111, 104, 62]) :=
    @decode_inner_found st [] [101, 111, 104, 62] (by simp)
  show decode_inner st (60 :: [101, 111, 104, 62]) = _
  rw [h1]
  have hbp : bytePos 62 (60 :: [101, 111, 104, 62]) = some 4 := by decide
  rw [decodeAt_eq_found st hbp]
  rw [decodeTag]
  have htb : tagBodyOf (60 :: [101, 111, 104, 62]) 4 = [101, 111, 104] := by decide
  rw [htb]
  rw [if_pos (by decide : ciEq [101, 111, 104] eohBytes = true)]
  show ((.ok (some ParserTag.eoh) : Except Err (Option ParserTag)),
      (advance st (60 :: [101, 111, 104, 62]) 5 true).1,
      (advance st (60 :: [101, 111, 104, 62]) 5 true).2) = _
  rw [advance_true]
  rfl

/-- `decode_inner` on a bare `<eor>`. -/
theorem decode_eor_whole (st : TagDecoder) :
    decode_inner st [60, 101, 111, 114, 62] =
      (.ok (some .eor), advance_slice st [60, 101, 111, 114, 62], []) := by
  have h1 : decode_inner st (60 :: [101, 111, 114, 62]) =
      decodeAt st (60 :: [101, 111, 114, 62]) :=
    @decode_inner_found st [] [101, 111, 114, 62] (by simp)
  show decode_inner st (60 :: [101, 111, 114, 62]) = _
  rw [h1]
  have hbp : bytePos 62 (60 :: [101, 111, 114, 62]) = some 4 := by decide
  rw [decodeAt_eq_found st hbp]
  rw [decodeTag]
  have htb : tagBodyOf (60 :: [101, 111, 114, 62]) 4 = [101, 111, 114] := by decide
  rw [htb]
  rw [if_neg (by decide : ¬ ciEq [101, 111, 114] eohBytes = true)]
  rw [if_pos (by decide : ciEq [101, 111, 114] eorBytes = true)]
  show ((.ok (some ParserTag.eor) : Except Err (Option ParserTag)),
      (advance st (60 :: [101, 111, 114, 62]) 5 true).1,
      (advance st (60 :: [101, 111, 114, 62]) 5 true).2) = _
  rw [advance_true]
  rfl

/-- A truncation strictly inside a marker's first five bytes. -/
theorem decode_marker_frag (st : TagDecoder) (mb : ByteStr) (k : Nat)
    (hmb : mb = encode_eoh ∨ mb = encode_eor) (h0 : 0 < k) (hk : k ≤ 4) :
    decode_inner st (mb.take k) = (.ok none, st, mb.take k) := by
  obtain ⟨j, rfl⟩ : ∃ j, k = j + 1 := ⟨k - 1, by omega⟩
  rcases hmb with rfl | rfl
  · have hfrag : encode_eoh.take (j + 1) =
        (60 : Nat) :: ([101, 111, 104] : ByteStr).take j := by
      show ([60, 101, 111, 104, 62, 10] : ByteStr).take (j + 1) = _
      rw [List.take_succ_cons]
      congr 1
      rw [show ([101, 111, 104, 62, 10] : ByteStr) = [101, 111, 104] ++ [62, 10] from rfl]
      rw [List.take_append_eq_append_take]
      rw [show j - ([101, 111, 104] : ByteStr).length = 0 from by simp; omega]
      simp
    rw [hfrag]
    refine decode_inner_needMore_no62 st _ ?_
    intro hm
    exact absurd (List.take_subset j _ hm) (by decide)
  · have hfrag : encode_eor.take (j + 1) =
        (60 : Nat) :: ([101, 111, 114] : ByteStr).take j := by
      show ([60, 101, 111, 114, 62, 10] : ByteStr).take (j + 1) = _
      rw [List.take_succ_cons]
      congr 1
      rw [show ([101, 111, 114, 62, 10] : ByteStr) = [101, 111, 114] ++ [62, 10] from rfl]
      rw [List.take_append_eq_append_take]
      rw [show j - ([101, 111, 114] : ByteStr).length = 0 from by simp; omega]
      simp
    rw [hfrag]
    refine decode_inner_needMore_no62 st _ ?_
    intro hm
    exact absurd (List.take_subset j _ hm) (by decide)

/-- One unit of encoder output: an encoded field or an end marker. -/
inductive EncUnit where
  | fieldU (types : OutputTypes) (name : ByteStr) (v : Datum)
  | eohU
  | eorU

/-- The bytes a unit contributes to the stream. -/
def unitBytes : EncUnit → ByteStr
  | .fieldU types name v => fieldBytes types name v
  | .eohU => encode_eoh
  | .eorU => encode_eor

/-- The tag the decoder reads back from a unit. -/
def unitTag : EncUnit → Tag
  | .fieldU types name v => Tag.field name (decodedDatum types v)
  | .eohU => Tag.eoh
  | .eorU => Tag.eor

/-- Well-formedness of a unit. -/
def wfUnit : EncUnit → Prop
  | .fieldU _ name v => validName name = true ∧ wfDatum v = true
  | .eohU => True
  | .eorU => True

/-- The parser-level tag of a unit. -/
def ptOfUnit : EncUnit → ParserTag
  | .fieldU types name v => .field name (decodedDatum types v)
  | .eohU => .eoh
  | .eorU => .eor

theorem units_flatten_head (us : List EncUnit) :
    (us.map unitBytes).flatten = [] ∨ ∃ t, (us.map unitBytes).flatten = 60 :: t := by
  cases us with
  | nil => exact Or.inl rfl
  | cons u us => cases u <;> exact Or.inr ⟨_, rfl⟩

theorem head_take_60 {l : ByteStr} {k : Nat} (h0 : 0 < k) (hh : ∃ t, l = 60 :: t) :
    (l.take k).head? = some 60 := by
  obtain ⟨t, rfl⟩ := hh
  obtain ⟨j, rfl⟩ : ∃ j, k = j + 1 := ⟨k - 1, by omega⟩
  rw [List.take_succ_cons]
  rfl

theorem drain_step_unit {st : TagDecoder} {ub R : ByteStr} {pt : ParserTag} {tm : Tag}
    (hu : decode_inner st (ub ++ R) = (.ok (some pt), advance_slice st ub, R))
    (hmap : mapPT pt = some tm)
    {tags2 : List Tag} {stE : TagDecoder} {frag : ByteStr}
    (hrec : drainF (advance_slice st ub) R false = (tags2, none, stE, frag)) :
    drainF st (ub ++ R) false = (tm :: tags2, none, stE, frag) := by
  rw [drainF_eq]
  have hdec := decode_of_inner_some hu false
  rw [hmap] at hdec
  rw [hdec]
  show (tm :: (drainF (advance_slice st ub) R false).1,
      (drainF (advance_slice st ub) R false).2.1,
      (drainF (advance_slice st ub) R false).2.2.1,
      (drainF (advance_slice st ub) R false).2.2.2) = (tm :: tags2, none, stE, frag)
  rw [hrec]

theorem drain_needMore {st : TagDecoder} {frag : ByteStr}
    (h : decode_inner st frag = (.ok none, st, frag)) :
    drainF st frag false = ([], none, st, frag) := by
  rw [drainF_eq, decode_of_inner_none h false, if_neg (by simp)]

/-- Draining a truncated stream of well-formed units with `eof = false`
never fails: the complete leading units are decoded and consumed, and
what is left is either nothing or a partial unit starting with `<` on
which the decoder is idle (need-more-data with no state change). -/
theorem drain_take (units : List EncUnit) :
    ∀ (st : TagDecoder) (k : Nat), (∀ u ∈ units, wfUnit u) →
    ∃ tags done frag,
      ((units.map unitBytes).flatten).take k = done ++ frag ∧
      drainF st (done ++ frag) false = (tags, none, advance_slice st done, frag) ∧
      (frag = [] ∨ (frag.head? = some 60 ∧
        decode_inner (advance_slice st done) frag =
          (.ok none, advance_slice st done, frag))) := by
  induction units with
  | nil =>
    intro st k _
    refine ⟨[], [], [], by simp, ?_, Or.inl rfl⟩
    show drainF st [] false = ([], none, st, [])
    exact drainF_nil st false
  | cons u us ih =>
    intro st k hwf
    have hwf2 : ∀ u2 ∈ us, wfUnit u2 := fun u2 h2 => hwf u2 (List.mem_cons_of_mem _ h2)
    by_cases hk : (unitBytes u).length ≤ k
    · -- the first unit is complete in the truncation
      have htake : (((u :: us).map unitBytes).flatten).take k =
          unitBytes u ++ ((us.map unitBytes).flatten).take (k - (unitBytes u).length) := by
        show (unitBytes u ++ (us.map unitBytes).flatten).take k = _
        rw [List.take_append_eq_append_take, List.take_of_length_le hk]
      obtain ⟨tags2, done2, frag, hsplit, hdrain, hfrag⟩ :=
        ih (advance_slice st (unitBytes u)) (k - (unitBytes u).length) hwf2
      have hws : (((us.map unitBytes).flatten).take
          (k - (unitBytes u).length)).takeWhile isWsByte = [] := by
        rcases units_flatten_head us with hnil | ⟨t, ht⟩
        · rw [hnil]
          simp
        · by_cases hz : k - (unitBytes u).length = 0
          · rw [hz]
            simp
          · refine takeWhile_ws_60 ⟨?_, ?_⟩
            · exact ((60 :: t).take (k - (unitBytes u).length)).tail
            · rw [ht]
              obtain ⟨j, hj⟩ : ∃ j, k - (unitBytes u).length = j + 1 :=
                ⟨k - (unitBytes u).length - 1, by omega⟩
              rw [hj, List.take_succ_cons]
              rfl
      rw [hsplit] at hws
      have hu : decode_inner st (unitBytes u ++ (done2 ++ frag)) =
          (.ok (some (ptOfUnit u)), advance_slice st (unitBytes u), done2 ++ frag) := by
        cases u with
        | fieldU types name v =>
          exact decode_field_inner types st name v (done2 ++ frag)
            (hwf _ (List.mem_cons_self _ _)).1 (hwf _ (List.mem_cons_self _ _)).2 hws
        | eohU => exact decode_eoh_inner st (done2 ++ frag) hws
        | eorU => exact decode_eor_inner st (done2 ++ frag) hws
      have hmap : mapPT (ptOfUnit u) = some (unitTag u) := by
        cases u <;> rfl
      refine ⟨unitTag u :: tags2, unitBytes u ++ done2, frag, ?_, ?_, ?_⟩
      · rw [htake, hsplit, List.append_assoc]
      · rw [List.append_assoc, advance_slice_append st (unitBytes u) done2]
        exact drain_step_unit hu hmap hdrain
      · rcases hfrag with rfl | ⟨hh, hidem⟩
        · exact Or.inl rfl
        · refine Or.inr ⟨hh, ?_⟩
          rw [advance_slice_append st (unitBytes u) done2]
          exact hidem
    · -- truncation falls inside the first unit
      push_neg at hk
      have htake : (((u :: us).map unitBytes).flatten).take k = (unitBytes u).take k := by
        show (unitBytes u ++ (us.map unitBytes).flatten).take k = _
        rw [List.take_append_eq_append_take,
          show k - (unitBytes u).length = 0 from by omega]
        simp
      by_cases h0 : k = 0
      · subst h0
        refine ⟨[], [], [], by simp, ?_, Or.inl rfl⟩
        show drainF st [] false = ([], none, st, [])
        exact drainF_nil st false
      · have h0p : 0 < k := by omega
        cases u with
        | fieldU types name v =>
          have hfr := decode_field_frag types st name v k
            (hwf _ (List.mem_cons_self _ _)).1 h0p hk
          refine ⟨[], [], (fieldBytes types name v).take k, ?_, ?_, ?_⟩
          · rw [htake]
            rfl
          · show drainF st ((fieldBytes types name v).take k) false = _
            have h2 := drain_needMore hfr
            rw [h2]
            rfl
          · refine Or.inr ⟨?_, hfr⟩
            refine head_take_60 h0p ⟨?_, ?_⟩
            · exact name ++ 58 :: natRender v.as_str.length ++
                (match indOpt types v with | some t => 58 :: t | none => []) ++
                62 :: v.as_str
            · rfl
        | eohU =>
          by_cases h5 : k = 5
          · subst h5
            refine ⟨[Tag.eoh], [60, 101, 111, 104, 62], [], ?_, ?_, Or.inl rfl⟩
            · rw [htake]
              rfl
            · show drainF st [60, 101, 111, 104, 62] false = _
              have hrec : drainF (advance_slice st [60, 101, 111, 104, 62]) [] false =
                  ([], none, advance_slice st [60, 101, 111, 104, 62], []) :=
                drainF_nil _ false
              have h2 := drain_step_unit
                (by
                  have h3 := decode_eoh_whole st
                  rwa [show ([60, 101, 111, 104, 62] : ByteStr) =
                    [60, 101, 111, 104, 62] ++ [] from by simp] at h3)
                (show mapPT ParserTag.eoh = some Tag.eoh from rfl) hrec
              rw [show ([60, 101, 111, 104, 62] : ByteStr) ++ [] =
                [60, 101, 111, 104, 62] from by simp] at h2
              rw [h2]
          · have hk4 : k ≤ 4 := by
              have : (unitBytes EncUnit.eohU).length = 6 := rfl
              omega
            have hfr := decode_marker_frag st encode_eoh k (Or.inl rfl) h0p hk4
            refine ⟨[], [], encode_eoh.take k, ?_, ?_, ?_⟩
            · rw [htake]
              rfl
            · show drainF st (encode_eoh.take k) false = _
              have h2 := drain_needMore hfr
              rw [h2]
              rfl
            · exact Or.inr ⟨head_take_60 h0p ⟨_, rfl⟩, hfr⟩
        | eorU =>
          by_cases h5 : k = 5
          · subst h5
            refine ⟨[Tag.eor], [60, 101, 111, 114, 62], [], ?_, ?_, Or.inl rfl⟩
            · rw [htake]
              rfl
            · show drainF st [60, 101, 111, 114, 62] false = _
              have hrec : drainF (advance_slice st [60, 101, 111, 114, 62]) [] false =
                  ([], none, advance_slice st [60, 101, 111, 114, 62], []) :=
                drainF_nil _ false
              have h2 := drain_step_unit
                (by
                  have h3 := decode_eor_whole st
                  rwa [show ([60, 101, 111, 114, 62] : ByteStr) =
                    [60, 101, 111, 114, 62] ++ [] from by simp] at h3)
                (show mapPT ParserTag.eor = some Tag.eor from rfl) hrec
              rw [show ([60, 101, 111, 114, 62] : ByteStr) ++ [] =
                [60, 101, 111, 114, 62] from by simp] at h2
              rw [h2]
          · have hk4 : k ≤ 4 := by
              have : (unitBytes EncUnit.eorU).length = 6 := rfl
              omega
            have hfr := decode_marker_frag st encode_eor k (Or.inr rfl) h0p hk4
            refine ⟨[], [], encode_eor.take k, ?_, ?_, ?_⟩
            · rw [htake]
              rfl
            · show drainF st (encode_eor.take k) false = _
              have h2 := drain_needMore hfr
              rw [h2]
              rfl
            · exact Or.inr ⟨head_take_60 h0p ⟨_, rfl⟩, hfr⟩

theorem advance_slice_ip (st : TagDecoder) :
    ∀ bs : ByteStr, TagDecoder.ignore_partial (advance_slice st bs) = st.ignore_partial := by
  intro bs
  induction bs generalizing st with
  | nil => rfl
  | cons b t ih =>
    rw [advance_slice]
    split
    · rw [ih]
    · rw [ih]

/-- A one-shot run that drains cleanly but leaves an undecodable
remainder: the strict `decode_eof` turns it into exactly one
partial-data error at the remainder's start. -/
theorem runOneshot_strict_error {bytes done frag : ByteStr} {tags : List Tag}
    (hdrain : drainF (TagDecoder.new_stream false) bytes false =
      (tags, none, advance_slice (TagDecoder.new_stream false) done, frag))
    (hne : frag ≠ [])
    (hidem : decode_inner (advance_slice (TagDecoder.new_stream false) done) frag =
      (.ok none, advance_slice (TagDecoder.new_stream false) done, frag)) :
    runOneshot false bytes =
      (tags, some (.invalidFormat partialMsgBytes
        (advance_slice (TagDecoder.new_stream false) done).position)) := by
  have hip : TagDecoder.ignore_partial (advance_slice (TagDecoder.new_stream false) done) = false :=
    advance_slice_ip _ done
  have hcp : chunkPhase (TagDecoder.new_stream false) [] [bytes] =
      (tags ++ [], none, advance_slice (TagDecoder.new_stream false) done, frag) := by
    rw [chunkPhase, List.nil_append, hdrain]
    rfl
  have herr : drainF (advance_slice (TagDecoder.new_stream false) done) frag true =
      ([], some (.invalidFormat partialMsgBytes
        (advance_slice (TagDecoder.new_stream false) done).position),
        advance_slice (TagDecoder.new_stream false) done, frag) := by
    rw [drainF_eq, decode_of_inner_none hidem true]
    rw [if_pos rfl, if_neg (by simpa [List.isEmpty_iff] using hne)]
  unfold runOneshot runChunks runFrom
  rw [hcp]
  show ((tags ++ []) ++
      (drainF (advance_slice (TagDecoder.new_stream false) done) frag
        (!TagDecoder.ignore_partial (advance_slice (TagDecoder.new_stream false) done))).1,
      (drainF (advance_slice (TagDecoder.new_stream false) done) frag
        (!TagDecoder.ignore_partial (advance_slice (TagDecoder.new_stream false) done))).2.1) = _
  rw [hip, Bool.not_false, herr]
  simp

/-- Successive `RecordSink::start_send` calls: the concatenated encodings
of a list of records, stopping at the first error. -/
def encodeRecords (types : OutputTypes) : List Record → Except Err ByteStr
  | [] => .ok []
  | r :: rst =>
    match encodeRecord types r with
    | .error e => .error e
    | .ok b =>
      match encodeRecords types rst with
      | .error e => .error e
      | .ok bs => .ok (b ++ bs)

/-- The units one record contributes to the stream. -/
def recordUnits (types : OutputTypes) (r : Record) : List EncUnit :=
  r.fields.map (fun p => EncUnit.fieldU types p.1 p.2) ++
    [if r.header then EncUnit.eohU else EncUnit.eorU]

/-- The units a list of records contributes to the stream. -/
def recordsUnits (types : OutputTypes) (rs : List Record) : List EncUnit :=
  (rs.map (recordUnits types)).flatten

theorem recordUnits_bytes (types : OutputTypes) (r : Record) :
    ((recordUnits types r).map unitBytes).flatten =
      fieldsBytes types r.fields ++ (if r.header then encode_eoh else encode_eor) := by
  have hfields : (r.fields.map (unitBytes ∘ fun p => EncUnit.fieldU types p.1 p.2)).flatten =
      fieldsBytes types r.fields := by
    unfold fieldsBytes
    congr 1
  unfold recordUnits
  cases hh : r.header
  · show ((r.fields.map (fun p => EncUnit.fieldU types p.1 p.2) ++
        [EncUnit.eorU]).map unitBytes).flatten = fieldsBytes types r.fields ++ encode_eor
    rw [List.map_append, List.flatten_append, List.map_map]
    show (r.fields.map (unitBytes ∘ fun p => EncUnit.fieldU types p.1 p.2)).flatten ++
        (encode_eor ++ []) = fieldsBytes types r.fields ++ encode_eor
    rw [List.append_nil, hfields]
  · show ((r.fields.map (fun p => EncUnit.fieldU types p.1 p.2) ++
        [EncUnit.eohU]).map unitBytes).flatten = fieldsBytes types r.fields ++ encode_eoh
    rw [List.map_append, List.flatten_append, List.map_map]
    show (r.fields.map (unitBytes ∘ fun p => EncUnit.fieldU types p.1 p.2)).flatten ++
        (encode_eoh ++ []) = fieldsBytes types r.fields ++ encode_eoh
    rw [List.append_nil, hfields]

theorem recordUnits_wf (types : OutputTypes) (r : Record)
    (hwf : ∀ p ∈ r.fields, validName p.1 = true ∧ wfDatum p.2 = true) :
    ∀ u ∈ recordUnits types r, wfUnit u := by
  intro u hu
  rcases List.mem_append.mp hu with h | h
  · rcases List.mem_map.mp h with ⟨p, hp, rfl⟩
    exact hwf p hp
  · rcases List.mem_singleton.mp h with rfl
    cases r.header <;> trivial

theorem encodeRecords_ok (types : OutputTypes) (rs : List Record)
    (hwf : ∀ r ∈ rs, ∀ p ∈ r.fields, validName p.1 = true ∧ wfDatum p.2 = true) :
    encodeRecords types rs = .ok (((recordsUnits types rs).map unitBytes).flatten) := by
  induction rs with
  | nil => rfl
  | cons r rst ih =>
    have henc : encodeRecord types r =
        .ok (fieldsBytes types r.fields ++
          (if r.header then encode_eoh else encode_eor)) := by
      rw [encodeRecord, encodeFields_ok types r.fields
        (fun p hp => wfDatum_not_datetime ((hwf r (List.mem_cons_self _ _)) p hp).2)]
      rfl
    have hrec := ih (fun r2 h2 => hwf r2 (List.mem_cons_of_mem _ h2))
    have hR : ((recordsUnits types (r :: rst)).map unitBytes).flatten =
        (fieldsBytes types r.fields ++ (if r.header then encode_eoh else encode_eor)) ++
          ((recordsUnits types rst).map unitBytes).flatten := by
      unfold recordsUnits
      rw [List.map_cons, List.flatten_cons, List.map_append, List.flatten_append,
        recordUnits_bytes]
    unfold encodeRecords
    rw [henc, hrec, hR]

/-- Claim C5 (amended): for a stream produced by encoding any list of
records with well-formed fields (as in the round-trip claim), truncating
at any byte offset and decoding with the strict policy either ends
cleanly with no error, or yields exactly one format error — the
partial-data error — whose byte offset is the index of a `<` in the
stream (the start of the truncated tag).  The claim's unqualified "every
byte stream produced by the record encoder" fails because the encoder
does not validate field names. -/
theorem c5_strict_truncation (types : OutputTypes) (rs : List Record) (k : Nat)
    (hwf : ∀ r ∈ rs, ∀ p ∈ r.fields, validName p.1 = true ∧ wfDatum p.2 = true) :
    ∃ stream : ByteStr,
      encodeRecords types rs = .ok stream ∧
      ((runOneshot false (stream.take k)).2 = none ∨
        ∃ tags pos,
          runOneshot false (stream.take k) =
            (tags, some (.invalidFormat partialMsgBytes pos)) ∧
          stream[pos.byte]? = some 60) := by
  refine ⟨((recordsUnits types rs).map unitBytes).flatten,
    encodeRecords_ok types rs hwf, ?_⟩
  have hwfu : ∀ u ∈ recordsUnits types rs, wfUnit u := by
    intro u hu
    unfold recordsUnits at hu
    rcases List.mem_flatten.mp hu with ⟨l, hl, hul⟩
    rcases List.mem_map.mp hl with ⟨r, hr, rfl⟩
    exact recordUnits_wf types r (hwf r hr) u hul
  obtain ⟨tags, done, frag, hsplit, hdrain, hfrag⟩ :=
    drain_take (recordsUnits types rs) (TagDecoder.new_stream false) k hwfu
  rcases hfrag with rfl | ⟨hh, hidem⟩
  · left
    have hdrain2 : drainF (TagDecoder.new_stream false)
        ((((recordsUnits types rs).map unitBytes).flatten).take k) false =
        (tags, none, advance_slice (TagDecoder.new_stream false) done, []) := by
      rw [hsplit]
      exact hdrain
    rw [runOneshot_clean hdrain2]
  · right
    have hne : frag ≠ [] := by
      intro hx
      subst hx
      simp at hh
    refine ⟨tags, (advance_slice (TagDecoder.new_stream false) done).position, ?_, ?_⟩
    · exact runOneshot_strict_error (by rw [hsplit]; exact hdrain) hne hidem
    · have hbyte : (advance_slice (TagDecoder.new_stream false) done).position.byte =
          done.length := by
        show (advance_slice (TagDecoder.new_stream false) done).consumed = done.length
        rw [advance_slice_consumed]
        exact Nat.zero_add _
      rw [hbyte]
      have h1 : (done ++ frag)[done.length]? = some 60 := by
        rw [List.getElem?_append_right (le_refl done.length)]
        cases frag with
        | nil => exact absurd rfl hne
        | cons a t =>
          have ha : a = 60 := by simpa using hh
          subst ha
          simp
      have hlt : done.length < k := by
        have hlen := congrArg List.length hsplit
        rw [List.length_take, List.length_append] at hlen
        have hfl : 0 < frag.length := List.length_pos.mpr hne
        have hmin := Nat.min_le_left k
          (((recordsUnits types rs).map unitBytes).flatten).length
        omega
      rw [← List.getElem?_take_of_lt hlt, hsplit]
      exact h1

/-- Witness for C5: the encoded record `call = "W1AW"` truncated after
three bytes (`"<ca"`). -/
theorem c5_strict_truncation_witness :
    ∃ stream : ByteStr,
      encodeRecords .never
          [⟨false, [([99, 97, 108, 108], Datum.string [87, 49, 65, 87])]⟩] =
        .ok stream ∧
      ((runOneshot false (stream.take 3)).2 = none ∨
        ∃ tags pos,
          runOneshot false (stream.take 3) =
            (tags, some (.invalidFormat partialMsgBytes pos)) ∧
          stream[pos.byte]? = some 60) :=
  c5_strict_truncation .never
    [⟨false, [([99, 97, 108, 108], Datum.string [87, 49, 65, 87])]⟩] 3 (by decide)

/-- Claim C5 (counterexample): the record with the single field
`a:1>b = "xy"` (a `>` inside the name) encodes to `<a:1>b:2>xy<eor>\n`;
truncating after 7 bytes (`"<a:1>b:"`) and decoding strictly yields the
field `a = "b"` and then exactly one format error — but its byte offset
6 indexes the `:`, not a `<`, refuting the claim as stated for arbitrary
encoder output. -/
theorem c5_truncation_counterexample :
    encodeRecords .never [⟨false, [([97, 58, 49, 62, 98], Datum.string [120, 121])]⟩] =
      .ok [60, 97, 58, 49, 62, 98, 58, 50, 62, 120, 121,
        60, 101, 111, 114, 62, 10] ∧
    runOneshot false
        ([60, 97, 58, 49, 62, 98, 58, 50, 62, 120, 121,
          60, 101, 111, 114, 62, 10].take 7) =
      ([Tag.field [97] (Datum.string [98])],
        some (.invalidFormat partialMsgBytes ⟨1, 7, 6⟩)) ∧
    [60, 97, 58, 49, 62, 98, 58, 50, 62, 120, 121,
      60, 101, 111, 114, 62, 10][(6 : Nat)]? = some 58 := by
  decide

/-! Claim C2 infrastructure: the configuration a chunked run can be in
after any number of whole chunks, and the step lemma showing each chunk
moves the decoder from one configuration to the next.  The only
chunk-boundary wrinkle of a well-formed stream is a marker's trailing
newline: a boundary right after the `>` of `<eoh>\n`/`<eor>\n` leaves
the newline pending in the buffer until the next `<` arrives. -/

/-- Whether a unit is an end marker. -/
def isMarkerU : EncUnit → Bool
  | .fieldU _ _ _ => false
  | .eohU => true
  | .eorU => true

theorem marker_bytes {u : EncUnit} (h : isMarkerU u = true) :
    unitBytes u = encode_eoh ∨ unitBytes u = encode_eor := by
  cases u with
  | fieldU types name v => exact absurd h (by rw [isMarkerU]; simp)
  | eohU => exact Or.inl rfl
  | eorU => exact Or.inr rfl

theorem marker_len {u : EncUnit} (h : isMarkerU u = true) :
    (unitBytes u).length = 6 := by
  rcases marker_bytes h with h2 | h2 <;> rw [h2] <;> rfl

theorem marker_take5_newline {u : EncUnit} (h : isMarkerU u = true) :
    (unitBytes u).take 5 ++ [10] = unitBytes u := by
  rcases marker_bytes h with h2 | h2 <;> rw [h2] <;> rfl

theorem marker_drop5 {u : EncUnit} (h : isMarkerU u = true) :
    (unitBytes u).drop 5 = [10] := by
  rcases marker_bytes h with h2 | h2 <;> rw [h2] <;> rfl

theorem mapPT_ptOfUnit (u : EncUnit) : mapPT (ptOfUnit u) = some (unitTag u) := by
  cases u <;> rfl

theorem decode_unit_inner (u : EncUnit) (st : TagDecoder) (R : ByteStr)
    (hwfu : wfUnit u) (hws : R.takeWhile isWsByte = []) :
    decode_inner st (unitBytes u ++ R) =
      (.ok (some (ptOfUnit u)), advance_slice st (unitBytes u), R) := by
  cases u with
  | fieldU types name v => exact decode_field_inner types st name v R hwfu.1 hwfu.2 hws
  | eohU => exact decode_eoh_inner st R hws
  | eorU => exact decode_eor_inner st R hws

/-- Decoding the five marker bytes without the trailing newline still
decodes the marker completely. -/
theorem decode_marker_whole5 (u : EncUnit) (st : TagDecoder)
    (h : isMarkerU u = true) :
    decode_inner st ((unitBytes u).take 5) =
      (.ok (some (ptOfUnit u)), advance_slice st ((unitBytes u).take 5), []) := by
  rcases marker_bytes h with h2 | h2
  · rw [h2]
    have h3 := decode_eoh_whole st
    have he : encode_eoh.take 5 = [60, 101, 111, 104, 62] := rfl
    rw [he]
    cases u with
    | fieldU types name v => exact absurd h (by rw [isMarkerU]; simp)
    | eohU => exact h3
    | eorU => exact absurd h2 (by intro hx; exact absurd (congrArg (fun l => l.get? 3) hx) (by decide))
  · rw [h2]
    have h3 := decode_eor_whole st
    have he : encode_eor.take 5 = [60, 101, 111, 114, 62] := rfl
    rw [he]
    cases u with
    | fieldU types name v => exact absurd h (by rw [isMarkerU]; simp)
    | eohU => exact absurd h2 (by intro hx; exact absurd (congrArg (fun l => l.get? 3) hx) (by decide))
    | eorU => exact h3

/-- Decoding a strict fragment of one unit (not the five-byte marker
prefix) is idle: need-more-data with nothing changed. -/
theorem decode_unit_frag (u : EncUnit) (st : TagDecoder) (k : Nat)
    (hwfu : wfUnit u) (h0 : 0 < k) (hk : k < (unitBytes u).length)
    (hnm : ¬ (isMarkerU u = true ∧ k = 5)) :
    decode_inner st ((unitBytes u).take k) =
      (.ok none, st, (unitBytes u).take k) := by
  cases u with
  | fieldU types name v => exact decode_field_frag types st name v k hwfu.1 h0 hk
  | eohU =>
    refine decode_marker_frag st encode_eoh k (Or.inl rfl) h0 ?_
    have h6 : (unitBytes EncUnit.eohU).length = 6 := rfl
    by_cases h5 : k = 5
    · exact absurd ⟨rfl, h5⟩ hnm
    · omega
  | eorU =>
    refine decode_marker_frag st encode_eor k (Or.inr rfl) h0 ?_
    have h6 : (unitBytes EncUnit.eorU).length = 6 := rfl
    by_cases h5 : k = 5
    · exact absurd ⟨rfl, h5⟩ hnm
    · omega

/-- The begin-of-tag advance: leading non-`<` bytes are consumed by the
decode that first sees a `<`. -/
theorem decode_inner_skip_pre {st : TagDecoder} {p tail : ByteStr} (hp : 60 ∉ p) :
    decode_inner st (p ++ 60 :: tail) =
      decode_inner (advance_slice st p) (60 :: tail) := by
  rw [decode_inner_found st tail hp]
  have h2 : decode_inner (advance_slice st p) (60 :: tail) =
      decodeAt (advance_slice st p) (60 :: tail) :=
    @decode_inner_found (advance_slice st p) [] tail (by simp)
  rw [h2]

theorem drainF_skip_pre {st : TagDecoder} {p tail : ByteStr} (hp : 60 ∉ p)
    (eof : Bool) :
    drainF st (p ++ 60 :: tail) eof =
      drainF (advance_slice st p) (60 :: tail) eof := by
  have hdec : st.decode (p ++ 60 :: tail) eof =
      (advance_slice st p).decode (60 :: tail) eof := by
    unfold TagDecoder.decode
    rw [decode_inner_skip_pre hp]
  rw [drainF_eq, drainF_eq, hdec]

/-- The possible (consumed-prefix, pending-buffer) configurations of a
drive of the decoder over the first `k` bytes of a stream of units,
chunked arbitrarily.  The only history-dependence is a marker's trailing
newline: with a boundary right after the marker's `>` the newline stays
pending (`frag = [10]`) until the next `<`. -/
def InvCfg : List EncUnit → Nat → ByteStr → ByteStr → Prop
  | [], _, done, frag => done = [] ∧ frag = []
  | u :: us, k, done, frag =>
    ((unitBytes u).length ≤ k ∧
      ((∃ d2, done = unitBytes u ++ d2 ∧
          InvCfg us (k - (unitBytes u).length) d2 frag) ∨
        (isMarkerU u = true ∧ k = (unitBytes u).length ∧
          done = (unitBytes u).take 5 ∧ frag = [10]))) ∨
    (k < (unitBytes u).length ∧
      ((isMarkerU u = true ∧ k = 5 ∧ done = (unitBytes u).take 5 ∧ frag = []) ∨
        (¬ (isMarkerU u = true ∧ k = 5) ∧ done = [] ∧ frag = (unitBytes u).take k)))

/-- The tags a drive over the first `k` bytes has emitted (independent of
the chunking). -/
def tagsUpTo : List EncUnit → Nat → List Tag
  | [], _ => []
  | u :: us, k =>
    if (unitBytes u).length ≤ k then
      unitTag u :: tagsUpTo us (k - (unitBytes u).length)
    else if isMarkerU u = true ∧ k = 5 then [unitTag u]
    else []

theorem unitBytes_pos (u : EncUnit) : 0 < (unitBytes u).length := by
  cases u
  · rw [unitBytes, fieldBytes]
    simp
  · rw [unitBytes, encode_eoh]
    simp
  · rw [unitBytes, encode_eor]
    simp

theorem tagsUpTo_zero (us : List EncUnit) : tagsUpTo us 0 = [] := by
  cases us with
  | nil => rfl
  | cons u us =>
    rw [tagsUpTo]
    rw [if_neg (by have h1 := unitBytes_pos u; omega)]
    rw [if_neg (by intro hx; omega)]

theorem InvCfg_zero (us : List EncUnit) : InvCfg us 0 [] [] := by
  cases us with
  | nil => exact ⟨rfl, rfl⟩
  | cons u us =>
    refine Or.inr ⟨unitBytes_pos u, Or.inr ⟨?_, rfl, by rw [List.take_zero]⟩⟩
    intro hx
    omega

theorem drain_single_emit {st : TagDecoder} {B : ByteStr} {pt : ParserTag} {tm : Tag}
    (h : decode_inner st B = (.ok (some pt), advance_slice st B, []))
    (hmap : mapPT pt = some tm) :
    drainF st B false = ([tm], none, advance_slice st B, []) := by
  rw [drainF_eq]
  have hdec := decode_of_inner_some h false
  rw [hmap] at hdec
  rw [hdec]
  show (tm :: (drainF (advance_slice st B) [] false).1,
      (drainF (advance_slice st B) [] false).2.1,
      (drainF (advance_slice st B) [] false).2.2.1,
      (drainF (advance_slice st B) [] false).2.2.2) =
    ([tm], none, advance_slice st B, [])
  rw [drainF_nil]

/-- One chunk of `m` fresh stream bytes moves any reachable configuration
at offset `n` to a reachable configuration at offset `n + m`, emitting
exactly the tags between the two offsets and never failing. -/
theorem inv_step (units : List EncUnit) :
    ∀ (st0 : TagDecoder) (n m : Nat) (done frag : ByteStr),
      (∀ u2 ∈ units, wfUnit u2) →
      n + m ≤ ((units.map unitBytes).flatten).length →
      InvCfg units n done frag →
      ∃ delta done2 frag2,
        drainF (advance_slice st0 done)
            (frag ++ (((units.map unitBytes).flatten).drop n).take m) false =
          (delta, none, advance_slice st0 done2, frag2) ∧
        InvCfg units (n + m) done2 frag2 ∧
        tagsUpTo units n ++ delta = tagsUpTo units (n + m) := by
  induction units with
  | nil =>
    intro st0 n m done frag _ _ hinv
    obtain ⟨rfl, rfl⟩ := hinv
    refine ⟨[], [], [], ?_, ⟨rfl, rfl⟩, rfl⟩
    show drainF (advance_slice st0 []) ([] ++ (([] : ByteStr).drop n).take m) false = _
    rw [List.drop_nil, List.take_nil, List.append_nil]
    exact drainF_nil _ false
  | cons u us ih =>
    intro st0 n m done frag hwf hnm hinv
    have hwfu : wfUnit u := hwf u (List.mem_cons_self _ _)
    have hwf2 : ∀ u2 ∈ us, wfUnit u2 := fun u2 h2 => hwf u2 (List.mem_cons_of_mem _ h2)
    have hS : ((((u :: us).map unitBytes).flatten : ByteStr)) =
        unitBytes u ++ (us.map unitBytes).flatten := rfl
    have hlenS : ((((u :: us).map unitBytes).flatten : ByteStr)).length =
        (unitBytes u).length + ((us.map unitBytes).flatten).length := by
      rw [hS, List.length_append]
    rcases hinv with ⟨hle, hA⟩ | ⟨hlt, hD⟩
    · rcases hA with ⟨d2, rfl, hinv2⟩ | ⟨hmk, hkeq, rfl, rfl⟩
      · -- a complete first unit, recursed configuration
        have hdropS : ((((u :: us).map unitBytes).flatten : ByteStr)).drop n =
            ((us.map unitBytes).flatten).drop (n - (unitBytes u).length) := by
          rw [hS, List.drop_append_eq_append_drop,
            List.drop_eq_nil_of_le hle, List.nil_append]
        obtain ⟨delta, done2, frag2, hdrain, hinv3, htags⟩ :=
          ih (advance_slice st0 (unitBytes u)) (n - (unitBytes u).length) m d2 frag
            hwf2 (by rw [hlenS] at hnm; omega) hinv2
        rw [show n - (unitBytes u).length + m = n + m - (unitBytes u).length from by omega]
          at hinv3 htags
        refine ⟨delta, unitBytes u ++ done2, frag2, ?_, ?_, ?_⟩
        · rw [hdropS, advance_slice_append st0 (unitBytes u) d2,
            advance_slice_append st0 (unitBytes u) done2]
          exact hdrain
        · exact Or.inl ⟨by omega, Or.inl ⟨done2, rfl, hinv3⟩⟩
        · rw [tagsUpTo, if_pos hle, tagsUpTo, if_pos (by omega), List.cons_append, htags]
      · -- lagged newline after a marker
        have h6 := marker_len hmk
        have hdropS : ((((u :: us).map unitBytes).flatten : ByteStr)).drop n =
            (us.map unitBytes).flatten := by
          rw [hS, List.drop_append_eq_append_drop,
            List.drop_eq_nil_of_le (by omega), List.nil_append,
            show n - (unitBytes u).length = 0 from by omega, List.drop_zero]
        by_cases hm0 : m = 0
        · subst hm0
          refine ⟨[], (unitBytes u).take 5, [10], ?_, ?_, ?_⟩
          · rw [hdropS, List.take_zero, List.append_nil]
            exact drain_needMore (decode_inner_no_lt (by decide))
          · rw [Nat.add_zero]
            exact Or.inl ⟨hle, Or.inr ⟨hmk, hkeq, rfl, rfl⟩⟩
          · rw [Nat.add_zero, List.append_nil]
        · obtain ⟨m1, rfl⟩ : ∃ m1, m = m1 + 1 := ⟨m - 1, by omega⟩
          have hTlen : m1 + 1 ≤ ((us.map unitBytes).flatten).length := by
            rw [hlenS] at hnm
            omega
          rcases units_flatten_head us with hnil | ⟨t0, ht0⟩
          · exfalso
            rw [hnil] at hTlen
            simp at hTlen
          · have htake : ((us.map unitBytes).flatten).take (m1 + 1) =
                60 :: t0.take m1 := by
              rw [ht0, List.take_succ_cons]
            obtain ⟨delta, done2, frag2, hdrain, hinv3, htags⟩ :=
              ih (advance_slice st0 (unitBytes u)) 0 (m1 + 1) [] [] hwf2
                (by omega) (InvCfg_zero us)
            rw [show (0 : Nat) + (m1 + 1) = m1 + 1 from by omega] at hinv3 htags
            rw [tagsUpTo_zero, List.nil_append] at htags
            refine ⟨delta, unitBytes u ++ done2, frag2, ?_, ?_, ?_⟩
            · rw [hdropS, htake]
              show drainF (advance_slice st0 ((unitBytes u).take 5))
                  (([10] : ByteStr) ++ 60 :: t0.take m1) false = _
              rw [drainF_skip_pre (by decide) false,
                ← advance_slice_append st0 ((unitBytes u).take 5) [10],
                marker_take5_newline hmk, ← htake,
                advance_slice_append st0 (unitBytes u) done2]
              exact hdrain
            · refine Or.inl ⟨by omega, Or.inl ⟨done2, rfl, ?_⟩⟩
              rw [show n + (m1 + 1) - (unitBytes u).length = m1 + 1 from by omega]
              exact hinv3
            · rw [tagsUpTo, if_pos hle, tagsUpTo, if_pos (by omega),
                show n + (m1 + 1) - (unitBytes u).length = m1 + 1 from by omega,
                show n - (unitBytes u).length = 0 from by omega, tagsUpTo_zero,
                htags]
              rfl
    · rcases hD with ⟨hmk, hn5, rfl, rfl⟩ | ⟨hnm5, rfl, rfl⟩
      · -- the five-byte marker prefix, already emitted
        have h6 := marker_len hmk
        subst hn5
        have hdropS : ((((u :: us).map unitBytes).flatten : ByteStr)).drop 5 =
            [10] ++ (us.map unitBytes).flatten := by
          rw [hS, List.drop_append_eq_append_drop,
            show 5 - (unitBytes u).length = 0 from by omega, List.drop_zero,
            marker_drop5 hmk]
        by_cases hm0 : m = 0
        · subst hm0
          refine ⟨[], (unitBytes u).take 5, [], ?_, ?_, ?_⟩
          · rw [List.take_zero, List.append_nil]
            exact drainF_nil _ false
          · exact Or.inr ⟨hlt, Or.inl ⟨hmk, rfl, rfl, rfl⟩⟩
          · rw [List.append_nil]
        · obtain ⟨m1, rfl⟩ : ∃ m1, m = m1 + 1 := ⟨m - 1, by omega⟩
          have hbuf : ((([10] : ByteStr) ++ (us.map unitBytes).flatten).take (m1 + 1)) =
              10 :: ((us.map unitBytes).flatten).take m1 := by
            rw [show ([10] : ByteStr) ++ (us.map unitBytes).flatten =
              10 :: (us.map unitBytes).flatten from rfl, List.take_succ_cons]
          by_cases hm1 : m1 = 0
          · subst hm1
            refine ⟨[], (unitBytes u).take 5, [10], ?_, ?_, ?_⟩
            · rw [hdropS, hbuf, List.take_zero]
              show drainF (advance_slice st0 ((unitBytes u).take 5)) [10] false = _
              exact drain_needMore (decode_inner_no_lt (by decide))
            · exact Or.inl ⟨by omega, Or.inr ⟨hmk, by omega, rfl, rfl⟩⟩
            · rw [tagsUpTo, if_neg (by omega), if_pos ⟨hmk, rfl⟩,
                tagsUpTo, if_pos (by omega),
                show 5 + 1 - (unitBytes u).length = 0 from by omega, tagsUpTo_zero]
              rfl
          · have hTlen : m1 ≤ ((us.map unitBytes).flatten).length := by
              rw [hlenS] at hnm
              omega
            rcases units_flatten_head us with hnil | ⟨t0, ht0⟩
            · exfalso
              rw [hnil] at hTlen
              simp at hTlen
              omega
            · have htake : ((us.map unitBytes).flatten).take m1 =
                  60 :: t0.take (m1 - 1) := by
                rw [ht0]
                obtain ⟨m2, rfl⟩ : ∃ m2, m1 = m2 + 1 := ⟨m1 - 1, by omega⟩
                rw [List.take_succ_cons]
                simp
              obtain ⟨delta, done2, frag2, hdrain, hinv3, htags⟩ :=
                ih (advance_slice st0 (unitBytes u)) 0 m1 [] [] hwf2
                  (by omega) (InvCfg_zero us)
              rw [show (0 : Nat) + m1 = m1 from by omega] at hinv3 htags
              rw [tagsUpTo_zero, List.nil_append] at htags
              refine ⟨delta, unitBytes u ++ done2, frag2, ?_, ?_, ?_⟩
              · rw [hdropS, hbuf, htake]
                show drainF (advance_slice st0 ((unitBytes u).take 5))
                    (([10] : ByteStr) ++ 60 :: t0.take (m1 - 1)) false = _
                rw [drainF_skip_pre (by decide) false,
                  ← advance_slice_append st0 ((unitBytes u).take 5) [10],
                  marker_take5_newline hmk, ← htake,
                  advance_slice_append st0 (unitBytes u) done2]
                exact hdrain
              · refine Or.inl ⟨by omega, Or.inl ⟨done2, rfl, ?_⟩⟩
                rw [show 5 + (m1 + 1) - (unitBytes u).length = m1 from by omega]
                exact hinv3
              · rw [tagsUpTo, if_neg (by omega), if_pos ⟨hmk, rfl⟩,
                  tagsUpTo, if_pos (by omega),
                  show 5 + (m1 + 1) - (unitBytes u).length = m1 from by omega,
                  htags]
                rfl
      · -- a plain partial prefix of the first unit
        have hdropS : ((((u :: us).map unitBytes).flatten : ByteStr)).drop n =
            (unitBytes u).drop n ++ (us.map unitBytes).flatten := by
          rw [hS, List.drop_append_eq_append_drop,
            show n - (unitBytes u).length = 0 from by omega, List.drop_zero]
        have hbufeq : (unitBytes u).take n ++
            (((unitBytes u).drop n ++ (us.map unitBytes).flatten).take m) =
            (unitBytes u).take (n + m) ++
              ((us.map unitBytes).flatten).take (m - ((unitBytes u).length - n)) := by
          rw [List.take_append_eq_append_take, ← List.append_assoc]
          congr 1
          · exact (List.take_add _ _ _).symm
          · congr 1
            rw [List.length_drop]
        rcases Nat.lt_trichotomy (n + m) (unitBytes u).length with hc | hc | hc
        · -- still inside the first unit
          have hq : m - ((unitBytes u).length - n) = 0 := by omega
          by_cases hm5 : isMarkerU u = true ∧ n + m = 5
          · obtain ⟨hmk, h5⟩ := hm5
            refine ⟨[unitTag u], (unitBytes u).take 5, [], ?_, ?_, ?_⟩
            · rw [hdropS, hbufeq, hq, List.take_zero, List.append_nil, h5]
              exact drain_single_emit (decode_marker_whole5 u _ hmk) (mapPT_ptOfUnit u)
            · exact Or.inr ⟨hc, Or.inl ⟨hmk, h5, rfl, rfl⟩⟩
            · rw [tagsUpTo, if_neg (by omega), if_neg hnm5,
                tagsUpTo, if_neg (by omega), if_pos ⟨hmk, h5⟩]
              rfl
          · refine ⟨[], [], (unitBytes u).take (n + m), ?_, ?_, ?_⟩
            · rw [hdropS, hbufeq, hq, List.take_zero, List.append_nil]
              by_cases hz : n + m = 0
              · rw [hz, List.take_zero]
                exact drainF_nil _ false
              · exact drain_needMore (decode_unit_frag u _ (n + m) hwfu (by omega) hc hm5)
            · exact Or.inr ⟨hc, Or.inr ⟨hm5, rfl, rfl⟩⟩
            · rw [tagsUpTo, if_neg (by omega), if_neg hnm5,
                tagsUpTo, if_neg (by omega), if_neg hm5]
              rfl
        · -- the chunk completes the first unit exactly
          have hq : m - ((unitBytes u).length - n) = 0 := by omega
          refine ⟨[unitTag u], unitBytes u, [], ?_, ?_, ?_⟩
          · rw [hdropS, hbufeq, hq, List.take_zero, List.append_nil, hc, List.take_length]
            refine drain_single_emit ?_ (mapPT_ptOfUnit u)
            have h2 := decode_unit_inner u (advance_slice st0 []) [] hwfu rfl
            rwa [List.append_nil] at h2
          · refine Or.inl ⟨by omega, Or.inl ⟨[], (List.append_nil _).symm, ?_⟩⟩
            rw [show n + m - (unitBytes u).length = 0 from by omega]
            exact InvCfg_zero us
          · rw [tagsUpTo, if_neg (by omega), if_neg hnm5, tagsUpTo, if_pos (by omega),
              show n + m - (unitBytes u).length = 0 from by omega, tagsUpTo_zero]
            rfl
        · -- the chunk runs past the first unit
          have hq : m - ((unitBytes u).length - n) = n + m - (unitBytes u).length := by
            omega
          have hTlen : n + m - (unitBytes u).length ≤
              ((us.map unitBytes).flatten).length := by
            rw [hlenS] at hnm
            omega
          have hTne : (us.map unitBytes).flatten ≠ [] := by
            intro hx
            rw [hx] at hTlen
            simp at hTlen
            omega
          rcases units_flatten_head us with hnil | ⟨t0, ht0⟩
          · exact absurd hnil hTne
          · have hws : (((us.map unitBytes).flatten).take
                (n + m - (unitBytes u).length)).takeWhile isWsByte = [] := by
              refine takeWhile_ws_60
                ⟨(((us.map unitBytes).flatten).take (n + m - (unitBytes u).length)).tail, ?_⟩
              rw [ht0]
              obtain ⟨q1, hq1⟩ : ∃ q1, n + m - (unitBytes u).length = q1 + 1 :=
                ⟨n + m - (unitBytes u).length - 1, by omega⟩
              rw [hq1, List.take_succ_cons]
              rfl
            obtain ⟨delta, done2, frag2, hdrain, hinv3, htags⟩ :=
              ih (advance_slice st0 (unitBytes u)) 0 (n + m - (unitBytes u).length) [] []
                hwf2 (by omega) (InvCfg_zero us)
            rw [show (0 : Nat) + (n + m - (unitBytes u).length) =
              n + m - (unitBytes u).length from by omega] at hinv3 htags
            rw [tagsUpTo_zero, List.nil_append] at htags
            refine ⟨unitTag u :: delta, unitBytes u ++ done2, frag2, ?_, ?_, ?_⟩
            · rw [hdropS, hbufeq, hq, List.take_of_length_le (by omega),
                advance_slice_append st0 (unitBytes u) done2]
              exact drain_step_unit (decode_unit_inner u _ _ hwfu hws)
                (mapPT_ptOfUnit u) hdrain
            · exact Or.inl ⟨by omega, Or.inl ⟨done2, rfl, hinv3⟩⟩
            · rw [tagsUpTo, if_neg (by omega), if_neg hnm5, tagsUpTo, if_pos (by omega),
                htags]
              rfl

/-- At the end of the stream the pending fragment is empty or the lagged
newline of a marker. -/
theorem InvCfg_total :
    ∀ (units : List EncUnit) (n : Nat) (done frag : ByteStr),
      InvCfg units n done frag →
      n = ((units.map unitBytes).flatten).length →
      frag = [] ∨ frag = [10] := by
  intro units
  induction units with
  | nil =>
    intro n done frag hinv _
    exact Or.inl hinv.2
  | cons u us ih =>
    intro n done frag hinv hn
    have hlenS : ((((u :: us).map unitBytes).flatten : ByteStr)).length =
        (unitBytes u).length + ((us.map unitBytes).flatten).length := by
      rw [show ((((u :: us).map unitBytes).flatten : ByteStr)) =
        unitBytes u ++ (us.map unitBytes).flatten from rfl, List.length_append]
    rcases hinv with ⟨hle, hA⟩ | ⟨hlt, _⟩
    · rcases hA with ⟨d2, _, hinv2⟩ | ⟨_, _, _, hfrag⟩
      · exact ih (n - (unitBytes u).length) d2 frag hinv2 (by omega)
      · exact Or.inr hfrag
    · omega

/-- At the end of the stream every tag has been emitted. -/
theorem tagsUpTo_total (units : List EncUnit) :
    tagsUpTo units (((units.map unitBytes).flatten).length) = units.map unitTag := by
  induction units with
  | nil => rfl
  | cons u us ih =>
    have hlenS : ((((u :: us).map unitBytes).flatten : ByteStr)).length =
        (unitBytes u).length + ((us.map unitBytes).flatten).length := by
      rw [show ((((u :: us).map unitBytes).flatten : ByteStr)) =
        unitBytes u ++ (us.map unitBytes).flatten from rfl, List.length_append]
    rw [tagsUpTo, if_pos (by omega),
      show ((((u :: us).map unitBytes).flatten : ByteStr)).length -
        (unitBytes u).length = ((us.map unitBytes).flatten).length from by omega,
      ih, List.map_cons]

/-- The chunk phase never fails on the remainder of a well-formed
encoder stream, and emits exactly the remaining tags. -/
theorem chunk_run (units : List EncUnit) (hwf : ∀ u2 ∈ units, wfUnit u2) :
    ∀ (cs : List ByteStr) (st0 : TagDecoder) (n : Nat) (done frag : ByteStr),
      InvCfg units n done frag →
      n ≤ ((units.map unitBytes).flatten).length →
      ((units.map unitBytes).flatten).drop n = cs.flatten →
      ∃ delta done2 frag2,
        chunkPhase (advance_slice st0 done) frag cs =
          (delta, none, advance_slice st0 done2, frag2) ∧
        InvCfg units (((units.map unitBytes).flatten).length) done2 frag2 ∧
        tagsUpTo units n ++ delta =
          tagsUpTo units (((units.map unitBytes).flatten).length) := by
  intro cs
  induction cs with
  | nil =>
    intro st0 n done frag hinv hn hrest
    have hn2 : n = ((units.map unitBytes).flatten).length := by
      have := congrArg List.length hrest
      rw [List.length_drop] at this
      simp only [List.flatten_nil, List.length_nil] at this
      omega
    refine ⟨[], done, frag, rfl, ?_, ?_⟩
    · rw [← hn2]
      exact hinv
    · rw [List.append_nil, hn2]
  | cons c cs ih =>
    intro st0 n done frag hinv hn hrest
    have hlenr := congrArg List.length hrest
    rw [List.length_drop] at hlenr
    have hlenc : ((c :: cs).flatten : ByteStr).length =
        c.length + (cs.flatten : ByteStr).length := by
      rw [show ((c :: cs).flatten : ByteStr) = c ++ cs.flatten from rfl,
        List.length_append]
    have hbound : n + c.length ≤ ((units.map unitBytes).flatten).length := by omega
    obtain ⟨delta, done2, frag2, hdrain, hinv2, htags⟩ :=
      inv_step units st0 n c.length done frag hwf hbound hinv
    have htakec : ((((units.map unitBytes).flatten : ByteStr)).drop n).take c.length =
        c := by
      rw [hrest]
      exact List.take_left c cs.flatten
    rw [htakec] at hdrain
    have hdropc : (((units.map unitBytes).flatten : ByteStr)).drop (n + c.length) =
        cs.flatten := by
      rw [← List.drop_drop, hrest]
      exact List.drop_left c cs.flatten
    obtain ⟨delta2, done3, frag3, hchunk, hinv3, htags2⟩ :=
      ih st0 (n + c.length) done2 frag2 hinv2 (by omega) hdropc
    refine ⟨delta ++ delta2, done3, frag3, ?_, hinv3, ?_⟩
    · rw [chunkPhase, hdrain]
      show (delta ++ (chunkPhase (advance_slice st0 done2) frag2 cs).1,
        (chunkPhase (advance_slice st0 done2) frag2 cs).2.1,
        (chunkPhase (advance_slice st0 done2) frag2 cs).2.2.1,
        (chunkPhase (advance_slice st0 done2) frag2 cs).2.2.2) = _
      rw [hchunk]
    · rw [← List.append_assoc, htags, htags2]

theorem recordsUnits_wf (types : OutputTypes) (rs : List Record)
    (hwf : ∀ r ∈ rs, ∀ p ∈ r.fields, validName p.1 = true ∧ wfDatum p.2 = true) :
    ∀ u ∈ recordsUnits types rs, wfUnit u := by
  intro u hu
  unfold recordsUnits at hu
  rcases List.mem_flatten.mp hu with ⟨l, hl, hul⟩
  rcases List.mem_map.mp hl with ⟨r, hr, rfl⟩
  exact recordUnits_wf types r (hwf r hr) u hul

/-- Any chunking of a well-formed encoder stream runs to completion with
the full tag list and no error. -/
theorem run_units (units : List EncUnit) (hwf : ∀ u2 ∈ units, wfUnit u2)
    (cs : List ByteStr) (hflat : cs.flatten = (units.map unitBytes).flatten) :
    runFrom (TagDecoder.new_stream true) cs = (units.map unitTag, none) := by
  obtain ⟨delta, done2, frag2, hchunk, hinv2, htags⟩ :=
    chunk_run units hwf cs (TagDecoder.new_stream true) 0 [] [] (InvCfg_zero units)
      (Nat.zero_le _) (by rw [List.drop_zero, hflat])
  rw [tagsUpTo_zero, List.nil_append, tagsUpTo_total] at htags
  have hip : TagDecoder.ignore_partial (advance_slice (TagDecoder.new_stream true) done2) = true :=
    advance_slice_ip _ done2
  have heof : drainF (advance_slice (TagDecoder.new_stream true) done2) frag2 false =
      ([], none, advance_slice (TagDecoder.new_stream true) done2, frag2) := by
    rcases InvCfg_total units (((units.map unitBytes).flatten).length) done2 frag2
        hinv2 rfl with h | h
    · rw [h]
      exact drainF_nil _ false
    · rw [h]
      exact drain_needMore (decode_inner_no_lt (by decide))
  unfold runFrom
  rw [show chunkPhase (TagDecoder.new_stream true) [] cs =
      chunkPhase (advance_slice (TagDecoder.new_stream true) []) [] cs from rfl,
    hchunk]
  show (delta ++
      (drainF (advance_slice (TagDecoder.new_stream true) done2) frag2
        (!TagDecoder.ignore_partial (advance_slice (TagDecoder.new_stream true) done2))).1,
      (drainF (advance_slice (TagDecoder.new_stream true) done2) frag2
        (!TagDecoder.ignore_partial (advance_slice (TagDecoder.new_stream true) done2))).2.1) = _
  rw [hip, Bool.not_true, heof, htags, List.append_nil]

/-- Claim C2 (amended): for a stream produced by encoding any list of
records with well-formed fields (names valid UTF-8 without `:` or `>`,
values well-formed non-DateTime), and a decoder configured with
`ignore_partial = true`, every way of splitting the stream into
consecutive chunks produces exactly the same result as decoding it in
one shot — the full tag sequence (hence the same aggregated records)
and no error.  The claim's unqualified "every valid ADIF byte stream"
under both policies fails: with `ignore_partial = false` a chunk
boundary between a record marker and its trailing newline turns a
cleanly-ending stream into a partial-data error. -/
theorem c2_chunking_invariance (types : OutputTypes) (rs : List Record)
    (cs : List ByteStr) (stream : ByteStr)
    (hwf : ∀ r ∈ rs, ∀ p ∈ r.fields, validName p.1 = true ∧ wfDatum p.2 = true)
    (henc : encodeRecords types rs = .ok stream)
    (hflat : cs.flatten = stream) :
    runChunks true cs = runOneshot true stream ∧ (runChunks true cs).2 = none := by
  have h3 := encodeRecords_ok types rs hwf
  rw [henc] at h3
  have hst : stream = ((recordsUnits types rs).map unitBytes).flatten :=
    Except.ok.inj h3
  have hwfu := recordsUnits_wf types rs hwf
  have h1 : runChunks true cs = ((recordsUnits types rs).map unitTag, none) :=
    run_units _ hwfu cs (by rw [hflat, hst])
  have h2 : runOneshot true stream = ((recordsUnits types rs).map unitTag, none) :=
    run_units _ hwfu [stream]
      (by rw [show ([stream] : List ByteStr).flatten = stream ++ [] from rfl,
        List.append_nil, hst])
  exact ⟨by rw [h1, h2], by rw [h1]⟩

theorem c2_chunking_invariance_witness :
    runChunks true
        [[60, 99, 97, 108, 108, 58, 52, 62, 87, 49, 65, 87, 60, 101, 111, 114, 62],
          [10]] =
      runOneshot true
        [60, 99, 97, 108, 108, 58, 52, 62, 87, 49, 65, 87, 60, 101, 111, 114, 62, 10] ∧
    (runChunks true
        [[60, 99, 97, 108, 108, 58, 52, 62, 87, 49, 65, 87, 60, 101, 111, 114, 62],
          [10]]).2 = none :=
  c2_chunking_invariance .never
    [⟨false, [([99, 97, 108, 108], Datum.string [87, 49, 65, 87])]⟩]
    [[60, 99, 97, 108, 108, 58, 52, 62, 87, 49, 65, 87, 60, 101, 111, 114, 62], [10]]
    [60, 99, 97, 108, 108, 58, 52, 62, 87, 49, 65, 87, 60, 101, 111, 114, 62, 10]
    (by decide) (by decide) (by decide)

/-- Claim C2 (counterexample): the encoder-produced — hence valid — 18-byte
stream `<call:4>W1AW<eor>\n` decoded strictly in one shot ends cleanly
with two tags, but split into the 17-byte prefix and the lone trailing
newline, the incremental strict run ends with a partial-data error at
line 1, column 18, byte 17: the chunked and one-shot runs differ. -/
theorem c2_chunking_counterexample :
    encodeRecords .never
        [⟨false, [([99, 97, 108, 108], Datum.string [87, 49, 65, 87])]⟩] =
      .ok [60, 99, 97, 108, 108, 58, 52, 62, 87, 49, 65, 87, 60, 101, 111, 114, 62, 10] ∧
    runOneshot false
        [60, 99, 97, 108, 108, 58, 52, 62, 87, 49, 65, 87, 60, 101, 111, 114, 62, 10] =
      ([Tag.field [99, 97, 108, 108] (Datum.string [87, 49, 65, 87]), Tag.eor],
        none) ∧
    runChunks false
        [[60, 99, 97, 108, 108, 58, 52, 62, 87, 49, 65, 87, 60, 101, 111, 114, 62],
          [10]] =
      ([Tag.field [99, 97, 108, 108] (Datum.string [87, 49, 65, 87]), Tag.eor],
        some (.invalidFormat partialMsgBytes ⟨1, 18, 17⟩)) := by
  decide

end Adif
